import Mathlib

/-!
Verification development for `scripts/audit-runlog.py`, a log-signature
clustering engine.  Strings are modelled as `List Char`.  Character classes
use ASCII semantics: Python's word class, whitespace class and `str.lower`
agree with this model on ASCII text, which is the domain of the log format.
Regular-expression substitutions are modelled by executable left-to-right
scanners that reproduce the leftmost-match, non-overlapping semantics of
`re.sub`, including the deterministic outcome of backtracking for the
concrete patterns used by the script.
-/

namespace RunlogAudit

abbrev Str := List Char


/-- Word characters for Python's word-boundary semantics on ASCII text. -/
def isWordChar (c : Char) : Bool := c.isAlphanum || c = '_'


/-- Whitespace recognized by Python's `str.strip` and the regex space class
on ASCII text. -/
def isPySpace (c : Char) : Bool :=
  c = ' ' || c = '\t' || c = '\n' || c = '\r' || c = '\x0b' || c = '\x0c'


/-- Hexadecimal digit, both cases (the script compiles hex patterns with
IGNORECASE). -/
def isHexDigit (c : Char) : Bool :=
  c.isDigit || ('a' ≤ c && c ≤ 'f') || ('A' ≤ c && c ≤ 'F')


/-- The character class of task and request identifier bodies. -/
def isIdClass (c : Char) : Bool := isWordChar c || c = '-'


/-- The character class of a bracketed component name. -/
def isCompClass (c : Char) : Bool :=
  c.isAlphanum || c = '_' || c = ' ' || c = ':' || c = '-'


/-- Word boundary before a pattern that starts with a word character:
the previous character (if any) must not be a word character. -/
def boundaryOk (prev : Option Char) : Bool :=
  match prev with
  | none => true
  | some c => !isWordChar c


/-- Word boundary after a pattern that ends with a word character:
the next character (if any) must not be a word character. -/
def endBoundary (s : Str) : Bool :=
  match s with
  | [] => true
  | c :: _ => !isWordChar c


/-- Take exactly `n` characters satisfying `p`, returning them and the rest. -/
def takeExact (p : Char → Bool) : Nat → Str → Option (Str × Str)
  | 0, s => some ([], s)
  | _ + 1, [] => none
  | n + 1, c :: cs =>
    if p c then (takeExact p n cs).map (fun r => (c :: r.1, r.2)) else none


/-- Expect one literal character. -/
def expectChar (c : Char) : Str → Option Str
  | [] => none
  | d :: rest => if d = c then some rest else none


/-- Take one or more characters satisfying `p` (a greedy plus). -/
def takeSome (p : Char → Bool) (s : Str) : Option (Str × Str) :=
  let r := s.takeWhile p
  if r = [] then none else some (r, s.drop r.length)


/-- Take zero or more characters satisfying `p` (a greedy star). -/
def takeStar (p : Char → Bool) (s : Str) : Str × Str :=
  (s.takeWhile p, s.drop (s.takeWhile p).length)


/-- Expect a literal string. -/
def expectLit (lit : Str) (s : Str) : Option Str :=
  if lit.isPrefixOf s then some (s.drop lit.length) else none


/-! ### Matchers

Each matcher takes the previous original character (for word-boundary
checks) and the remaining input, and returns the matched text together with
the remainder of the input, or `none` when the pattern does not match at
this position. -/

/-- Matcher for `UUID_RE`: 8-4-4-4-12 hex groups with word boundaries. -/
def matchUuid (prev : Option Char) (s : Str) : Option (Str × Str) :=
  if !boundaryOk prev then none else
  (takeExact isHexDigit 8 s).bind fun r1 =>
  (expectChar '-' r1.2).bind fun s2 =>
  (takeExact isHexDigit 4 s2).bind fun r2 =>
  (expectChar '-' r2.2).bind fun s3 =>
  (takeExact isHexDigit 4 s3).bind fun r3 =>
  (expectChar '-' r3.2).bind fun s4 =>
  (takeExact isHexDigit 4 s4).bind fun r4 =>
  (expectChar '-' r4.2).bind fun s5 =>
  (takeExact isHexDigit 12 s5).bind fun r5 =>
  if endBoundary r5.2 then
    some (r1.1 ++ '-' :: r2.1 ++ '-' :: r3.1 ++ '-' :: r4.1 ++ '-' :: r5.1, r5.2)
  else none


/-- Matcher for an identifier pattern `lit` followed by a nonempty run of
identifier-class characters and a trailing word boundary.  The greedy run
backtracks over trailing hyphens, exactly as the regex engine does, because
the character after the run is never a word character. -/
def matchIdent (lit : Str) (prev : Option Char) (s : Str) : Option (Str × Str) :=
  if !boundaryOk prev then none else
  if lit.isPrefixOf s then
    let rest := s.drop lit.length
    let run := rest.takeWhile isIdClass
    let body := run.rdropWhile (· = '-')
    if body = [] then none
    else some (lit ++ body, rest.drop body.length)
  else none


/-- Matcher for `TASK_RE`. -/
def matchTask : Option Char → Str → Option (Str × Str) :=
  matchIdent "cognitive-task-".toList


/-- Matcher for `REQ_RE`. -/
def matchReq : Option Char → Str → Option (Str × Str) :=
  matchIdent "ep-".toList


/-- Matcher for `HEX_RE`: a run of 8 or more hex digits delimited by word
boundaries.  No shorter run can match, because every proper prefix of the
run is followed by a hex digit, which is a word character. -/
def matchHex (prev : Option Char) (s : Str) : Option (Str × Str) :=
  if !boundaryOk prev then none else
  let run := s.takeWhile isHexDigit
  if 8 ≤ run.length && endBoundary (s.drop run.length) then
    some (run, s.drop run.length)
  else none


/-- Matcher for `NUM_RE`: a run of 3 or more digits delimited by word
boundaries. -/
def matchNum (prev : Option Char) (s : Str) : Option (Str × Str) :=
  if !boundaryOk prev then none else
  let run := s.takeWhile Char.isDigit
  if 3 ≤ run.length && endBoundary (s.drop run.length) then
    some (run, s.drop run.length)
  else none


/-- Matcher for `HTTP_TIMING_RE`: exactly three digits, spaces, `in`,
spaces, digits, `ms`, with word boundaries at both ends.  A fourth digit
makes the mandatory space run empty, so the match fails, matching the
regex's behavior for the fixed `{3}` counter. -/
def matchHttpTiming (prev : Option Char) (s : Str) : Option (Str × Str) :=
  if !boundaryOk prev then none else
  (takeExact Char.isDigit 3 s).bind fun r1 =>
  (takeSome isPySpace r1.2).bind fun w1 =>
  (expectLit "in".toList w1.2).bind fun s2 =>
  (takeSome isPySpace s2).bind fun w2 =>
  (takeSome Char.isDigit w2.2).bind fun ds =>
  (expectLit "ms".toList ds.2).bind fun s5 =>
  if endBoundary s5 then
    some (r1.1 ++ w1.1 ++ "in".toList ++ w2.1 ++ ds.1 ++ "ms".toList, s5)
  else none


/-- Matcher for `DURATION_RE`: digits, optional spaces, `ms`, with word
boundaries at both ends. -/
def matchDuration (prev : Option Char) (s : Str) : Option (Str × Str) :=
  if !boundaryOk prev then none else
  (takeSome Char.isDigit s).bind fun ds =>
  (expectLit "ms".toList (takeStar isPySpace ds.2).2).bind fun s3 =>
  if endBoundary s3 then
    some (ds.1 ++ (takeStar isPySpace ds.2).1 ++ "ms".toList, s3)
  else none


/-- Matcher for `ANSI_RE`: a CSI sequence `ESC [ digits/semicolons letter`,
or an OSC sequence `ESC ] ... BEL` where the dot of the regex cannot cross
a newline and the non-greedy star stops at the first BEL. -/
def matchAnsi (_prev : Option Char) (s : Str) : Option (Str × Str) :=
  match s with
  | '\x1b' :: '[' :: rest =>
    let run := rest.takeWhile (fun c => c.isDigit || c = ';')
    match rest.drop run.length with
    | c :: rem =>
      if c.isAlpha then some ('\x1b' :: '[' :: (run ++ [c]), rem) else none
    | [] => none
  | '\x1b' :: ']' :: rest =>
    let pre := rest.takeWhile (fun c => c ≠ '\x07' && c ≠ '\n')
    match rest.drop pre.length with
    | '\x07' :: rem => some ('\x1b' :: ']' :: (pre ++ ['\x07']), rem)
    | _ => none
  | _ => none


/-! ### The generic substitution scanner -/

/-- One fueled step of `re.sub`: at each position try the matcher; on a
match emit the replacement and continue after the matched text, otherwise
keep one character.  `prev` tracks the last character of the original
string consumed so far, which is what word-boundary checks inspect. -/
def substF (mt : Option Char → Str → Option (Str × Str)) (repl : Str) :
    Nat → Option Char → Str → Str
  | 0, _, s => s
  | fuel + 1, prev, s =>
    match s with
    | [] => []
    | c :: rest =>
      match mt prev s with
      | some (m, rem) => repl ++ substF mt repl fuel m.getLast? rem
      | none => c :: substF mt repl fuel (some c) rest


/-- `re.sub` for a matcher and replacement, with enough fuel. -/
def subst (mt : Option Char → Str → Option (Str × Str)) (repl : Str) (s : Str) : Str :=
  substF mt repl s.length none s


def ansiSub (s : Str) : Str := subst matchAnsi [] s

def uuidSub (s : Str) : Str := subst matchUuid "<UUID>".toList s

def taskSub (s : Str) : Str := subst matchTask "<TASK>".toList s

def reqSub (s : Str) : Str := subst matchReq "<REQ>".toList s

def hexSub (s : Str) : Str := subst matchHex "<HEX>".toList s

def httpTimingSub (s : Str) : Str := subst matchHttpTiming "<STATUS> in <DUR>".toList s

def durationSub (s : Str) : Str := subst matchDuration "<DUR>".toList s

def numSub (s : Str) : Str := subst matchNum "<NUM>".toList s


/-- Substitution for `JSON_TAIL_RE` and `JSON_ARRAY_TAIL_RE`: at a colon
followed by optional whitespace and the opening character, the dot-star
runs to the end of the line; with no MULTILINE flag the dollar anchor only
matches at the end of the string or just before one final newline. -/
def jsonTailSub (openCh : Char) : Str → Str
  | [] => []
  | c :: rest =>
    if c = ':' then
      let w := rest.takeWhile isPySpace
      match rest.drop w.length with
      | o :: tail2 =>
        if o = openCh then
          if tail2.count '\n' = 0 then
            ':' :: (w ++ "<JSON>".toList)
          else if tail2.count '\n' = 1 && tail2.getLast? = some '\n' then
            ':' :: (w ++ "<JSON>".toList ++ ['\n'])
          else ':' :: jsonTailSub openCh rest
        else ':' :: jsonTailSub openCh rest
      | [] => ':' :: jsonTailSub openCh rest
    else c :: jsonTailSub openCh rest


/-! ### The classification and normalization functions of the script -/

/-- Python `str.rstrip()` on ASCII text. -/
def pyrstrip (s : Str) : Str := s.rdropWhile isPySpace


/-- Python `str.strip()` on ASCII text. -/
def pystrip (s : Str) : Str := (s.dropWhile isPySpace).rdropWhile isPySpace


/-- `strip_ansi` of the script. -/
def strip_ansi (s : Str) : Str := ansiSub s


/-- `normalize_line` of the script: strip escapes and edge whitespace, then
apply the ordered replacement rules. -/
def normalize_line (s : Str) : Str :=
  jsonTailSub '['
    (jsonTailSub '{'
      (numSub
        (durationSub
          (httpTimingSub
            (hexSub
              (reqSub
                (taskSub
                  (uuidSub
                    (pystrip (strip_ansi s))))))))))


def lowerStr (s : Str) : Str := s.map Char.toLower


/-- Python's `in` on strings: the pattern occurs somewhere in the text. -/
def hasInfix (pat : Str) : Str → Bool
  | [] => pat.isPrefixOf ([] : Str)
  | c :: rest => pat.isPrefixOf (c :: rest) || hasInfix pat rest


/-- `detect_severity` of the script: substring checks against the
lower-cased text, first match wins. -/
def detect_severity (raw : Str) : String :=
  let l := lowerStr raw
  if hasInfix " fatal".toList l || "fatal".toList.isPrefixOf l then "FATAL"
  else if hasInfix " error".toList l || "error".toList.isPrefixOf l ||
      hasInfix "exception".toList l || hasInfix "traceback".toList l then "ERROR"
  else if hasInfix " warn".toList l || "warn".toList.isPrefixOf l ||
      hasInfix "warning".toList l || hasInfix "ignored".toList l ||
      hasInfix "not allowed".toList l then "WARN"
  else if hasInfix " fail".toList l || hasInfix "failed".toList l ||
      hasInfix "timeout".toList l || hasInfix "disconnected".toList l then "WARN"
  else "INFO"


/-- The bracketed-name part of `COMPONENT_RE` and `EMOJI_PREFIX_RE`: called
just after an opening bracket, it matches 2 to 64 name-class characters
followed by a closing bracket.  Only the full greedy run can be followed by
the closing bracket, since the bracket is not in the class. -/
def compAt (rest : Str) : Option Str :=
  let run := rest.takeWhile isCompClass
  if 2 ≤ run.length && run.length ≤ 64 && (rest.drop run.length).head? = some ']' then
    some run
  else none


/-- A bracketed component name read at the current position. -/
def bracketAt (s : Str) : Option Str :=
  match s with
  | c :: rest => if c = '[' then compAt rest else none
  | [] => none


/-- `extract_component` of the script: an anchored bracketed tag, else the
same tag allowed after a run of non-word, non-bracket lead-in characters. -/
def extract_component (s : Str) : Option Str :=
  match bracketAt s with
  | some r => some r
  | none =>
    let lead := s.takeWhile (fun c => !isWordChar c && c ≠ '[')
    bracketAt (s.drop lead.length)


/-- `PUNCT_ONLY_RE` of the script: only whitespace and JSON structural
characters. -/
def punct_only (s : Str) : Bool :=
  s.all (fun c => isPySpace c || c = '{' || c = '}' || c = '[' || c = ']' || c = ',')


/-- The fixed keyword vocabulary of the script. -/
def KEYWORDS : List Str :=
  ["updateTaskProgress", "updateTaskStatus", "verifyInventoryDelta",
   "No active session", "origin field ignored", "not allowed", "Disconnected",
   "Reconnected", "timeout", "report_episode", "trace_bundle_hash",
   "bindingHash", "normalizeActionResponse", "acquire_material",
   "collectBlock", "executeAction", "ok: true", "ok: false",
   "status transition", "ECONNREFUSED", "ECONNRESET", "socket hang up",
   "AbortError", "retry", "backoff", "circuit breaker"].map String.toList


/-- `keyword_hits` of the script. -/
def keyword_hits (s : Str) : List Str :=
  KEYWORDS.filter (fun k => hasInfix (lowerStr k) (lowerStr s))


/-! ### Block collapsing -/

structure CollapsedLine where
  idx : Nat
  text : Str
  block_text : Str
deriving DecidableEq


instance : Inhabited CollapsedLine := ⟨⟨0, [], []⟩⟩


/-- Signed brace-depth contribution of one line. -/
def braceDelta (s : Str) : Int := (s.count '{' : Int) - (s.count '}' : Int)


/-- The inner loop of `collapse_brace_blocks`: consume lines while the
depth is positive, adjusting it by each consumed line's brace counts.
Returns the consumed raw lines and the remaining input. -/
def consumeBlock : Int → List (Nat × Str) → List Str × List (Nat × Str)
  | _, [] => ([], [])
  | d, p :: rest =>
    if d ≤ 0 then ([], p :: rest)
    else
      let r := consumeBlock (d + braceDelta p.2) rest
      (p.2 :: r.1, r.2)


/-- Fueled body of `collapse_brace_blocks`; each step consumes at least the
head line, so fuel equal to the input length is always sufficient. -/
def collapseF : Nat → List (Nat × Str) → List CollapsedLine
  | 0, _ => []
  | _ + 1, [] => []
  | fuel + 1, (idx, line) :: rest =>
    let stripped := pyrstrip line
    if stripped.getLast? = some '{' then
      let pfx := pyrstrip stripped.dropLast
      let r := consumeBlock (braceDelta stripped) rest
      let synth := if pfx = [] then "<OBJECT>".toList else pfx ++ " <OBJECT>".toList
      ⟨idx, synth, List.intercalate ['\n'] (line :: r.1)⟩ :: collapseF fuel r.2
    else
      ⟨idx, line, line⟩ :: collapseF fuel rest


/-- `collapse_brace_blocks` of the script. -/
def collapse_brace_blocks (l : List (Nat × Str)) : List CollapsedLine :=
  collapseF l.length l

@[simp] theorem collapse_brace_blocks_nil : collapse_brace_blocks [] = [] := rfl


/-! ### Clustering -/

structure Cluster where
  signature : Str
  severity : String
  component : Str
  count : Nat
  first_seen_line : Nat
  last_seen_line : Nat
  examples : List Str
  keywords : List Str
deriving DecidableEq


instance : Inhabited Cluster := ⟨⟨[], "", [], 0, 0, 0, [], []⟩⟩


abbrev Key := Str × String × Str


/-- The clustering key of one collapsed entry. -/
def entryKey (cl : CollapsedLine) : Key :=
  (match extract_component cl.text with
   | some c => c
   | none => "<no-component>".toList,
   detect_severity cl.block_text,
   normalize_line cl.text)


/-- The signature string of a key. -/
def keySignature (k : Key) : Str :=
  k.1 ++ " | ".toList ++ k.2.1.toList ++ " | ".toList ++ k.2.2


/-- A cluster as first created for a key, before the first update. -/
def newCluster (k : Key) (idx : Nat) : Cluster :=
  { signature := k.1 ++ " | ".toList ++ k.2.1.toList ++ " | ".toList ++ k.2.2
    severity := k.2.1
    component := k.1
    count := 0
    first_seen_line := idx
    last_seen_line := idx
    examples := []
    keywords := [] }


/-- Fold new keyword hits into the cluster's keyword list, preserving
first-seen order and skipping duplicates. -/
def addKeywords (ks : List Str) (hits : List Str) : List Str :=
  hits.foldl (fun acc h => if h ∈ acc then acc else acc ++ [h]) ks


/-- The per-entry mutation of a cluster. -/
def updateCluster (c : Cluster) (e : CollapsedLine) : Cluster :=
  { c with
    count := c.count + 1
    last_seen_line := e.idx
    examples := if c.examples.length < 5 then c.examples ++ [e.text] else c.examples
    keywords := addKeywords c.keywords (keyword_hits e.block_text) }


/-- One step of the clustering fold over an insertion-ordered association
list, mirroring the Python dict. -/
def stepCluster (m : List (Key × Cluster)) (e : CollapsedLine) : List (Key × Cluster) :=
  if pystrip e.text = [] then m
  else
    let k := entryKey e
    if m.any (fun kv => kv.1 = k) then
      m.map (fun kv => if kv.1 = k then (kv.1, updateCluster kv.2 e) else kv)
    else
      m ++ [(k, updateCluster (newCluster k e.idx) e)]


/-- Severity weight used for ranking, with the dict-get default 0. -/
def sevWeight (s : String) : Nat :=
  if s = "FATAL" then 4
  else if s = "ERROR" then 3
  else if s = "WARN" then 2
  else if s = "INFO" then 1
  else 0


/-- The ranking key of a cluster. -/
def rankKey (c : Cluster) : Nat × Nat := (sevWeight c.severity, c.count)


/-- Strict lexicographic comparison of ranking keys. -/
def rankLt (a b : Cluster) : Bool :=
  (rankKey a).1 < (rankKey b).1 ||
    ((rankKey a).1 = (rankKey b).1 && (rankKey a).2 < (rankKey b).2)


/-- Stable insertion for a descending sort: an element moves past exactly
the elements with strictly greater ranking key, so elements with equal keys
keep their original relative order, as Python's stable `sorted` with
`reverse=True` does. -/
def insertDesc (x : Cluster) : List Cluster → List Cluster
  | [] => [x]
  | h :: t => if rankLt x h then h :: insertDesc x t else x :: h :: t


/-- Stable descending sort by ranking key. -/
def sortClusters : List Cluster → List Cluster
  | [] => []
  | x :: xs => insertDesc x (sortClusters xs)


/-! ### The pipeline -/

/-- Phase 1 of `process_log`: enumerate lines from 1, strip escape
sequences, drop blank lines. -/
def phase1 (lines : List Str) : List (Nat × Str) :=
  ((List.enumFrom 1 lines).map (fun p => (p.1, strip_ansi p.2))).filter
    (fun p => pystrip p.2 ≠ [])


/-- Phases 1 to 3 of `process_log`: the entries that survive escape
stripping, blank removal, collapsing and the structural filter. -/
def survivors (lines : List Str) : List CollapsedLine :=
  (collapse_brace_blocks (phase1 lines)).filter (fun cl => !punct_only cl.text)


/-- The insertion-ordered cluster map built by phase 4 of `process_log`. -/
def clusterMap (lines : List Str) : List (Key × Cluster) :=
  (survivors lines).foldl stepCluster []


/-- `process_log` of the script: the ranked cluster list. -/
def process_log (lines : List Str) : List Cluster :=
  sortClusters ((clusterMap lines).map Prod.snd)


/-! ### Output rendering -/

/-- Hex digit characters for JSON escapes, lower case as Python renders
them. -/
def hexDigitChar (n : Nat) : Char :=
  if n < 10 then Char.ofNat (48 + n) else Char.ofNat (87 + n)


def hex4 (n : Nat) : Str :=
  [hexDigitChar (n / 4096 % 16), hexDigitChar (n / 256 % 16),
   hexDigitChar (n / 16 % 16), hexDigitChar (n % 16)]


/-- JSON string escaping as `json.dump` renders it with the default
`ensure_ascii`: named escapes for the common control characters, `\u`
escapes for the rest and for all non-ASCII characters, surrogate pairs
above the basic plane. -/
def jsonEscapeChar (c : Char) : Str :=
  if c = '"' then ['\\', '"']
  else if c = '\\' then ['\\', '\\']
  else if c = '\n' then ['\\', 'n']
  else if c = '\t' then ['\\', 't']
  else if c = '\r' then ['\\', 'r']
  else if c = '\x08' then ['\\', 'b']
  else if c = '\x0c' then ['\\', 'f']
  else if c.toNat < 32 then '\\' :: 'u' :: hex4 c.toNat
  else if c.toNat < 127 then [c]
  else if c.toNat < 65536 then '\\' :: 'u' :: hex4 c.toNat
  else
    '\\' :: 'u' :: hex4 (55296 + (c.toNat - 65536) / 1024) ++
      ('\\' :: 'u' :: hex4 (56320 + (c.toNat - 65536) % 1024))


def jsonString (s : Str) : Str :=
  '"' :: (s.flatMap jsonEscapeChar) ++ ['"']


def natStr (n : Nat) : Str := (Nat.repr n).toList


def newlineIndent (n : Nat) : Str := '\n' :: List.replicate n ' '


/-- A JSON list of strings at the given indent level, `json.dump` style
with `indent=2`. -/
def jsonStrList (ind : Nat) (xs : List Str) : Str :=
  match xs with
  | [] => "[]".toList
  | _ =>
    '[' :: List.intercalate [','] (xs.map (fun x => newlineIndent (ind + 2) ++ jsonString x)) ++
      newlineIndent ind ++ [']']


/-- One serialized cluster object at the given indent level, fields in
dataclass order. -/
def jsonCluster (ind : Nat) (c : Cluster) : Str :=
  '\x7b' ::
    (List.intercalate [',']
      ([jsonString "signature".toList ++ ": ".toList ++ jsonString c.signature,
       jsonString "severity".toList ++ ": ".toList ++ jsonString c.severity.toList,
       jsonString "component".toList ++ ": ".toList ++ jsonString c.component,
       jsonString "count".toList ++ ": ".toList ++ natStr c.count,
       jsonString "first_seen_line".toList ++ ": ".toList ++ natStr c.first_seen_line,
       jsonString "last_seen_line".toList ++ ": ".toList ++ natStr c.last_seen_line,
       jsonString "examples".toList ++ ": ".toList ++ jsonStrList (ind + 2) c.examples,
       jsonString "keywords".toList ++ ": ".toList ++ jsonStrList (ind + 2) c.keywords
      ].map (fun f => newlineIndent (ind + 2) ++ f)) ++
      newlineIndent ind ++ ['\x7d'])


/-- The whole structured output file, `json.dump([asdict(c) ...], indent=2)`. -/
def jsonOutput (ranked : List Cluster) : Str :=
  match ranked with
  | [] => "[]".toList
  | _ =>
    '[' :: (List.intercalate [','] (ranked.map (fun c => newlineIndent 2 ++ jsonCluster 2 c)) ++
      '\n' :: [']'])


/-- The total-unique-clusters line of the human-readable report. -/
def totalClustersLine (ranked : List Cluster) : Str :=
  "Total unique clusters: ".toList ++ natStr ranked.length ++ "\n\n".toList


/-! ### Claim-shaped reformulations

These definitions follow the wording of the specification claims, not the
source; they exist to be compared against the functions translated from
the source. -/

/-- Maximal runs of word characters, the usual notion of a token. -/
def wordTokens (s : Str) : List Str :=
  (s.splitOnP (fun c => !isWordChar c)).filter (· ≠ [])


/-- The claim's reading of a severity marker: present as a whole token, or
as the leading word of the text. -/
def token_or_leading (w : Str) (l : Str) : Bool :=
  (wordTokens l).contains w || w.isPrefixOf l


/-- Severity classification as claim C3 words it: token-or-leading-word
matching for the FATAL and ERROR and WARN words, plain containment for the
remaining markers. -/
def claim_severity (raw : Str) : String :=
  let l := lowerStr raw
  if token_or_leading "fatal".toList l then "FATAL"
  else if token_or_leading "error".toList l || hasInfix "exception".toList l ||
      hasInfix "traceback".toList l then "ERROR"
  else if token_or_leading "warn".toList l || hasInfix "warning".toList l ||
      hasInfix "ignored".toList l || hasInfix "not allowed".toList l ||
      hasInfix "fail".toList l || hasInfix "failed".toList l ||
      hasInfix "timeout".toList l || hasInfix "disconnected".toList l then "WARN"
  else "INFO"


/-- The FATAL condition the code actually checks: the substring
`" fatal"` or the leading word `fatal` of the lower-cased text. -/
def fatal_cond (l : Str) : Bool :=
  hasInfix " fatal".toList l || "fatal".toList.isPrefixOf l


/-- The ERROR condition the code actually checks. -/
def error_cond (l : Str) : Bool :=
  hasInfix " error".toList l || "error".toList.isPrefixOf l ||
    hasInfix "exception".toList l || hasInfix "traceback".toList l


/-- The WARN condition the code actually checks, merging its two
sequential branches. -/
def warn_cond (l : Str) : Bool :=
  hasInfix " warn".toList l || "warn".toList.isPrefixOf l ||
    hasInfix "warning".toList l || hasInfix "ignored".toList l ||
    hasInfix "not allowed".toList l || hasInfix " fail".toList l ||
    hasInfix "failed".toList l || hasInfix "timeout".toList l ||
    hasInfix "disconnected".toList l


/-! ### Collapse unfolding lemmas -/

/-- Display text of a synthetic block entry, from the right-stripped
opening line. -/
def synthText (stripped : Str) : Str :=
  if pyrstrip stripped.dropLast = [] then "<OBJECT>".toList
  else pyrstrip stripped.dropLast ++ " <OBJECT>".toList


/-! ### Claim C2, the counterexample -/

/-- Lexicographic strict order on character lists. -/
def strLexLt : Str → Str → Bool
  | [], [] => false
  | [], _ :: _ => true
  | _ :: _, [] => false
  | a :: as, b :: bs => if a < b then true else if b < a then false else strLexLt as bs


/-! ### Claim C4 -/

/-- Running brace depth after consuming the given lines, seeded by `d`. -/
def runDepth (d : Int) (l : List (Nat × Str)) : Int :=
  d + (l.map (fun p => braceDelta p.2)).sum


/-! ### The clustering fold invariant, for claims C1 and C7 -/

/-- The entries of `done` that map to key `k`. -/
def entriesFor (k : Key) (done : List CollapsedLine) : List CollapsedLine :=
  done.filter (fun e => entryKey e = k)


/-- Invariant of the clustering fold: the accumulated association list has
distinct keys, counts that sum to the number of processed entries, and per
key the exact count, the first-five examples, and the first and last
processed line numbers of the entries with that key; every processed entry
has its key present. -/
structure MapInv (m : List (Key × Cluster)) (done : List CollapsedLine) : Prop where
  nodup : (m.map Prod.fst).Nodup
  total : (m.map (fun kc => kc.2.count)).sum = done.length
  perKey : ∀ kc ∈ m,
    kc.2.count = (entriesFor kc.1 done).length ∧
    entriesFor kc.1 done ≠ [] ∧
    kc.2.examples = ((entriesFor kc.1 done).map (fun cl => cl.text)).take 5 ∧
    ((entriesFor kc.1 done).map (fun cl => cl.idx)).head? = some kc.2.first_seen_line ∧
    ((entriesFor kc.1 done).map (fun cl => cl.idx)).getLast? = some kc.2.last_seen_line
  covers : ∀ e ∈ done, ∃ kc ∈ m, kc.1 = entryKey e


/-! ### A relational view of the substitution scanner, for claim C10

`Scan mt repl p u o` says that one left-to-right pass of `re.sub` with
matcher `mt` and replacement `repl`, entered with previous original
character `p`, transforms the input `u` into the output `o`. -/

inductive Scan (mt : Option Char → Str → Option (Str × Str)) (repl : Str) :
    Option Char → Str → Str → Prop
  | nil (p : Option Char) : Scan mt repl p [] []
  | keep (p : Option Char) (c : Char) (u o : Str) :
      mt p (c :: u) = none → Scan mt repl (some c) u o →
      Scan mt repl p (c :: u) (c :: o)
  | tok (p : Option Char) (u m rem o : Str) :
      mt p u = some (m, rem) → u ≠ [] → Scan mt repl m.getLast? rem o →
      Scan mt repl p u (repl ++ o)


/-- The matcher never fires anywhere in `s`, reading contexts from `lctx`. -/
def noMatchAt (mt : Option Char → Str → Option (Str × Str))
    (lctx : Option Char) (s : Str) : Prop :=
  ∀ t₁ t₂, s = t₁ ++ t₂ → t₂ ≠ [] → mt (t₁.getLast?.or lctx) t₂ = none


/-! ### Occurrences of a pattern shape inside a string -/

/-- A word-delimited occurrence of a `shape`-shaped region in `o`, where
`lctx` supplies the character just left of `o` (for boundary checks at
position zero). -/
def wordOcc (shape : Str → Prop) (lctx : Option Char) (o : Str) : Prop :=
  ∃ x v y, o = x ++ v ++ y ∧ shape v ∧
    boundaryOk (x.getLast?.or lctx) = true ∧ endBoundary y = true


/-! ### The shapes recognized by the replacement patterns -/

/-- Text matched by `NUM_RE` without its boundary context. -/
def shapeNum (v : Str) : Prop := 3 ≤ v.length ∧ ∀ c ∈ v, c.isDigit = true


/-- Text matched by `HEX_RE` without its boundary context. -/
def shapeHex (v : Str) : Prop := 8 ≤ v.length ∧ ∀ c ∈ v, isHexDigit c = true


/-- Text matched by `UUID_RE` without its boundary context. -/
def shapeUuid (v : Str) : Prop :=
  ∃ a b c d e, v = a ++ '-' :: b ++ '-' :: c ++ '-' :: d ++ '-' :: e ∧
    a.length = 8 ∧ b.length = 4 ∧ c.length = 4 ∧ d.length = 4 ∧ e.length = 12 ∧
    (∀ ch ∈ a, isHexDigit ch = true) ∧ (∀ ch ∈ b, isHexDigit ch = true) ∧
    (∀ ch ∈ c, isHexDigit ch = true) ∧ (∀ ch ∈ d, isHexDigit ch = true) ∧
    (∀ ch ∈ e, isHexDigit ch = true)


/-- Text matched by `TASK_RE`/`REQ_RE` without its boundary context. -/
def shapeIdent (lit : Str) (v : Str) : Prop :=
  ∃ body, v = lit ++ body ∧ body ≠ [] ∧ (∀ c ∈ body, isIdClass c = true) ∧
    ∃ z, body.getLast? = some z ∧ isWordChar z = true


/-- Text matched by `HTTP_TIMING_RE` without its boundary context. -/
def shapeHttp (v : Str) : Prop :=
  ∃ d3 w1 w2 ds, v = d3 ++ w1 ++ "in".toList ++ w2 ++ ds ++ "ms".toList ∧
    d3.length = 3 ∧ (∀ c ∈ d3, c.isDigit = true) ∧
    w1 ≠ [] ∧ (∀ c ∈ w1, isPySpace c = true) ∧
    w2 ≠ [] ∧ (∀ c ∈ w2, isPySpace c = true) ∧
    ds ≠ [] ∧ (∀ c ∈ ds, c.isDigit = true)


/-- Text matched by `DURATION_RE` without its boundary context. -/
def shapeDur (v : Str) : Prop :=
  ∃ ds w0, v = ds ++ w0 ++ "ms".toList ∧ ds ≠ [] ∧
    (∀ c ∈ ds, c.isDigit = true) ∧ (∀ c ∈ w0, isPySpace c = true)


/-- The seven word-pattern substitution passes of `normalize_line`, in
source order. -/
def wordPasses (u : Str) : Str :=
  numSub (durationSub (httpTimingSub (hexSub (reqSub (taskSub (uuidSub u))))))


/-! ### The JSON tail passes -/

/-- The dollar-anchor condition of the JSON tail patterns: the text after
the opening character reaches the end of the string, up to one final
newline. -/
def jtGood (z : Str) : Prop :=
  z.count '\n' = 0 ∨ (z.count '\n' = 1 ∧ z.getLast? = some '\n')


/-- A trigger for the JSON tail pattern at the current position: optional
whitespace, the opening character, and a dollar-anchored tail. -/
def jtTrig (oc : Char) (rest : Str) : Prop :=
  ∃ w z, rest = w ++ oc :: z ∧ (∀ c ∈ w, isPySpace c = true) ∧ jtGood z


/-- An occurrence of the JSON tail pattern: a colon somewhere, followed by
a trigger. -/
def jtOcc (oc : Char) (o : Str) : Prop :=
  ∃ x rest, o = x ++ ':' :: rest ∧ jtTrig oc rest


/-! ### Character-level plumbing: escape freedom and stripped edges -/

/-- A string whose first and last characters are not whitespace, so that
`str.strip` leaves it unchanged. -/
def strippedStr (s : Str) : Prop :=
  (∀ c, s.head? = some c → isPySpace c = false) ∧
  (∀ c, s.getLast? = some c → isPySpace c = false)


/-! ### Theorems -/

theorem consumeBlock_rem_length (d : Int) (l : List (Nat × Str)) :
    (consumeBlock d l).2.length ≤ l.length := by
  induction l generalizing d with
  | nil => simp [consumeBlock]
  | cons p rest ih =>
    simp only [consumeBlock]
    split
    · simp
    · exact Nat.le_succ_of_le (ih _)

theorem collapseF_fuel (f g : Nat) (l : List (Nat × Str))
    (hf : l.length ≤ f) (hg : l.length ≤ g) : collapseF f l = collapseF g l := by
  induction f generalizing g l with
  | zero =>
    have : l = [] := List.length_eq_zero.mp (Nat.le_zero.mp hf)
    subst this
    cases g <;> rfl
  | succ f ih =>
    cases l with
    | nil => cases g <;> rfl
    | cons p rest =>
      cases g with
      | zero => exact absurd hg (by simp)
      | succ g =>
        obtain ⟨idx, line⟩ := p
        simp only [collapseF]
        split
        · refine congrArg _ (ih _ _ ?_ ?_)
          · exact le_trans (consumeBlock_rem_length _ _)
              (Nat.le_of_succ_le_succ hf)
          · exact le_trans (consumeBlock_rem_length _ _)
              (Nat.le_of_succ_le_succ hg)
        · exact congrArg _ (ih _ _ (Nat.le_of_succ_le_succ hf)
            (Nat.le_of_succ_le_succ hg))

/-- The defining step of `collapse_brace_blocks` on a nonempty input. -/
theorem collapse_brace_blocks_cons (idx : Nat) (line : Str) (rest : List (Nat × Str)) :
    collapse_brace_blocks ((idx, line) :: rest) =
      (let stripped := pyrstrip line
       if stripped.getLast? = some '{' then
         let pfx := pyrstrip stripped.dropLast
         let r := consumeBlock (braceDelta stripped) rest
         let synth := if pfx = [] then "<OBJECT>".toList else pfx ++ " <OBJECT>".toList
         ⟨idx, synth, List.intercalate ['\n'] (line :: r.1)⟩ ::
           collapse_brace_blocks r.2
       else
         ⟨idx, line, line⟩ :: collapse_brace_blocks rest) := by
  show collapseF (rest.length + 1) ((idx, line) :: rest) = _
  simp only [collapseF, collapse_brace_blocks]
  split
  · exact congrArg _ (collapseF_fuel _ _ _ (consumeBlock_rem_length _ _) le_rfl)
  · rfl

theorem collapse_cons_pass (idx : Nat) (line : Str) (rest : List (Nat × Str))
    (h : (pyrstrip line).getLast? ≠ some '{') :
    collapse_brace_blocks ((idx, line) :: rest) =
      ⟨idx, line, line⟩ :: collapse_brace_blocks rest := by
  rw [collapse_brace_blocks_cons]
  simp only [if_neg h]

theorem collapse_cons_block (idx : Nat) (line : Str) (rest : List (Nat × Str))
    (h : (pyrstrip line).getLast? = some '{') :
    collapse_brace_blocks ((idx, line) :: rest) =
      ⟨idx, synthText (pyrstrip line),
        List.intercalate ['\n']
          (line :: (consumeBlock (braceDelta (pyrstrip line)) rest).1)⟩ ::
        collapse_brace_blocks (consumeBlock (braceDelta (pyrstrip line)) rest).2 := by
  rw [collapse_brace_blocks_cons]
  simp only [if_pos h, synthText]

/-- On input where no line opens a brace block, collapsing is the identity
on content: every line passes through with block text equal to raw text. -/
theorem collapse_passthrough (l : List (Nat × Str))
    (h : ∀ p ∈ l, (pyrstrip p.2).getLast? ≠ some '{') :
    collapse_brace_blocks l = l.map (fun p => ⟨p.1, p.2, p.2⟩) := by
  induction l with
  | nil => rfl
  | cons p rest ih =>
    obtain ⟨i, s⟩ := p
    rw [collapse_cons_pass i s rest (h _ (List.mem_cons_self _ _))]
    simp only [List.map_cons, List.cons.injEq, true_and]
    exact ih (fun q hq => h q (List.mem_cons_of_mem _ hq))

/-! ### Claim C5 -/

/-- C5: the line `[Core API] ERROR request failed in 812ms (code 503)` is
classified with severity ERROR and component `Core API`, and its
normalized display text replaces the duration with `<DUR>` and the numeric
code with `<NUM>`. -/
theorem C5_concrete :
    detect_severity "[Core API] ERROR request failed in 812ms (code 503)".toList = "ERROR" ∧
    extract_component "[Core API] ERROR request failed in 812ms (code 503)".toList =
      some "Core API".toList ∧
    normalize_line "[Core API] ERROR request failed in 812ms (code 503)".toList =
      "[Core API] ERROR request failed in <DUR> (code <NUM>)".toList := by
  decide

/-! ### Claim C3 -/

/-- C3 counterexample: on `a fatality occurred` the token-or-leading-word
rule of the claim yields INFO, but `detect_severity` checks for the bare
substring `" fatal"` and returns FATAL, so the claim as stated is false. -/
theorem C3_counterexample :
    detect_severity "a fatality occurred".toList = "FATAL" ∧
    claim_severity "a fatality occurred".toList = "INFO" ∧
    detect_severity "a fatality occurred".toList ≠
      claim_severity "a fatality occurred".toList := by
  decide

/-- C3 amended: `detect_severity` implements a first-match-wins priority
FATAL > ERROR > WARN > INFO over the lower-cased block text, where each
tier's condition is a substring check: FATAL on the space-prefixed
substring `" fatal"` or the leading word `fatal`; otherwise ERROR on
`" error"`, leading `error`, `exception` or `traceback`; otherwise WARN on
`" warn"`, leading `warn`, `warning`, `ignored`, `not allowed`, `" fail"`,
`failed`, `timeout` or `disconnected`; otherwise INFO. -/
theorem C3_amended (s : Str) :
    detect_severity s =
      (if fatal_cond (lowerStr s) then "FATAL"
       else if error_cond (lowerStr s) then "ERROR"
       else if warn_cond (lowerStr s) then "WARN"
       else "INFO") := by
  simp only [detect_severity, fatal_cond, error_cond, warn_cond]
  split_ifs <;> simp_all

/-! ### Claim C8 -/

/-- C8: the pipeline is deterministic: on identical input content,
`process_log` produces identical ranked cluster lists, and the structured
JSON rendering and report line are byte-identical.  In this embedding the
pipeline is a pure function of the line list, with no ambient state. -/
theorem C8_deterministic (c1 c2 : List Str) (h : c1 = c2) :
    process_log c1 = process_log c2 ∧
    jsonOutput (process_log c1) = jsonOutput (process_log c2) ∧
    totalClustersLine (process_log c1) = totalClustersLine (process_log c2) := by
  subst h
  exact ⟨rfl, rfl, rfl⟩

/-- Witness for C8 at a concrete input. -/
theorem C8_witness :
    process_log ["[Core API] ERROR boom".toList] =
        process_log ["[Core API] ERROR boom".toList] ∧
      jsonOutput (process_log ["[Core API] ERROR boom".toList]) =
        jsonOutput (process_log ["[Core API] ERROR boom".toList]) ∧
      totalClustersLine (process_log ["[Core API] ERROR boom".toList]) =
        totalClustersLine (process_log ["[Core API] ERROR boom".toList]) :=
  C8_deterministic _ _ rfl

/-! ### Claim C9 -/

/-- C9 counterexample: the line `{` is punctuation-only, yet it opens a
brace block, collapses to the synthetic entry `<OBJECT>`, survives the
structural filter, and produces one cluster instead of an empty list. -/
theorem C9_counterexample :
    punct_only "\x7b".toList = true ∧
    process_log ["\x7b".toList] ≠ [] ∧
    (process_log ["\x7b".toList]).map Cluster.signature =
      ["<no-component> | INFO | <OBJECT>".toList] := by
  decide

theorem mem_phase1 (lines : List Str) (p : Nat × Str) (hp : p ∈ phase1 lines) :
    (∃ l ∈ lines, p.2 = strip_ansi l) ∧ pystrip p.2 ≠ [] := by
  have h1 := List.mem_filter.mp hp
  obtain ⟨q, hq, rfl⟩ := List.mem_map.mp h1.1
  refine ⟨⟨q.2, ?_, rfl⟩, by simpa using h1.2⟩
  have : q.2 ∈ (List.enumFrom 1 lines).map Prod.snd := List.mem_map_of_mem _ hq
  simpa [List.enumFrom_map_snd] using this

/-- C9 amended: on an input consisting only of blank lines and
punctuation-only lines none of which ends with an opening brace after
right-stripping, `process_log` returns the empty cluster list and the
report states zero unique clusters.  (The brace proviso is forced by the
counterexample: a punctuation-only line ending in `{` opens a block and
becomes a synthetic `<OBJECT>` entry.) -/
theorem C9_amended (lines : List Str)
    (h : ∀ l ∈ lines, pystrip (strip_ansi l) = [] ∨
        (punct_only (strip_ansi l) = true ∧
          (pyrstrip (strip_ansi l)).getLast? ≠ some '{')) :
    process_log lines = [] ∧
    totalClustersLine (process_log lines) = "Total unique clusters: 0\n\n".toList := by
  have hall : ∀ p ∈ phase1 lines,
      punct_only p.2 = true ∧ (pyrstrip p.2).getLast? ≠ some '{' := by
    intro p hp
    obtain ⟨⟨l, hl, hpl⟩, hne⟩ := mem_phase1 lines p hp
    rcases h l hl with hb | hok
    · rw [hpl] at hne
      exact absurd hb hne
    · rw [hpl]
      exact hok
  have hcol : collapse_brace_blocks (phase1 lines) =
      (phase1 lines).map (fun p => ⟨p.1, p.2, p.2⟩) :=
    collapse_passthrough _ (fun p hp => (hall p hp).2)
  have hsurv : survivors lines = [] := by
    unfold survivors
    rw [hcol]
    rw [List.filter_eq_nil_iff]
    intro cl hcl
    obtain ⟨p, hp, rfl⟩ := List.mem_map.mp hcl
    simp [(hall p hp).1]
  have hpl : process_log lines = [] := by
    unfold process_log clusterMap
    rw [hsurv]
    rfl
  rw [hpl]
  exact ⟨rfl, rfl⟩

/-- Witness for C9 at a concrete degenerate input. -/
theorem C9_witness :
    process_log [" ".toList, "[ ]".toList, " , ,".toList] = [] ∧
    totalClustersLine (process_log [" ".toList, "[ ]".toList, " , ,".toList]) =
      "Total unique clusters: 0\n\n".toList :=
  C9_amended _ (by decide)

/-- C2 counterexample: two INFO clusters with equal counts come out in
first-seen order, not lexicographic signature order: the `zebra` signature
precedes the lexicographically smaller `apple` signature. -/
theorem C2_counterexample :
    (process_log ["zebra thing".toList, "apple thing".toList]).map
        (fun c => (sevWeight c.severity, c.count, c.signature)) =
      [(1, 1, "<no-component> | INFO | zebra thing".toList),
       (1, 1, "<no-component> | INFO | apple thing".toList)] ∧
    strLexLt "<no-component> | INFO | apple thing".toList
      "<no-component> | INFO | zebra thing".toList = true := by
  decide

theorem runDepth_cons (d : Int) (p : Nat × Str) (l : List (Nat × Str)) :
    runDepth d (p :: l) = runDepth (d + braceDelta p.2) l := by
  simp only [runDepth, List.map_cons, List.sum_cons]
  ring

theorem consumeBlock_take_drop (d : Int) (l : List (Nat × Str)) :
    (consumeBlock d l).1 = (l.take (consumeBlock d l).1.length).map Prod.snd ∧
    (consumeBlock d l).2 = l.drop (consumeBlock d l).1.length := by
  induction l generalizing d with
  | nil => simp [consumeBlock]
  | cons p rest ih =>
    simp only [consumeBlock]
    split
    · simp
    · obtain ⟨h1, h2⟩ := ih (d + braceDelta p.2)
      constructor
      · simp only [List.length_cons, List.take_succ_cons, List.map_cons]
        rw [← h1]
      · simp only [List.length_cons, List.drop_succ_cons]
        rw [← h2]

theorem consumeBlock_depth_pos (d : Int) (l : List (Nat × Str)) (j : Nat)
    (hj : j < (consumeBlock d l).1.length) : 0 < runDepth d (l.take j) := by
  induction l generalizing d j with
  | nil => simp [consumeBlock] at hj
  | cons p rest ih =>
    simp only [consumeBlock] at hj
    by_cases hd : d ≤ 0
    · rw [if_pos hd] at hj
      simp at hj
    · rw [if_neg hd] at hj
      simp only [List.length_cons] at hj
      match j with
      | 0 =>
        simp only [List.take_zero, runDepth, List.map_nil, List.sum_nil, Int.add_zero]
        omega
      | j' + 1 =>
        rw [List.take_succ_cons, runDepth_cons]
        exact ih (d + braceDelta p.2) j' (Nat.lt_of_succ_lt_succ hj)

theorem consumeBlock_stop (d : Int) (l : List (Nat × Str))
    (h : (consumeBlock d l).1.length < l.length) :
    runDepth d (l.take (consumeBlock d l).1.length) ≤ 0 := by
  induction l generalizing d with
  | nil => simp at h
  | cons p rest ih =>
    simp only [consumeBlock] at h ⊢
    by_cases hd : d ≤ 0
    · rw [if_pos hd] at h ⊢
      simpa [runDepth] using hd
    · rw [if_neg hd] at h ⊢
      simp only [List.length_cons, Nat.succ_lt_succ_iff] at h
      simp only [List.length_cons, List.take_succ_cons, runDepth_cons]
      exact ih (d + braceDelta p.2) h

/-- C4: a line whose right-trimmed form ends with an opening brace starts a
block: the collapser emits one synthetic entry whose display text is the
right-trimmed opening-line head followed by `<OBJECT>` (just `<OBJECT>`
when that head is empty) and whose block text is the newline-join of the
opening line and all consumed lines, then continues after the block; the
inner loop consumes a prefix of the remaining lines — so an unbalanced
block consumes the rest of the file and is still emitted — and it consumes
exactly while the running depth, seeded by the opening line's own brace
counts, stays positive, stopping only when the depth drops to zero or
below or the input ends; every other line passes through unchanged with
block text equal to raw text. -/
theorem C4_collapse (idx : Nat) (line : Str) (rest : List (Nat × Str)) :
    ((pyrstrip line).getLast? ≠ some '{' →
      collapse_brace_blocks ((idx, line) :: rest) =
        ⟨idx, line, line⟩ :: collapse_brace_blocks rest) ∧
    ((pyrstrip line).getLast? = some '{' →
      collapse_brace_blocks ((idx, line) :: rest) =
        ⟨idx, synthText (pyrstrip line),
          List.intercalate ['\n']
            (line :: (consumeBlock (braceDelta (pyrstrip line)) rest).1)⟩ ::
          collapse_brace_blocks (consumeBlock (braceDelta (pyrstrip line)) rest).2) ∧
    (∀ d : Int,
      (consumeBlock d rest).1 = (rest.take (consumeBlock d rest).1.length).map Prod.snd ∧
      (consumeBlock d rest).2 = rest.drop (consumeBlock d rest).1.length) ∧
    (∀ d : Int, ∀ j < (consumeBlock d rest).1.length, 0 < runDepth d (rest.take j)) ∧
    (∀ d : Int, (consumeBlock d rest).1.length < rest.length →
      runDepth d (rest.take (consumeBlock d rest).1.length) ≤ 0) := by
  refine ⟨fun h => collapse_cons_pass idx line rest h,
    fun h => collapse_cons_block idx line rest h,
    fun d => consumeBlock_take_drop d rest,
    fun d j hj => consumeBlock_depth_pos d rest j hj,
    fun d hd => consumeBlock_stop d rest hd⟩

/-- Witness for C4: the multi-line block of the specification collapses to
exactly one entry with display text `Loading config <OBJECT>`. -/
theorem C4_witness :
    collapse_brace_blocks
        [(1, "Loading config \x7b".toList), (2, "  a: 1,".toList), (3, "  b: 2,".toList),
         (4, "  c: 3,".toList), (5, "  d: 4,".toList), (6, "  e: 5,".toList),
         (7, "  f: 6,".toList), (8, "\x7d".toList)] =
      [⟨1, "Loading config <OBJECT>".toList,
        "Loading config \x7b\n  a: 1,\n  b: 2,\n  c: 3,\n  d: 4,\n  e: 5,\n  f: 6,\n\x7d".toList⟩] := by
  have h := (C4_collapse 1 "Loading config \x7b".toList
    [(2, "  a: 1,".toList), (3, "  b: 2,".toList), (4, "  c: 3,".toList),
     (5, "  d: 4,".toList), (6, "  e: 5,".toList), (7, "  f: 6,".toList),
     (8, "\x7d".toList)]).2.1 (by decide)
  rw [h]
  decide

/-! ### Generic scanner lemmas, for claim C6 -/

theorem getLast?_cons_or (x : Char) (xs : Str) :
    (x :: xs).getLast? = xs.getLast?.or (some x) := by
  induction xs generalizing x with
  | nil => rfl
  | cons y ys ih =>
    rw [List.getLast?_cons_cons, ih y]
    cases h : ys.getLast? <;> simp [Option.or, h]

/-- A scanner whose matcher fails at every position leaves the string
unchanged, with any fuel. -/
theorem substF_eq_self (mt : Option Char → Str → Option (Str × Str)) (repl : Str)
    (fuel : Nat) (prev : Option Char) (s : Str)
    (h : ∀ t₁ t₂ p, s = t₁ ++ t₂ → t₂ ≠ [] → mt p t₂ = none) :
    substF mt repl fuel prev s = s := by
  induction fuel generalizing prev s with
  | zero => rfl
  | succ fuel ih =>
    cases s with
    | nil => rfl
    | cons c rest =>
      simp only [substF, h [] (c :: rest) prev rfl (by simp)]
      exact congrArg _ (ih (some c) rest
        (fun t₁ t₂ p ht hne => h (c :: t₁) t₂ p (by simp [ht]) hne))

/-- A scanner walks over a region where its matcher cannot fire, then
continues on the remainder with the region's last character as context. -/
theorem substF_walk (mt : Option Char → Str → Option (Str × Str)) (repl : Str)
    (u v : Str) (fuel : Nat) (prev : Option Char)
    (hfuel : (u ++ v).length ≤ fuel)
    (hu : ∀ t₁ t₂ p, u = t₁ ++ t₂ → t₂ ≠ [] → mt p (t₂ ++ v) = none) :
    substF mt repl fuel prev (u ++ v) =
      u ++ substF mt repl (fuel - u.length) (u.getLast?.or prev) v := by
  induction u generalizing fuel prev with
  | nil => simp
  | cons x xs ih =>
    cases fuel with
    | zero => simp at hfuel
    | succ fuel =>
      have hm : mt prev (x :: (xs ++ v)) = none := by
        have := hu [] (x :: xs) prev rfl (by simp)
        simpa using this
      simp only [List.cons_append, substF, hm]
      rw [ih fuel (some x) (by simpa using hfuel)
        (fun t₁ t₂ p ht hne => hu (x :: t₁) t₂ p (by simp [ht]) hne)]
      rw [getLast?_cons_or]
      simp only [List.length_cons, Nat.succ_sub_succ]
      cases h : xs.getLast? <;> simp [Option.or, h]

/-! ### Matcher shape lemmas -/

theorem takeExact_some (p : Char → Bool) (n : Nat) (s u v : Str)
    (h : takeExact p n s = some (u, v)) : s = u ++ v := by
  induction n generalizing s u v with
  | zero =>
    simp only [takeExact, Option.some.injEq, Prod.mk.injEq] at h
    rw [← h.1, ← h.2]
    rfl
  | succ n ih =>
    cases s with
    | nil => cases h
    | cons c cs =>
      simp only [takeExact] at h
      split at h
      · obtain ⟨⟨u', v'⟩, hr, hf⟩ := Option.map_eq_some'.mp h
        obtain ⟨hu', hv'⟩ := Prod.mk.injEq .. |>.mp hf
        rw [← hu', ← hv', List.cons_append]
        exact congrArg _ (ih cs u' v' hr)
      · cases h

theorem expectChar_some (c : Char) (s v : Str) (h : expectChar c s = some v) :
    s = c :: v := by
  cases s with
  | nil => cases h
  | cons d rest =>
    simp only [expectChar] at h
    split at h
    · rename_i hd
      cases h
      rw [hd]
    · cases h

theorem matchUuid_hyphens (p : Option Char) (t : Str) (r : Str × Str)
    (h : matchUuid p t = some r) : 2 ≤ t.count '-' := by
  unfold matchUuid at h
  by_cases hb : (!boundaryOk p) = true
  · rw [if_pos hb] at h
    cases h
  · rw [if_neg hb] at h
    obtain ⟨⟨u1, t1⟩, h1, h⟩ := Option.bind_eq_some.mp h
    obtain ⟨t2, h2, h⟩ := Option.bind_eq_some.mp h
    obtain ⟨⟨u2, t3⟩, h3, h⟩ := Option.bind_eq_some.mp h
    obtain ⟨t4, h4, _⟩ := Option.bind_eq_some.mp h
    have hs1 : t = u1 ++ t1 := takeExact_some _ _ _ _ _ h1
    have hs2 : t1 = '-' :: t2 := expectChar_some _ _ _ h2
    have hs3 : t2 = u2 ++ t3 := takeExact_some _ _ _ _ _ h3
    have hs4 : t3 = '-' :: t4 := expectChar_some _ _ _ h4
    rw [hs1, hs2, hs3, hs4]
    have e1 : ∀ (u w : Str), List.count '-' (u ++ w) = List.count '-' u + List.count '-' w :=
      fun u w => List.count_append '-' u w
    have e2 : ∀ (w : Str), List.count '-' ('-' :: w) = List.count '-' w + 1 :=
      fun w => List.count_cons_self '-' w
    rw [e1, e2, e1, e2]
    omega

theorem matchIdent_some_pfx (lit : Str) (p : Option Char) (t : Str) (r : Str × Str)
    (h : matchIdent lit p t = some r) : lit.isPrefixOf t = true := by
  unfold matchIdent at h
  split at h
  · cases h
  · split at h
    · assumption
    · cases h

theorem matchIdent_none_of_not_prefix (lit : Str) (p : Option Char) (t : Str)
    (h : lit.isPrefixOf t = false) : matchIdent lit p t = none := by
  unfold matchIdent
  split
  · rfl
  · simp [h]

theorem isPrefixOf_append (lit t : Str) (h : lit.isPrefixOf t = true) :
    ∃ rest, t = lit ++ rest := by
  obtain ⟨rest, hrest⟩ := List.isPrefixOf_iff_prefix.mp h
  exact ⟨rest, hrest.symm⟩

theorem matchTask_hyphens (p : Option Char) (t : Str) (r : Str × Str)
    (h : matchTask p t = some r) : 2 ≤ t.count '-' := by
  obtain ⟨rest, hrest⟩ := isPrefixOf_append _ _ (matchIdent_some_pfx _ p t r h)
  rw [hrest]
  simp [List.count_append]

theorem matchAnsi_some_esc (p : Option Char) (t : Str) (r : Str × Str)
    (h : matchAnsi p t = some r) : '\x1b' ∈ t := by
  unfold matchAnsi at h
  split at h
  · simp
  · simp
  · simp at h

/-- The UUID pass is the identity on a string with at most one hyphen. -/
theorem uuidSub_few_hyphens (s : Str) (h : s.count '-' ≤ 1) : uuidSub s = s := by
  refine substF_eq_self _ _ _ _ _ ?_
  intro t₁ t₂ p ht _
  cases hm : matchUuid p t₂ with
  | none => rfl
  | some r =>
    exfalso
    have h2 := matchUuid_hyphens p t₂ r hm
    have h3 : t₂.count '-' ≤ s.count '-' := by
      rw [ht, List.count_append]
      omega
    omega

/-- The task-identifier pass is the identity on a string with at most one
hyphen, since its literal head alone contains two. -/
theorem taskSub_few_hyphens (s : Str) (h : s.count '-' ≤ 1) : taskSub s = s := by
  refine substF_eq_self _ _ _ _ _ ?_
  intro t₁ t₂ p ht _
  cases hm : matchTask p t₂ with
  | none => rfl
  | some r =>
    exfalso
    have h2 := matchTask_hyphens p t₂ r hm
    have h3 : t₂.count '-' ≤ s.count '-' := by
      rw [ht, List.count_append]
      omega
    omega

/-- The escape-stripping pass is the identity on a string without the
escape character. -/
theorem ansiSub_no_esc (s : Str) (h : ¬ '\x1b' ∈ s) : ansiSub s = s := by
  refine substF_eq_self _ _ _ _ _ ?_
  intro t₁ t₂ p ht _
  cases hm : matchAnsi p t₂ with
  | none => rfl
  | some r =>
    exfalso
    exact h (by rw [ht]; exact List.mem_append.mpr (Or.inr (matchAnsi_some_esc p t₂ r hm)))

/-! ### Structured strip and request-identifier computation, for claim C6 -/

theorem word_not_pyspace (ch : Char) (h : isWordChar ch = true) : isPySpace ch = false := by
  cases hp : isPySpace ch
  · rfl
  · exfalso
    simp only [isPySpace, Bool.or_eq_true, decide_eq_true_eq] at hp
    rcases hp with ((((rfl | rfl) | rfl) | rfl) | rfl) | rfl <;> exact absurd h (by decide)

theorem dropWhile_append_head (p : Char → Bool) (u v : Str) (x : Char)
    (hx : v.head? = some x) (hpx : p x = false) :
    (u ++ v).dropWhile p = u.dropWhile p ++ v := by
  rw [List.dropWhile_append]
  split <;> rename_i h
  · cases v with
    | nil => cases hx
    | cons z zs =>
      have hz : z = x := by simpa using hx
      subst hz
      rw [List.dropWhile_cons, if_neg (by simp [hpx])]
      have hu : u.dropWhile p = [] := by simpa using h
      rw [hu]
      rfl
  · rfl

theorem rdropWhile_append_last (p : Char → Bool) (u v : Str) (y : Char)
    (hy : u.getLast? = some y) (hpy : p y = false) :
    (u ++ v).rdropWhile p = u ++ v.rdropWhile p := by
  unfold List.rdropWhile
  rw [List.reverse_append]
  rw [dropWhile_append_head p v.reverse u.reverse y
    (by rw [List.head?_reverse]; exact hy) hpy]
  rw [List.reverse_append, List.reverse_reverse]

theorem pystrip_structured (a mid c : Str) (x y : Char)
    (hx : mid.head? = some x) (hxs : isPySpace x = false)
    (hy : mid.getLast? = some y) (hys : isPySpace y = false) :
    pystrip (a ++ mid ++ c) =
      (a.dropWhile isPySpace ++ mid) ++ c.rdropWhile isPySpace := by
  unfold pystrip
  rw [List.append_assoc]
  rw [dropWhile_append_head isPySpace a (mid ++ c) x (by simp [hx]) hxs]
  rw [← List.append_assoc]
  refine rdropWhile_append_last isPySpace _ c y ?_ hys
  rw [List.getLast?_append]
  simp [hy]

theorem ep_prefix_mem_dash (t : Str) (h : "ep-".toList.isPrefixOf t = true) :
    '-' ∈ t := by
  obtain ⟨rest, hrest⟩ := isPrefixOf_append _ _ h
  rw [hrest]
  simp

theorem matchReq_none_of_no_dash (p : Option Char) (t : Str) (h : ¬ '-' ∈ t) :
    matchReq p t = none := by
  cases hm : matchReq p t with
  | none => rfl
  | some r =>
    exact absurd (ep_prefix_mem_dash t (matchIdent_some_pfx _ _ _ _ hm)) h

theorem rdropWhile_dash_eq_self (l : Str) (h : ¬ '-' ∈ l) :
    l.rdropWhile (fun ch => ch = '-') = l := by
  rw [List.rdropWhile_eq_self_iff]
  intro hl hlast
  exact h (by
    have := List.getLast_mem hl
    have hd : l.getLast hl = '-' := by simpa using hlast
    rw [← hd]
    exact this)

/-- The request-identifier pass on a line of the structured form: the
context before `ep-` admits no match, the identifier and the following
identifier-class run collapse to `<REQ>`, and the remainder admits no
match. -/
theorem reqSub_structured (a bq c : Str)
    (haNoDash : ¬ '-' ∈ a)
    (haLast : ∀ y, a.getLast? = some y → isWordChar y = false)
    (hbne : bq ≠ []) (hbw : ∀ ch ∈ bq, isWordChar ch = true)
    (hcNoDash : ¬ '-' ∈ c) :
    reqSub (a ++ 'e' :: 'p' :: '-' :: (bq ++ c)) =
      (a ++ "<REQ>".toList) ++ c.drop (c.takeWhile isIdClass).length := by
  have hbNoDash : ¬ '-' ∈ bq := fun hmem => by
    have := hbw '-' hmem
    exact absurd this (by decide)
  have hrunNoDash : ¬ '-' ∈ bq ++ c.takeWhile isIdClass := by
    intro hmem
    rcases List.mem_append.mp hmem with h1 | h2
    · exact hbNoDash h1
    · exact hcNoDash ((List.takeWhile_sublist _).mem h2)
  have hwalk := substF_walk matchReq "<REQ>".toList a
    ('e' :: 'p' :: '-' :: (bq ++ c))
    (a ++ 'e' :: 'p' :: '-' :: (bq ++ c)).length none le_rfl ?hu
  case hu =>
    intro t₁ t₂ p ht hne
    refine matchIdent_none_of_not_prefix _ p _ ?_
    cases hpre : "ep-".toList.isPrefixOf (t₂ ++ 'e' :: 'p' :: '-' :: (bq ++ c))
    · rfl
    · exfalso
      have hdash := ep_prefix_mem_dash _ hpre
      match t₂, hne with
      | [z], _ =>
        have : "ep-".toList.isPrefixOf ([z] ++ 'e' :: 'p' :: '-' :: (bq ++ c)) = false := by
          show (['e', 'p', '-'] : Str).isPrefixOf _ = false
          simp [List.isPrefixOf]
        rw [this] at hpre
        cases hpre
      | [z1, z2], _ =>
        have : "ep-".toList.isPrefixOf
            ([z1, z2] ++ 'e' :: 'p' :: '-' :: (bq ++ c)) = false := by
          show (['e', 'p', '-'] : Str).isPrefixOf _ = false
          simp [List.isPrefixOf]
        rw [this] at hpre
        cases hpre
      | z1 :: z2 :: z3 :: t5, _ =>
        have hz3 : z3 = '-' := by
          have : (['e', 'p', '-'] : Str).isPrefixOf
              (z1 :: z2 :: z3 :: (t5 ++ 'e' :: 'p' :: '-' :: (bq ++ c))) = true := hpre
          simp only [List.isPrefixOf, Bool.and_eq_true, beq_iff_eq] at this
          exact this.2.2.1.symm
        apply haNoDash
        rw [ht, ← hz3]
        exact List.mem_append.mpr (Or.inr (by simp))
  unfold reqSub subst
  rw [hwalk]
  have hflen : (a ++ 'e' :: 'p' :: '-' :: (bq ++ c)).length - a.length =
      ('e' :: 'p' :: '-' :: (bq ++ c)).length := by
    simp
  rw [hflen, Option.or_none]
  have hboundary : boundaryOk a.getLast? = true := by
    cases hgl : a.getLast? with
    | none => rfl
    | some y =>
      have := haLast y hgl
      simp [boundaryOk, this]
  have hmatch : matchReq a.getLast? ('e' :: 'p' :: '-' :: (bq ++ c)) =
      some ('e' :: 'p' :: '-' :: (bq ++ c.takeWhile isIdClass),
        c.drop (c.takeWhile isIdClass).length) := by
    unfold matchReq matchIdent
    rw [if_neg (by simp [hboundary])]
    rw [if_pos (by show (['e', 'p', '-'] : Str).isPrefixOf _ = true; simp [List.isPrefixOf])]
    have hdrop : List.drop "ep-".toList.length ('e' :: 'p' :: '-' :: (bq ++ c)) =
        bq ++ c := rfl
    have hrun : (bq ++ c).takeWhile isIdClass = bq ++ c.takeWhile isIdClass :=
      List.takeWhile_append_of_pos (fun ch hch => by
        simp [isIdClass, hbw ch hch])
    simp only [hdrop, hrun]
    have hbody : (bq ++ c.takeWhile isIdClass).rdropWhile (fun ch => ch = '-') =
        bq ++ c.takeWhile isIdClass := rdropWhile_dash_eq_self _ hrunNoDash
    rw [hbody]
    rw [if_neg (by simp [hbne])]
    have hrem : (bq ++ c).drop (bq ++ c.takeWhile isIdClass).length =
        c.drop (c.takeWhile isIdClass).length := by
      rw [List.length_append, ← List.drop_drop, List.drop_left]
    rw [hrem]
    rfl
  cases hlen : ('e' :: 'p' :: '-' :: (bq ++ c)).length with
  | zero => simp at hlen
  | succ n =>
    simp only [substF, hmatch]
    rw [substF_eq_self]
    · rw [List.append_assoc]
    · intro t₁ t₂ p ht hne
      refine matchReq_none_of_no_dash p t₂ ?_
      intro hmem
      apply hcNoDash
      have hsub := List.drop_sublist (c.takeWhile isIdClass).length c
      refine hsub.mem ?_
      rw [ht]
      exact List.mem_append.mpr (Or.inr hmem)

/-- Normalization of a line of the structured form `a ++ "ep-" ++ b ++ c`
with word-and-space context delimited at a word boundary and a hyphen-free
word-character identifier body: the result does not depend on the body. -/
theorem normalize_structured (a b c : Str)
    (ha : ∀ ch ∈ a, isWordChar ch = true ∨ ch = ' ')
    (haLast : ∀ y, a.getLast? = some y → y = ' ')
    (hbne : b ≠ []) (hbw : ∀ ch ∈ b, isWordChar ch = true)
    (hc : ∀ ch ∈ c, isWordChar ch = true ∨ ch = ' ') :
    normalize_line ((a ++ "ep-".toList) ++ (b ++ c)) =
      jsonTailSub '[' (jsonTailSub '{' (numSub (durationSub (httpTimingSub (hexSub
        ((a.dropWhile isPySpace ++ "<REQ>".toList) ++
          (c.rdropWhile isPySpace).drop
            ((c.rdropWhile isPySpace).takeWhile isIdClass).length)))))) := by
  have hnw : ∀ (z : Char), isWordChar z = false → z ≠ ' ' →
      ∀ (u : Str), (∀ ch ∈ u, isWordChar ch = true ∨ ch = ' ') → z ∉ u := by
    intro z hzw hzs u hu hmem
    rcases hu z hmem with h1 | h1
    · rw [hzw] at h1
      cases h1
    · exact hzs h1
  have haND : '-' ∉ a := hnw '-' (by decide) (by decide) a ha
  have hcND : '-' ∉ c := hnw '-' (by decide) (by decide) c hc
  have hbND : '-' ∉ b := fun hm => by
    have := hbw '-' hm
    exact absurd this (by decide)
  have haE : '\x1b' ∉ a := hnw '\x1b' (by decide) (by decide) a ha
  have hcE : '\x1b' ∉ c := hnw '\x1b' (by decide) (by decide) c hc
  have hbE : '\x1b' ∉ b := fun hm => by
    have := hbw '\x1b' hm
    exact absurd this (by decide)
  obtain ⟨y, hygl, hymem⟩ : ∃ y, b.getLast? = some y ∧ y ∈ b :=
    ⟨b.getLast hbne, List.getLast?_eq_getLast b hbne, List.getLast_mem hbne⟩
  have hyw : isWordChar y = true := hbw y hymem
  -- the line in the a-mid-c association used by the strip lemma
  have hL : (a ++ "ep-".toList) ++ (b ++ c) = a ++ ('e' :: 'p' :: '-' :: b) ++ c := by
    simp [List.append_assoc]
  rw [hL]
  have hEscL : '\x1b' ∉ a ++ ('e' :: 'p' :: '-' :: b) ++ c := by
    intro hm
    rcases List.mem_append.mp hm with h1 | h1
    · rcases List.mem_append.mp h1 with h2 | h2
      · exact haE h2
      · simp only [List.mem_cons] at h2
        rcases h2 with h3 | h3 | h3 | h3
        · exact absurd h3 (by decide)
        · exact absurd h3 (by decide)
        · exact absurd h3 (by decide)
        · exact hbE h3
    · exact hcE h1
  unfold normalize_line strip_ansi
  rw [ansiSub_no_esc _ hEscL]
  have hmidLast : ('e' :: 'p' :: '-' :: b).getLast? = some y := by
    show ((['e', 'p', '-'] : Str) ++ b).getLast? = some y
    rw [List.getLast?_append, hygl]
    rfl
  rw [pystrip_structured a ('e' :: 'p' :: '-' :: b) c 'e' y rfl (by decide) hmidLast
    (word_not_pyspace y hyw)]
  set a' := a.dropWhile isPySpace with ha'
  set c' := c.rdropWhile isPySpace with hc'
  have ha'sub : ∀ ch ∈ a', ch ∈ a := fun ch hch => (List.dropWhile_sublist _).mem hch
  have hc'sub : ∀ ch ∈ c', ch ∈ c := fun ch hch =>
    (List.IsPrefix.sublist (List.rdropWhile_prefix _ _)).mem hch
  have ha'ND : '-' ∉ a' := fun hm => haND (ha'sub '-' hm)
  have hc'ND : '-' ∉ c' := fun hm => hcND (hc'sub '-' hm)
  have hassoc2 : (a' ++ 'e' :: 'p' :: '-' :: b) ++ c' =
      a' ++ 'e' :: 'p' :: '-' :: (b ++ c') := by
    simp
  rw [hassoc2]
  have hcount : (a' ++ 'e' :: 'p' :: '-' :: (b ++ c')).count '-' ≤ 1 := by
    rw [List.count_append]
    have h1 : a'.count '-' = 0 := List.count_eq_zero.mpr ha'ND
    have h2 : (b ++ c').count '-' = 0 := List.count_eq_zero.mpr (fun hm => by
      rcases List.mem_append.mp hm with hx | hx
      · exact hbND hx
      · exact hc'ND hx)
    have h3 : ('e' :: 'p' :: '-' :: (b ++ c')).count '-' = 1 := by
      rw [show ('e' :: 'p' :: '-' :: (b ++ c')) = ['e', 'p', '-'] ++ (b ++ c') from rfl,
        List.count_append, h2]
      decide
    omega
  rw [uuidSub_few_hyphens _ hcount, taskSub_few_hyphens _ hcount]
  have ha'Last : ∀ z, a'.getLast? = some z → isWordChar z = false := by
    intro z hz
    have haz : a.getLast? = some z := by
      conv_lhs => rw [← List.takeWhile_append_dropWhile (p := isPySpace) (l := a)]
      rw [List.getLast?_append, ← ha', hz]
      rfl
    rw [haLast z haz]
    decide
  rw [reqSub_structured a' b c' ha'ND ha'Last hbne hbw hc'ND]

theorem bracketAt_none (s : Str) (h : '[' ∉ s) : bracketAt s = none := by
  cases s with
  | nil => rfl
  | cons x rest =>
    have hx : x ≠ '[' := fun hx => h (hx ▸ List.mem_cons_self _ _)
    simp [bracketAt, hx]

theorem extract_component_no_bracket (s : Str) (h : '[' ∉ s) :
    extract_component s = none := by
  simp only [extract_component, bracketAt_none s h]
  exact bracketAt_none _ (fun hm => h ((List.drop_sublist _ _).mem hm))

/-! ### Claim C6 -/

/-- C6 counterexample: two lines identical except for the body of an
embedded `ep-` request identifier do not always normalize alike: a body
shaped like a UUID (digits and hyphens, all inside the identifier
character class) is rewritten to `<UUID>` by the earlier UUID pass, after
which the request pass no longer matches, so the two lines land in
different clusters. -/
theorem C6_counterexample :
    normalize_line "req ep-abc123 done".toList = "req <REQ> done".toList ∧
    normalize_line "req ep-12345678-1234-1234-1234-123456789012 done".toList =
      "req ep-<UUID> done".toList ∧
    entryKey ⟨1, "req ep-abc123 done".toList, "req ep-abc123 done".toList⟩ ≠
      entryKey ⟨1, "req ep-12345678-1234-1234-1234-123456789012 done".toList,
        "req ep-12345678-1234-1234-1234-123456789012 done".toList⟩ := by
  decide

/-- C6 amended: two lines of the form `a ++ "ep-" ++ b ++ c` that are
identical except for the identifier body, where the context consists of
word characters and spaces, the character before `ep-` is a space (or the
line starts there), and the bodies are nonempty strings of word characters
(letters, digits, underscores — no hyphens, so no earlier normalization
pass can rewrite part of the identifier), are mapped by `normalize_line`
to the same string and yield the same component; if they additionally
classify to the same severity, they carry the same cluster key and are
merged into the same cluster. -/
theorem C6_amended (a b1 b2 c : Str)
    (ha : ∀ ch ∈ a, isWordChar ch = true ∨ ch = ' ')
    (haLast : ∀ y, a.getLast? = some y → y = ' ')
    (hb1 : b1 ≠ []) (hb1w : ∀ ch ∈ b1, isWordChar ch = true)
    (hb2 : b2 ≠ []) (hb2w : ∀ ch ∈ b2, isWordChar ch = true)
    (hc : ∀ ch ∈ c, isWordChar ch = true ∨ ch = ' ') :
    normalize_line ((a ++ "ep-".toList) ++ (b1 ++ c)) =
      normalize_line ((a ++ "ep-".toList) ++ (b2 ++ c)) ∧
    extract_component ((a ++ "ep-".toList) ++ (b1 ++ c)) =
      extract_component ((a ++ "ep-".toList) ++ (b2 ++ c)) ∧
    (detect_severity ((a ++ "ep-".toList) ++ (b1 ++ c)) =
        detect_severity ((a ++ "ep-".toList) ++ (b2 ++ c)) →
      entryKey ⟨1, (a ++ "ep-".toList) ++ (b1 ++ c), (a ++ "ep-".toList) ++ (b1 ++ c)⟩ =
        entryKey ⟨1, (a ++ "ep-".toList) ++ (b2 ++ c),
          (a ++ "ep-".toList) ++ (b2 ++ c)⟩) := by
  have hn1 := normalize_structured a b1 c ha haLast hb1 hb1w hc
  have hn2 := normalize_structured a b2 c ha haLast hb2 hb2w hc
  have hnorm := hn1.trans hn2.symm
  have hbr : ∀ (b : Str), (∀ ch ∈ b, isWordChar ch = true) →
      '[' ∉ (a ++ "ep-".toList) ++ (b ++ c) := by
    intro b hbw hm
    rcases List.mem_append.mp hm with h1 | h1
    · rcases List.mem_append.mp h1 with h2 | h2
      · rcases ha '[' h2 with h3 | h3
        · exact absurd h3 (by decide)
        · exact absurd h3 (by decide)
      · exact absurd h2 (by decide)
    · rcases List.mem_append.mp h1 with h2 | h2
      · exact absurd (hbw '[' h2) (by decide)
      · rcases hc '[' h2 with h3 | h3
        · exact absurd h3 (by decide)
        · exact absurd h3 (by decide)
  have hcomp1 := extract_component_no_bracket _ (hbr b1 hb1w)
  have hcomp2 := extract_component_no_bracket _ (hbr b2 hb2w)
  refine ⟨hnorm, hcomp1.trans hcomp2.symm, ?_⟩
  intro hsev
  unfold entryKey
  rw [hcomp1, hcomp2]
  simp only [hsev, hnorm]

/-- Witness for C6 at a concrete input: the specification's example pair
of request identifiers. -/
theorem C6_witness :
    normalize_line (("req ".toList ++ "ep-".toList) ++ ("abc123".toList ++ " done".toList)) =
      normalize_line (("req ".toList ++ "ep-".toList) ++ ("xyz789".toList ++ " done".toList)) ∧
    entryKey ⟨1, ("req ".toList ++ "ep-".toList) ++ ("abc123".toList ++ " done".toList),
        ("req ".toList ++ "ep-".toList) ++ ("abc123".toList ++ " done".toList)⟩ =
      entryKey ⟨1, ("req ".toList ++ "ep-".toList) ++ ("xyz789".toList ++ " done".toList),
        ("req ".toList ++ "ep-".toList) ++ ("xyz789".toList ++ " done".toList)⟩ := by
  have h := C6_amended "req ".toList "abc123".toList "xyz789".toList " done".toList
    (by decide) (by decide) (by decide) (by decide) (by decide) (by decide) (by decide)
  exact ⟨h.1, h.2.2 (by decide)⟩

/-! ### Claim C10, the counterexample -/

/-- C10 counterexample: `normalize_line` is not idempotent.  Escape
stripping removes the sequence `ESC [ m` from `ESC [ ESC [ m s`, which
exposes the new escape sequence `ESC [ s`; only a second application
removes it, so the first output `ESC [ s` is not a fixed point. -/
theorem C10_counterexample :
    normalize_line "\x1b[\x1b[ms".toList = "\x1b[s".toList ∧
    normalize_line (normalize_line "\x1b[\x1b[ms".toList) = [] ∧
    normalize_line (normalize_line "\x1b[\x1b[ms".toList) ≠
      normalize_line "\x1b[\x1b[ms".toList := by
  decide

/-! ### Sorting lemmas for claim C2 -/

theorem rankLt_false_iff (a b : Cluster) :
    rankLt a b = false ↔
      (rankKey b).1 < (rankKey a).1 ∨
        ((rankKey a).1 = (rankKey b).1 ∧ (rankKey b).2 ≤ (rankKey a).2) := by
  simp only [rankLt, Bool.or_eq_false_iff, Bool.and_eq_false_iff,
    decide_eq_false_iff_not, decide_eq_true_eq, not_lt]
  omega

theorem rankLt_asymm (a b : Cluster) (h : rankLt a b = true) : rankLt b a = false := by
  simp only [rankLt, Bool.or_eq_true, Bool.and_eq_true, decide_eq_true_eq] at h
  rw [rankLt_false_iff]
  omega

theorem rankLt_false_trans (a b c : Cluster)
    (h1 : rankLt a b = false) (h2 : rankLt b c = false) : rankLt a c = false := by
  rw [rankLt_false_iff] at h1 h2 ⊢
  omega

theorem rankLt_true_key_ne (a b : Cluster) (h : rankLt a b = true) :
    rankKey a ≠ rankKey b := by
  simp only [rankLt, Bool.or_eq_true, Bool.and_eq_true, decide_eq_true_eq] at h
  intro he
  rw [Prod.ext_iff] at he
  omega

theorem insertDesc_perm (x : Cluster) (l : List Cluster) :
    (insertDesc x l).Perm (x :: l) := by
  induction l with
  | nil => exact List.Perm.refl _
  | cons h t ih =>
    simp only [insertDesc]
    split
    · exact (ih.cons h).trans (List.Perm.swap x h t)
    · exact List.Perm.refl _

theorem sortClusters_perm (l : List Cluster) : (sortClusters l).Perm l := by
  induction l with
  | nil => exact List.Perm.refl _
  | cons x xs ih => exact (insertDesc_perm x (sortClusters xs)).trans (ih.cons x)

theorem pairwise_insertDesc (x : Cluster) (l : List Cluster)
    (hl : List.Pairwise (fun a b => rankLt a b = false) l) :
    List.Pairwise (fun a b => rankLt a b = false) (insertDesc x l) := by
  induction l with
  | nil => exact List.pairwise_singleton _ _
  | cons h t ih =>
    rw [List.pairwise_cons] at hl
    simp only [insertDesc]
    split
    · rename_i hx
      rw [List.pairwise_cons]
      constructor
      · intro y hy
        have hy2 : y ∈ x :: t := (insertDesc_perm x t).mem_iff.mp hy
        rcases List.mem_cons.mp hy2 with rfl | hy3
        · exact rankLt_asymm _ _ hx
        · exact hl.1 y hy3
      · exact ih hl.2
    · rename_i hx
      have hxh : rankLt x h = false := by
        cases hh : rankLt x h
        · rfl
        · exact absurd hh hx
      rw [List.pairwise_cons]
      constructor
      · intro y hy
        rcases List.mem_cons.mp hy with hy | hy
        · subst hy
          exact hxh
        · exact rankLt_false_trans _ _ _ hxh (hl.1 y hy)
      · exact List.pairwise_cons.mpr hl

theorem pairwise_sortClusters (l : List Cluster) :
    List.Pairwise (fun a b => rankLt a b = false) (sortClusters l) := by
  induction l with
  | nil => exact List.Pairwise.nil
  | cons x xs ih => exact pairwise_insertDesc x _ ih

theorem filter_insertDesc (k : Nat × Nat) (x : Cluster) (l : List Cluster) :
    (insertDesc x l).filter (fun c => rankKey c = k) =
      (x :: l).filter (fun c => rankKey c = k) := by
  induction l with
  | nil => rfl
  | cons h t ih =>
    simp only [insertDesc]
    split
    · rename_i hx
      by_cases hxk : rankKey x = k
      · have hhk : rankKey h ≠ k := by
          intro hh
          exact rankLt_true_key_ne x h hx (hxk.trans hh.symm)
        simp only [List.filter_cons, decide_eq_true_eq]
        rw [if_neg hhk, if_pos hxk]
        have := ih
        simp only [List.filter_cons, decide_eq_true_eq, if_pos hxk] at this
        rw [this]
        rw [if_neg hhk]
      · simp only [List.filter_cons, decide_eq_true_eq]
        have := ih
        simp only [List.filter_cons, decide_eq_true_eq, if_neg hxk] at this
        rw [this, if_neg hxk]
    · rfl

theorem filter_sortClusters (k : Nat × Nat) (l : List Cluster) :
    (sortClusters l).filter (fun c => rankKey c = k) =
      l.filter (fun c => rankKey c = k) := by
  induction l with
  | nil => rfl
  | cons x xs ih =>
    show (insertDesc x (sortClusters xs)).filter _ = _
    rw [filter_insertDesc]
    simp only [List.filter_cons]
    rw [ih]

theorem sevWeight_eq_four (s : String) (h : sevWeight s = 4) : s = "FATAL" := by
  by_cases h1 : s = "FATAL"
  · exact h1
  · exfalso
    simp only [sevWeight, if_neg h1] at h
    split_ifs at h <;> omega

/-- C2 amended: the ranked list of `process_log` is a permutation of the
cluster map's values, pairwise sorted by severity weight descending then
count descending, and ties on both keys keep the clusters' first-seen
(insertion) order — the deterministic tie-break the code actually has —
rather than lexicographic signature order.  Consequently severity weights
are monotonically non-increasing along the output (so every FATAL cluster
precedes every non-FATAL one), and within one severity tier counts are
non-increasing. -/
theorem C2_amended (lines : List Str) :
    (process_log lines).Perm ((clusterMap lines).map Prod.snd) ∧
    List.Pairwise (fun a b => rankLt a b = false) (process_log lines) ∧
    (∀ k : Nat × Nat,
      (process_log lines).filter (fun c => rankKey c = k) =
        ((clusterMap lines).map Prod.snd).filter (fun c => rankKey c = k)) ∧
    (∀ (i j : Fin (process_log lines).length), i < j →
      sevWeight (((process_log lines).get j).severity) ≤
          sevWeight (((process_log lines).get i).severity) ∧
        ((((process_log lines).get i).severity = ((process_log lines).get j).severity) →
          ((process_log lines).get j).count ≤ ((process_log lines).get i).count) ∧
        ((((process_log lines).get j).severity = "FATAL") →
          ((process_log lines).get i).severity = "FATAL")) := by
  refine ⟨sortClusters_perm _, pairwise_sortClusters _, fun k => filter_sortClusters k _, ?_⟩
  intro i j hij
  have hpw : List.Pairwise (fun a b => rankLt a b = false) (process_log lines) :=
    pairwise_sortClusters _
  have hp := List.pairwise_iff_get.mp hpw i j hij
  rw [rankLt_false_iff] at hp
  simp only [rankKey] at hp
  refine ⟨by omega, fun hsev => ?_, fun hj => ?_⟩
  · rw [hsev] at hp
    omega
  · rw [hj] at hp
    have h4 : sevWeight "FATAL" = 4 := rfl
    rw [h4] at hp
    have : sevWeight (((process_log lines).get i).severity) = 4 := by
      have hle : sevWeight (((process_log lines).get i).severity) ≤ 4 := by
        simp only [sevWeight]
        split_ifs <;> omega
      omega
    exact sevWeight_eq_four _ this

theorem entriesFor_append_ne (k : Key) (done : List CollapsedLine) (e : CollapsedLine)
    (h : ¬ entryKey e = k) :
    entriesFor k (done ++ [e]) = entriesFor k done := by
  simp [entriesFor, List.filter_append, h]

theorem entriesFor_append_eq (done : List CollapsedLine) (e : CollapsedLine) :
    entriesFor (entryKey e) (done ++ [e]) = entriesFor (entryKey e) done ++ [e] := by
  simp [entriesFor, List.filter_append]

theorem map_update_id (k : Key) (e : CollapsedLine) (l : List (Key × Cluster))
    (h : ∀ kv ∈ l, kv.1 ≠ k) :
    l.map (fun kv => if kv.1 = k then (kv.1, updateCluster kv.2 e) else kv) = l := by
  induction l with
  | nil => rfl
  | cons kv rest ih =>
    simp only [List.map_cons]
    rw [if_neg (h kv (List.mem_cons_self _ _)),
      ih (fun q hq => h q (List.mem_cons_of_mem _ hq))]

theorem take_append_single {α : Type} (xs : List α) (x : α) (n : Nat) :
    (xs ++ [x]).take n = xs.take n ++ (if xs.length < n then [x] else []) := by
  rw [List.take_append_eq_append_take]
  congr 1
  split <;> rename_i h
  · match hn : n - xs.length with
    | 0 => omega
    | m + 1 => simp
  · have : n - xs.length = 0 := by omega
    rw [this]
    rfl

theorem updateCluster_examples (c : Cluster) (e : CollapsedLine) (xs : List Str)
    (h : c.examples = xs.take 5) :
    (updateCluster c e).examples = (xs ++ [e.text]).take 5 := by
  simp only [updateCluster, h, List.length_take]
  rw [take_append_single]
  rcases Nat.lt_or_ge xs.length 5 with h5 | h5
  · rw [if_pos (by omega), if_pos h5]
  · rw [if_neg (by omega), if_neg (by omega)]
    simp

/-- One step of the fold preserves the invariant. -/
theorem mapInv_step (m : List (Key × Cluster)) (done : List CollapsedLine)
    (e : CollapsedLine) (hInv : MapInv m done) (he : ¬ pystrip e.text = []) :
    MapInv (stepCluster m e) (done ++ [e]) := by
  unfold stepCluster
  rw [if_neg he]
  by_cases hf : m.any (fun kv => kv.1 = entryKey e) = true
  · rw [if_pos hf]
    obtain ⟨kv, hkvm, hkvk⟩ := List.any_eq_true.mp hf
    have hkv1 : kv.1 = entryKey e := of_decide_eq_true hkvk
    obtain ⟨m1, m2, rfl⟩ := List.append_of_mem hkvm
    have hnd := hInv.nodup
    rw [List.map_append, List.map_cons] at hnd
    have hnd1 : ∀ q ∈ m1, q.1 ≠ entryKey e := by
      intro q hq hqk
      have h1 : kv.1 ∈ (m1.map Prod.fst) := by
        rw [← hkv1] at hqk
        rw [← hqk]
        exact List.mem_map_of_mem _ hq
      exact (List.disjoint_of_nodup_append hnd) h1 (by simp)
    have hnd2 : ∀ q ∈ m2, q.1 ≠ entryKey e := by
      have hnd' := (List.nodup_append.mp hnd).2.1
      rw [List.nodup_cons] at hnd'
      intro q hq hqk
      exact hnd'.1 (by rw [← hkv1] at hqk; rw [← hqk]; exact List.mem_map_of_mem _ hq)
    have hmap : (m1 ++ kv :: m2).map
        (fun q => if q.1 = entryKey e then (q.1, updateCluster q.2 e) else q) =
        m1 ++ (kv.1, updateCluster kv.2 e) :: m2 := by
      rw [List.map_append, List.map_cons, map_update_id _ e m1 hnd1,
        map_update_id _ e m2 hnd2, if_pos hkv1]
    rw [hmap]
    have hold := hInv.perKey kv hkvm
    refine ⟨?_, ?_, ?_, ?_⟩
    · have : (m1 ++ (kv.1, updateCluster kv.2 e) :: m2).map Prod.fst =
          (m1 ++ kv :: m2).map Prod.fst := by simp
      rw [this]
      exact hInv.nodup
    · have htot := hInv.total
      simp only [List.map_append, List.map_cons, List.sum_append, List.sum_cons] at htot ⊢
      simp only [updateCluster, List.length_append, List.length_cons, List.length_nil]
      omega
    · intro kc hkc
      rcases List.mem_append.mp hkc with hkc1 | hkc2
      · have hne : ¬ entryKey e = kc.1 := fun hh => hnd1 kc hkc1 hh.symm
        rw [entriesFor_append_ne _ _ _ hne]
        exact hInv.perKey kc (List.mem_append.mpr (Or.inl hkc1))
      · rcases List.mem_cons.mp hkc2 with rfl | hkc3
        · rw [hkv1, entriesFor_append_eq]
          refine ⟨?_, by simp, ?_, ?_, ?_⟩
          · simp only [updateCluster, List.length_append, List.length_cons]
            rw [← hkv1, hold.1]
            simp
          · rw [List.map_append]
            exact updateCluster_examples kv.2 e _ (by rw [← hkv1]; exact hold.2.2.1)
          · simp only [updateCluster, List.map_append, List.head?_append]
            rw [← hkv1, hold.2.2.2.1]
            rfl
          · simp only [updateCluster, List.map_append]
            simp [List.getLast?_concat]
        · have hne : ¬ entryKey e = kc.1 := fun hh => hnd2 kc hkc3 hh.symm
          rw [entriesFor_append_ne _ _ _ hne]
          exact hInv.perKey kc (List.mem_append.mpr (Or.inr (List.mem_cons_of_mem _ hkc3)))
    · intro e' he'
      rcases List.mem_append.mp he' with he1 | he2
      · obtain ⟨kc, hkcm, hkck⟩ := hInv.covers e' he1
        rcases List.mem_append.mp hkcm with h1 | h2
        · exact ⟨kc, List.mem_append.mpr (Or.inl h1), hkck⟩
        · rcases List.mem_cons.mp h2 with rfl | h3
          · exact ⟨(kc.1, updateCluster kc.2 e),
              List.mem_append.mpr (Or.inr (List.mem_cons_self _ _)), hkck⟩
          · exact ⟨kc, List.mem_append.mpr (Or.inr (List.mem_cons_of_mem _ h3)), hkck⟩
      · have he'e : e' = e := by simpa using he2
        rw [he'e]
        exact ⟨(kv.1, updateCluster kv.2 e),
          List.mem_append.mpr (Or.inr (List.mem_cons_self _ _)), hkv1⟩
  · rw [if_neg hf]
    have hnotin : ∀ kv ∈ m, kv.1 ≠ entryKey e := by
      intro kv hkv hkvk
      exact hf (List.any_eq_true.mpr ⟨kv, hkv, decide_eq_true hkvk⟩)
    have hdone : entriesFor (entryKey e) done = [] := by
      rw [entriesFor, List.filter_eq_nil_iff]
      intro x hx hxk
      obtain ⟨kc, hkcm, hkck⟩ := hInv.covers x hx
      exact hnotin kc hkcm (by rw [hkck]; exact of_decide_eq_true hxk)
    refine ⟨?_, ?_, ?_, ?_⟩
    · rw [List.map_append]
      rw [List.nodup_append]
      refine ⟨hInv.nodup, List.nodup_singleton _, ?_⟩
      intro a ha hb
      have : a = entryKey e := by simpa using hb
      subst this
      obtain ⟨kv, hkv, hkveq⟩ := List.mem_map.mp ha
      exact hnotin kv hkv hkveq
    · simp only [List.map_append, List.sum_append, hInv.total]
      simp [updateCluster, newCluster]
    · intro kc hkc
      rcases List.mem_append.mp hkc with hkc1 | hkc2
      · have hne : ¬ entryKey e = kc.1 := fun hh => hnotin kc hkc1 hh.symm
        rw [entriesFor_append_ne _ _ _ hne]
        exact hInv.perKey kc hkc1
      · have : kc = (entryKey e, updateCluster (newCluster (entryKey e) e.idx) e) := by
          simpa using hkc2
        subst this
        rw [entriesFor_append_eq, hdone]
        refine ⟨?_, by simp, ?_, ?_, ?_⟩
        · simp [updateCluster, newCluster]
        · simp [updateCluster, newCluster]
        · simp [updateCluster, newCluster]
        · simp [updateCluster, newCluster]
    · intro e' he'
      rcases List.mem_append.mp he' with he1 | he2
      · obtain ⟨kc, hkcm, hkck⟩ := hInv.covers e' he1
        exact ⟨kc, List.mem_append.mpr (Or.inl hkcm), hkck⟩
      · have he'e : e' = e := by simpa using he2
        rw [he'e]
        exact ⟨(entryKey e, updateCluster (newCluster (entryKey e) e.idx) e),
          List.mem_append.mpr (Or.inr (List.mem_cons_self _ _)), rfl⟩

theorem mapInv_foldl (es : List CollapsedLine) (m : List (Key × Cluster))
    (done : List CollapsedLine) (hInv : MapInv m done)
    (hes : ∀ e ∈ es, ¬ pystrip e.text = []) :
    MapInv (es.foldl stepCluster m) (done ++ es) := by
  induction es generalizing m done with
  | nil => simpa using hInv
  | cons e rest ih =>
    have h1 := mapInv_step m done e hInv (hes e (List.mem_cons_self _ _))
    have h2 := ih (stepCluster m e) (done ++ [e]) h1
      (fun x hx => hes x (List.mem_cons_of_mem _ hx))
    simpa [List.append_assoc] using h2

theorem pystrip_eq_nil_iff (s : Str) : pystrip s = [] ↔ ∀ c ∈ s, isPySpace c := by
  unfold pystrip
  rw [List.rdropWhile_eq_nil_iff]
  constructor
  · intro h c hc
    rw [← List.takeWhile_append_dropWhile (p := isPySpace) (l := s)] at hc
    rcases List.mem_append.mp hc with h1 | h2
    · exact List.mem_takeWhile_imp h1
    · exact h c h2
  · intro h c hc
    exact h c ((List.dropWhile_sublist _).mem hc)

theorem survivors_text_ne (lines : List Str) (e : CollapsedLine)
    (he : e ∈ survivors lines) : ¬ pystrip e.text = [] := by
  have h := (List.mem_filter.mp he).2
  intro hnil
  rw [pystrip_eq_nil_iff] at hnil
  have hp : punct_only e.text = true := by
    unfold punct_only
    rw [List.all_eq_true]
    intro c hc
    simp [hnil c hc]
  rw [hp] at h
  simp at h

theorem clusterMap_inv (lines : List Str) :
    MapInv (clusterMap lines) (survivors lines) := by
  have h := mapInv_foldl (survivors lines) [] []
    ⟨by simp, by simp, by simp, by simp⟩
    (fun e he => survivors_text_ne lines e he)
  simpa using h

/-! ### Line-number monotonicity, for claim C7 -/

theorem enumFrom_fst_ge (k : Nat) (t : List Str) (x : Nat)
    (hx : x ∈ (List.enumFrom k t).map Prod.fst) : k ≤ x := by
  induction t generalizing k with
  | nil => simp at hx
  | cons a rest ih =>
    simp only [List.enumFrom, List.map_cons, List.mem_cons] at hx
    rcases hx with rfl | hx
    · exact le_rfl
    · exact le_trans (Nat.le_succ k) (ih (k + 1) hx)

theorem enumFrom_fst_lt (k : Nat) (t : List Str) :
    List.Pairwise (· < ·) ((List.enumFrom k t).map Prod.fst) := by
  induction t generalizing k with
  | nil => simp
  | cons a rest ih =>
    simp only [List.enumFrom, List.map_cons]
    rw [List.pairwise_cons]
    refine ⟨?_, ih (k + 1)⟩
    intro m hm
    exact lt_of_lt_of_le (Nat.lt_succ_self k) (enumFrom_fst_ge (k + 1) rest m hm)

theorem consumeBlock_rem_suffix (d : Int) (l : List (Nat × Str)) :
    (consumeBlock d l).2.IsSuffix l := by
  induction l generalizing d with
  | nil => simp [consumeBlock]
  | cons p rest ih =>
    simp only [consumeBlock]
    split
    · exact List.suffix_refl _
    · exact (ih _).trans (List.suffix_cons p rest)

theorem collapse_idx_sublist_aux (n : Nat) (l : List (Nat × Str)) (hl : l.length ≤ n) :
    List.Sublist ((collapse_brace_blocks l).map (fun cl => cl.idx)) (l.map Prod.fst) := by
  induction n generalizing l with
  | zero =>
    have : l = [] := List.length_eq_zero.mp (Nat.le_zero.mp hl)
    subst this
    simp
  | succ n ih =>
    match l with
    | [] => simp
    | (i, s) :: rest =>
      by_cases hb : (pyrstrip s).getLast? = some '{'
      · rw [collapse_cons_block i s rest hb]
        simp only [List.map_cons]
        refine List.Sublist.cons₂ _ ?_
        refine (ih _ (le_trans (consumeBlock_rem_length _ _)
          (Nat.le_of_succ_le_succ hl))).trans ?_
        exact List.Sublist.map _ (consumeBlock_rem_suffix _ _).sublist
      · rw [collapse_cons_pass i s rest hb]
        simp only [List.map_cons]
        exact List.Sublist.cons₂ _ (ih rest (Nat.le_of_succ_le_succ hl))

theorem collapse_idx_sublist (l : List (Nat × Str)) :
    List.Sublist ((collapse_brace_blocks l).map (fun cl => cl.idx)) (l.map Prod.fst) :=
  collapse_idx_sublist_aux l.length l le_rfl

theorem survivors_idx_lt (lines : List Str) :
    List.Pairwise (· < ·) ((survivors lines).map (fun cl => cl.idx)) := by
  have h0 : List.Pairwise (· < ·) ((phase1 lines).map Prod.fst) := by
    have hmm : ((List.enumFrom 1 lines).map
        (fun p => (p.1, strip_ansi p.2))).map Prod.fst =
        (List.enumFrom 1 lines).map Prod.fst := by
      rw [List.map_map]
      rfl
    refine List.Pairwise.sublist ?_ (hmm ▸ enumFrom_fst_lt 1 lines)
    exact List.Sublist.map _ (List.filter_sublist _)
  refine List.Pairwise.sublist ?_ h0
  refine ((List.Sublist.map _ (List.filter_sublist _)).trans
    (collapse_idx_sublist (phase1 lines)))

theorem pairwise_lt_head_getLast (l : List Nat) (a b : Nat)
    (hp : List.Pairwise (· < ·) l) (ha : l.head? = some a) (hb : l.getLast? = some b) :
    a ≤ b := by
  cases l with
  | nil => cases ha
  | cons x xs =>
    have hax : x = a := by simpa using ha
    subst hax
    have hbmem : b ∈ x :: xs := List.mem_of_getLast?_eq_some hb
    rcases List.mem_cons.mp hbmem with rfl | hbx
    · exact le_rfl
    · exact le_of_lt ((List.pairwise_cons.mp hp).1 b hbx)

/-! ### Claims C1 and C7 -/

/-- C1: over every input, the cluster counts of `process_log` sum to
exactly the number of entries surviving escape-stripping, blank-line
removal, brace collapsing and the structural filter; the cluster keys are
pairwise distinct, each cluster counts exactly the surviving entries whose
(component, severity, normalized-text) key matches it, and every surviving
entry has a matching cluster — so each entry is merged into exactly one
cluster. -/
theorem C1_count_partition (lines : List Str) :
    ((process_log lines).map Cluster.count).sum = (survivors lines).length ∧
    ((clusterMap lines).map Prod.fst).Nodup ∧
    (∀ kc ∈ clusterMap lines,
      kc.2.count = ((survivors lines).filter (fun e => entryKey e = kc.1)).length) ∧
    (∀ e ∈ survivors lines, ∃ kc ∈ clusterMap lines, kc.1 = entryKey e) := by
  have hInv := clusterMap_inv lines
  refine ⟨?_, hInv.nodup, fun kc hkc => ((hInv.perKey kc hkc).1), hInv.covers⟩
  have hperm : (process_log lines).Perm ((clusterMap lines).map Prod.snd) :=
    sortClusters_perm _
  have hsum : ((process_log lines).map Cluster.count).sum =
      (((clusterMap lines).map Prod.snd).map Cluster.count).sum :=
    (hperm.map Cluster.count).sum_eq
  rw [hsum, List.map_map]
  exact hInv.total

/-- Witness for C1 at a concrete input. -/
theorem C1_witness :
    ((process_log ["a one".toList, "b two".toList, "a one".toList]).map
        Cluster.count).sum =
      (survivors ["a one".toList, "b two".toList, "a one".toList]).length :=
  (C1_count_partition ["a one".toList, "b two".toList, "a one".toList]).1

/-- C7: every cluster of `process_log` keeps at most 5 examples — exactly
the display texts of the first at-most-5 entries merged into it, in
insertion order — and its first-seen line number never exceeds its
last-seen line number. -/
theorem C7_cluster_bounds (lines : List Str) (c : Cluster)
    (hc : c ∈ process_log lines) :
    c.examples.length ≤ 5 ∧ c.first_seen_line ≤ c.last_seen_line ∧
    ∃ k : Key, (k, c) ∈ clusterMap lines ∧
      c.examples =
        (((survivors lines).filter (fun e => entryKey e = k)).map
          (fun cl => cl.text)).take 5 := by
  have hperm : (process_log lines).Perm ((clusterMap lines).map Prod.snd) :=
    sortClusters_perm _
  have hc2 : c ∈ (clusterMap lines).map Prod.snd := hperm.mem_iff.mp hc
  obtain ⟨kc, hkcm, hkceq⟩ := List.mem_map.mp hc2
  have hInv := clusterMap_inv lines
  obtain ⟨hcount, hne, hex, hhead, hlast⟩ := hInv.perKey kc hkcm
  subst hkceq
  refine ⟨?_, ?_, kc.1, by simpa using hkcm, hex⟩
  · rw [hex]
    exact le_trans (List.length_take_le _ _) le_rfl
  · refine pairwise_lt_head_getLast _ _ _ ?_ hhead hlast
    refine List.Pairwise.sublist ?_ (survivors_idx_lt lines)
    exact List.Sublist.map _ (List.filter_sublist _)

/-- Witness for C7 at a concrete input. -/
theorem C7_witness :
    ((process_log ["x go".toList, "x go".toList]).get ⟨0, by decide⟩).examples.length ≤ 5 ∧
    ((process_log ["x go".toList, "x go".toList]).get ⟨0, by decide⟩).first_seen_line ≤
      ((process_log ["x go".toList, "x go".toList]).get ⟨0, by decide⟩).last_seen_line :=
  ⟨(C7_cluster_bounds ["x go".toList, "x go".toList] _ (List.get_mem _ 0 (by decide))).1,
   (C7_cluster_bounds ["x go".toList, "x go".toList] _ (List.get_mem _ 0 (by decide))).2.1⟩

/-- Witness for C2 at a concrete input: a FATAL cluster of count 1 is
ranked above an ERROR cluster of count 2. -/
theorem C2_witness :
    sevWeight ((process_log
        ["[A] ERROR boom".toList, "[A] ERROR boom".toList, "fatal crash".toList]).get
          ⟨1, by decide⟩).severity ≤
      sevWeight ((process_log
        ["[A] ERROR boom".toList, "[A] ERROR boom".toList, "fatal crash".toList]).get
          ⟨0, by decide⟩).severity :=
  ((C2_amended
    ["[A] ERROR boom".toList, "[A] ERROR boom".toList, "fatal crash".toList]).2.2.2
      ⟨0, by decide⟩ ⟨1, by decide⟩ (by decide)).1

theorem option_or_some_absorb (a : Option Char) (c : Char) (b : Option Char) :
    (a.or (some c)).or b = a.or (some c) := by
  cases a <;> rfl

theorem option_or_absorb_of_ne_none (a b : Option Char) (h : a ≠ none) :
    a.or b = a := by
  cases a with
  | none => exact absurd rfl h
  | some x => rfl

theorem getLast?_append_or (a b : Str) :
    (a ++ b).getLast? = b.getLast?.or a.getLast? := by
  induction a with
  | nil => rw [List.nil_append]; cases h : b.getLast? <;> rfl
  | cons x xs ih =>
    rw [List.cons_append, getLast?_cons_or, ih, getLast?_cons_or]
    cases h : b.getLast? <;> cases h2 : xs.getLast? <;> rfl

theorem getLast?_ne_none_of_ne_nil (a : Str) (h : a ≠ []) : a.getLast? ≠ none := by
  cases a with
  | nil => exact absurd rfl h
  | cons x xs => rw [getLast?_cons_or]; cases xs.getLast? <;> simp [Option.or]

/-- `substF` with enough fuel realizes the `Scan` relation, provided the
matcher always returns a decomposition of its input. -/
theorem scan_substF (mt : Option Char → Str → Option (Str × Str)) (repl : Str)
    (Hs : ∀ p s m rem, mt p s = some (m, rem) → s = m ++ rem ∧ m ≠ []) :
    ∀ (fuel : Nat) (p : Option Char) (s : Str), s.length ≤ fuel →
      Scan mt repl p s (substF mt repl fuel p s) := by
  intro fuel
  induction fuel with
  | zero =>
    intro p s hlen
    have : s = [] := List.length_eq_zero.mp (Nat.le_zero.mp hlen)
    subst this
    exact Scan.nil p
  | succ fuel ih =>
    intro p s hlen
    cases s with
    | nil => exact Scan.nil p
    | cons c rest =>
      cases hm : mt p (c :: rest) with
      | none =>
        simp only [substF, hm]
        exact Scan.keep p c rest _ hm (ih (some c) rest (Nat.le_of_succ_le_succ hlen))
      | some r =>
        obtain ⟨m, rem⟩ := r
        obtain ⟨hsplit, hmne⟩ := Hs p (c :: rest) m rem hm
        have hrem : rem.length ≤ fuel := by
          have h1 : (c :: rest).length = m.length + rem.length := by
            rw [hsplit, List.length_append]
          have h2 : 1 ≤ m.length := by
            cases m with
            | nil => exact absurd rfl hmne
            | cons _ _ => exact Nat.succ_le_succ (Nat.zero_le _)
          simp only [List.length_cons] at h1 hlen
          omega
        simp only [substF, hm]
        exact Scan.tok p (c :: rest) m rem _ hm (by simp) (ih m.getLast? rem hrem)

/-- A scanner whose matcher fails at every position of `s`, with the
contexts actually fed to it, leaves `s` unchanged. -/
theorem substF_eq_self_ctx (mt : Option Char → Str → Option (Str × Str)) (repl : Str)
    (fuel : Nat) (lctx : Option Char) (s : Str) (h : noMatchAt mt lctx s) :
    substF mt repl fuel lctx s = s := by
  induction fuel generalizing lctx s with
  | zero => rfl
  | succ fuel ih =>
    cases s with
    | nil => rfl
    | cons c rest =>
      have h0 : mt lctx (c :: rest) = none := by
        have := h [] (c :: rest) rfl (by simp)
        simpa using this
      simp only [substF, h0]
      refine congrArg _ (ih (some c) rest ?_)
      intro t₁ t₂ ht htne
      have := h (c :: t₁) t₂ (by simp [ht]) htne
      rwa [getLast?_cons_or, option_or_some_absorb] at this

/-- Every character of a scan output comes from the input or from the
replacement token. -/
theorem scan_chars (mt : Option Char → Str → Option (Str × Str)) (repl : Str)
    (Hs : ∀ p s m rem, mt p s = some (m, rem) → s = m ++ rem ∧ m ≠ [])
    (p : Option Char) (u o : Str) (hscan : Scan mt repl p u o) :
    ∀ c ∈ o, c ∈ u ∨ c ∈ repl := by
  induction hscan with
  | nil => intro c hc; cases hc
  | keep q c u o hm hsub ih =>
    intro d hd
    cases hd with
    | head => exact Or.inl (List.mem_cons_self _ _)
    | tail _ hd =>
      cases ih d hd with
      | inl h => exact Or.inl (List.mem_cons_of_mem _ h)
      | inr h => exact Or.inr h
  | tok q u m rem o hm hune hsub ih =>
    intro d hd
    rcases List.mem_append.mp hd with h | h
    · exact Or.inr h
    · cases ih d h with
      | inl hin =>
        obtain ⟨hsplit, _⟩ := Hs q u m rem hm
        exact Or.inl (hsplit ▸ List.mem_append.mpr (Or.inr hin))
      | inr hin => exact Or.inr hin

/-- A nonempty-replacement scan produces empty output only from empty
input. -/
theorem scan_out_nil (mt : Option Char → Str → Option (Str × Str)) (repl : Str)
    (hrne : repl ≠ []) (p : Option Char) (u o : Str)
    (hscan : Scan mt repl p u o) (ho : o = []) : u = [] := by
  cases hscan with
  | nil => rfl
  | keep q c u2 o2 hm hsub => cases ho
  | tok q u2 m rem o2 hm hune hsub =>
    exact absurd (List.append_eq_nil.mp ho).1 hrne

/-- The head of a scan output is the head of the input or of the token. -/
theorem scan_head (mt : Option Char → Str → Option (Str × Str)) (repl : Str)
    (hrne : repl ≠ []) (p : Option Char) (u o : Str)
    (hscan : Scan mt repl p u o) :
    ∀ c, o.head? = some c → u.head? = some c ∨ repl.head? = some c := by
  cases hscan with
  | nil => intro c hc; cases hc
  | keep q c u o hm hsub =>
    intro d hd
    exact Or.inl hd
  | tok q u m rem o hm hune hsub =>
    intro d hd
    obtain ⟨rc, rrest, hr⟩ := List.exists_cons_of_ne_nil hrne
    refine Or.inr ?_
    rw [hr, List.cons_append, List.head?_cons] at hd
    rw [hr, List.head?_cons]
    exact hd

/-- The last character of a scan output is the last of the input or of the
token. -/
theorem scan_last (mt : Option Char → Str → Option (Str × Str)) (repl : Str)
    (Hs : ∀ p s m rem, mt p s = some (m, rem) → s = m ++ rem ∧ m ≠ [])
    (hrne : repl ≠ []) (p : Option Char) (u o : Str)
    (hscan : Scan mt repl p u o) :
    ∀ c, o.getLast? = some c → u.getLast? = some c ∨ repl.getLast? = some c := by
  induction hscan with
  | nil => intro c hc; cases hc
  | keep q c u o hm hsub ih =>
    intro d hd
    rw [getLast?_cons_or] at hd
    cases ho : o.getLast? with
    | none =>
      rw [ho] at hd
      simp only [Option.or] at hd
      have hu : u = [] :=
        scan_out_nil mt repl hrne _ _ _ hsub (List.getLast?_eq_none_iff.mp ho)
      subst hu
      exact Or.inl (by simpa using hd)
    | some e =>
      rw [ho] at hd
      simp only [Option.or] at hd
      cases hd
      cases ih d ho with
      | inl h =>
        refine Or.inl ?_
        rw [getLast?_cons_or, h]
        rfl
      | inr h => exact Or.inr h
  | tok q u m rem o hm hune hsub ih =>
    intro d hd
    rw [getLast?_append_or] at hd
    cases ho : o.getLast? with
    | none =>
      rw [ho] at hd
      simp only [Option.or] at hd
      exact Or.inr hd
    | some e =>
      rw [ho] at hd
      simp only [Option.or] at hd
      cases hd
      cases ih d ho with
      | inl h =>
        obtain ⟨hsplit, _⟩ := Hs q u m rem hm
        refine Or.inl ?_
        rw [hsplit, getLast?_append_or, h]
        rfl
      | inr h => exact Or.inr h

/-- A token-free prefix of a scan output is a kept prefix of the input, and
the scan of the remainder resumes with the prefix's last character as
context. -/
theorem scan_kept_front (mt : Option Char → Str → Option (Str × Str)) (repl : Str)
    (HrHead : repl.head? = some '<') (p : Option Char) (u o : Str)
    (hscan : Scan mt repl p u o) :
    ∀ v y, o = v ++ y → '<' ∉ v →
      ∃ yin, u = v ++ yin ∧ Scan mt repl (v.getLast?.or p) yin y := by
  induction hscan with
  | nil q =>
    intro v y hsplit hlt
    have hv : v = [] := (List.append_eq_nil.mp hsplit.symm).1
    have hy : y = [] := (List.append_eq_nil.mp hsplit.symm).2
    subst hv; subst hy
    exact ⟨[], rfl, Scan.nil q⟩
  | keep q c u o hm hsub ih =>
    intro v y hsplit hlt
    cases v with
    | nil =>
      refine ⟨c :: u, rfl, ?_⟩
      have hy : y = c :: o := by simpa using hsplit.symm
      subst hy
      exact Scan.keep q c u o hm hsub
    | cons v0 v1 =>
      rw [List.cons_append] at hsplit
      injection hsplit with h1 h2
      subst h1
      obtain ⟨yin, hu, hres⟩ := ih v1 y h2 (fun hmem => hlt (List.mem_cons_of_mem _ hmem))
      refine ⟨yin, by rw [hu, List.cons_append], ?_⟩
      rwa [getLast?_cons_or, option_or_some_absorb]
  | tok q u m rem o hm hune hsub ih =>
    intro v y hsplit hlt
    cases v with
    | nil =>
      refine ⟨u, rfl, ?_⟩
      have hy : y = repl ++ o := by simpa using hsplit.symm
      subst hy
      exact Scan.tok q u m rem o hm hune hsub
    | cons v0 v1 =>
      exfalso
      cases hr : repl with
      | nil => rw [hr] at HrHead; cases HrHead
      | cons rc rrest =>
        rw [hr] at HrHead
        have hrc : rc = '<' := by
          simpa using HrHead
        rw [hr, List.cons_append] at hsplit
        rw [List.cons_append] at hsplit
        injection hsplit with h1 h2
        exact hlt (by rw [← h1, hrc]; exact List.mem_cons_self _ _)

/-! ### Character class implications -/

theorem hex_word (c : Char) (h : isHexDigit c = true) : isWordChar c = true := by
  simp only [isHexDigit, Bool.or_eq_true, Bool.and_eq_true, decide_eq_true_eq] at h
  simp only [isWordChar, Char.isAlphanum, Char.isAlpha, Char.isLower, Char.isUpper,
    Bool.or_eq_true, Bool.and_eq_true, decide_eq_true_eq]
  obtain (h | h) | h := h
  · exact Or.inl (Or.inr h)
  · exact Or.inl (Or.inl (Or.inr ⟨h.1, le_trans h.2 (show Char.ofNat 102 ≤ Char.ofNat 122 by decide)⟩))
  · exact Or.inl (Or.inl (Or.inl ⟨h.1, le_trans h.2 (show Char.ofNat 70 ≤ Char.ofNat 90 by decide)⟩))

theorem digit_word (c : Char) (h : c.isDigit = true) : isWordChar c = true := by
  simp only [isWordChar, Char.isAlphanum, Bool.or_eq_true]
  exact Or.inl (Or.inr h)

theorem idclass_split (c : Char) (h : isIdClass c = true) :
    isWordChar c = true ∨ c = '-' := by
  simp only [isIdClass, Bool.or_eq_true, decide_eq_true_eq] at h
  exact h

theorem pyspace_not_word (c : Char) (h : isPySpace c = true) :
    isWordChar c = false := by
  cases hw : isWordChar c with
  | false => rfl
  | true => rw [word_not_pyspace c hw] at h; cases h

theorem digit_not_pyspace (c : Char) (h : c.isDigit = true) :
    isPySpace c = false :=
  word_not_pyspace c (digit_word c h)

/-! ### List surgery helpers -/

theorem mem_of_getLast_opt (l : Str) (c : Char) (h : l.getLast? = some c) :
    c ∈ l := by
  induction l with
  | nil => cases h
  | cons a t ih =>
    rw [getLast?_cons_or] at h
    cases ht : t.getLast? with
    | none =>
      rw [ht] at h
      simp only [Option.or] at h
      cases h
      exact List.mem_cons_self _ _
    | some e =>
      rw [ht] at h
      simp only [Option.or] at h
      cases h
      exact List.mem_cons_of_mem _ (ih ht)

theorem append_eq_split (r o x v y : Str) (h : r ++ o = x ++ v ++ y)
    (hle : x.length + v.length ≤ r.length) : ∃ zz, r = x ++ v ++ zz := by
  refine ⟨r.drop (x.length + v.length), ?_⟩
  have htake : (r ++ o).take (x.length + v.length) = r.take (x.length + v.length) := by
    rw [List.take_append_eq_append_take, Nat.sub_eq_zero_of_le hle,
      List.take_zero, List.append_nil]
  have htake2 : (x ++ v ++ y).take (x.length + v.length) = x ++ v := by
    rw [List.append_assoc, List.take_append_eq_append_take,
      List.take_of_length_le (by omega), Nat.add_sub_cancel_left,
      List.take_append_eq_append_take, List.take_of_length_le (le_refl _),
      Nat.sub_self, List.take_zero, List.append_nil]
  have : x ++ v = r.take (x.length + v.length) := by
    rw [← htake2, ← h, htake]
  calc r = r.take (x.length + v.length) ++ r.drop (x.length + v.length) :=
        (List.take_append_drop _ _).symm
    _ = x ++ v ++ r.drop (x.length + v.length) := by rw [← this]

theorem append_eq_split2 (r o x v y : Str) (h : r ++ o = x ++ v ++ y)
    (hle : r.length ≤ x.length) :
    ∃ xx, x = r ++ xx ∧ o = xx ++ v ++ y := by
  have htake : (r ++ o).take r.length = r := by
    rw [List.take_append_eq_append_take, List.take_of_length_le (le_refl _),
      Nat.sub_self, List.take_zero, List.append_nil]
  have htake2 : (x ++ v ++ y).take r.length = x.take r.length := by
    rw [List.append_assoc, List.take_append_eq_append_take,
      Nat.sub_eq_zero_of_le hle, List.take_zero, List.append_nil]
  have hr : r = x.take r.length := by
    conv_lhs => rw [← htake]
    rw [h, htake2]
  obtain ⟨xx, hxx⟩ : r <+: x := by
    rw [hr]
    exact List.take_prefix _ _
  refine ⟨xx, hxx.symm, ?_⟩
  have h2 : r ++ o = r ++ (xx ++ v ++ y) := by
    rw [h, ← hxx, List.append_assoc, List.append_assoc, List.append_assoc]
  have := List.append_cancel_left h2
  rw [this, List.append_assoc]

theorem middle_mem (r : Str) (c : Char) (o2 x v y : Str)
    (h : r ++ c :: o2 = x ++ v ++ y) (h1 : x.length ≤ r.length)
    (h2 : r.length < x.length + v.length) : c ∈ v := by
  have hdrop : (r ++ c :: o2).drop r.length = c :: o2 := List.drop_left r _
  have hdrop2 : (x ++ v ++ y).drop r.length =
      (v ++ y).drop (r.length - x.length) := by
    rw [List.append_assoc, List.drop_append_eq_append_drop,
      List.drop_of_length_le h1, List.nil_append]
  have hk : r.length - x.length < v.length := by omega
  have hsplit : (v ++ y).drop (r.length - x.length) =
      v.drop (r.length - x.length) ++ y := by
    rw [List.drop_append_eq_append_drop, Nat.sub_eq_zero_of_le (le_of_lt hk),
      List.drop_zero]
  have heq : c :: o2 = v.drop (r.length - x.length) ++ y := by
    rw [← hsplit, ← hdrop2, ← h, hdrop]
  cases hvd : v.drop (r.length - x.length) with
  | nil =>
    exfalso
    have := List.length_drop (r.length - x.length) v
    rw [hvd] at this
    simp only [List.length_nil] at this
    omega
  | cons a t =>
    rw [hvd, List.cons_append] at heq
    injection heq with hca _
    have : a ∈ v.drop (r.length - x.length) := by
      rw [hvd]; exact List.mem_cons_self _ _
    exact hca ▸ List.drop_subset _ _ this

theorem takeWhile_append_stop (p : Char → Bool) (u w : Str)
    (hu : ∀ c ∈ u, p c = true) (hw : ∀ c, w.head? = some c → p c = false) :
    (u ++ w).takeWhile p = u := by
  induction u with
  | nil =>
    cases w with
    | nil => rfl
    | cons c t =>
      simp [List.takeWhile_cons, hw c rfl]
  | cons a u2 ih =>
    simp only [List.cons_append, List.takeWhile_cons,
      hu a (List.mem_cons_self _ _), if_pos]
    exact congrArg _ (ih (fun c hc => hu c (List.mem_cons_of_mem _ hc)))

theorem takeWhile_append_all (p : Char → Bool) (u w : Str)
    (hu : ∀ c ∈ u, p c = true) :
    (u ++ w).takeWhile p = u ++ w.takeWhile p := by
  induction u with
  | nil => rfl
  | cons a u2 ih =>
    simp only [List.cons_append, List.takeWhile_cons,
      hu a (List.mem_cons_self _ _)]
    exact congrArg _ (ih (fun c hc => hu c (List.mem_cons_of_mem _ hc)))

theorem drop_takeWhile_length (p : Char → Bool) (l : Str) :
    l.drop (l.takeWhile p).length = l.dropWhile p := by
  induction l with
  | nil => rfl
  | cons a t ih =>
    simp only [List.takeWhile_cons, List.dropWhile_cons]
    cases hp : p a with
    | true => simpa using ih
    | false => simp

theorem dropWhile_head_not (p : Char → Bool) (l : Str) (c : Char)
    (h : (l.dropWhile p).head? = some c) : p c = false := by
  induction l with
  | nil => cases h
  | cons a t ih =>
    rw [List.dropWhile_cons] at h
    cases hp : p a with
    | true =>
      rw [hp, if_pos rfl] at h
      exact ih h
    | false =>
      rw [hp, if_neg (by simp)] at h
      rw [List.head?_cons] at h
      injection h with h2
      rw [← h2]
      exact hp

theorem takeExact_full (p : Char → Bool) (n : Nat) (s u v : Str)
    (h : takeExact p n s = some (u, v)) :
    s = u ++ v ∧ u.length = n ∧ ∀ c ∈ u, p c = true := by
  induction n generalizing s u v with
  | zero =>
    simp only [takeExact, Option.some.injEq, Prod.mk.injEq] at h
    rw [← h.1, ← h.2]
    exact ⟨rfl, rfl, fun c hc => by cases hc⟩
  | succ n ih =>
    cases s with
    | nil => cases h
    | cons c cs =>
      simp only [takeExact] at h
      split at h
      · rename_i hp
        obtain ⟨⟨u2, v2⟩, hr, hf⟩ := Option.map_eq_some'.mp h
        obtain ⟨hu2, hv2⟩ := Prod.mk.injEq .. |>.mp hf
        obtain ⟨hs, hlen, hall⟩ := ih cs u2 v2 hr
        subst hu2; subst hv2
        refine ⟨by rw [hs, List.cons_append], by simp [hlen], ?_⟩
        intro d hd
        cases hd with
        | head => exact hp
        | tail _ hd => exact hall d hd
      · cases h

theorem takeExact_append (p : Char → Bool) (n : Nat) (u w : Str)
    (hlen : u.length = n) (hall : ∀ c ∈ u, p c = true) :
    takeExact p n (u ++ w) = some (u, w) := by
  induction n generalizing u with
  | zero =>
    have : u = [] := List.length_eq_zero.mp hlen
    subst this
    rfl
  | succ n ih =>
    cases u with
    | nil => cases hlen
    | cons c u2 =>
      rw [List.cons_append]
      simp only [takeExact, hall c (List.mem_cons_self _ _), if_pos]
      rw [ih u2 (by simpa using hlen) (fun d hd => hall d (List.mem_cons_of_mem _ hd))]
      rfl

theorem takeSome_some (p : Char → Bool) (s u t : Str)
    (h : takeSome p s = some (u, t)) :
    s = u ++ t ∧ u ≠ [] ∧ (∀ c ∈ u, p c = true) ∧
      (∀ c, t.head? = some c → p c = false) := by
  simp only [takeSome] at h
  split at h
  · cases h
  · rename_i hne
    obtain ⟨hu, ht⟩ := Prod.mk.injEq .. |>.mp (Option.some.injEq .. |>.mp h)
    subst hu
    refine ⟨?_, hne, fun c hc => List.mem_takeWhile_imp hc, ?_⟩
    · rw [← ht, drop_takeWhile_length, List.takeWhile_append_dropWhile]
    · intro c hc
      rw [← ht, drop_takeWhile_length] at hc
      exact dropWhile_head_not p s c hc

theorem takeSome_append (p : Char → Bool) (u w : Str) (hune : u ≠ [])
    (hall : ∀ c ∈ u, p c = true) (hw : ∀ c, w.head? = some c → p c = false) :
    takeSome p (u ++ w) = some (u, w) := by
  simp only [takeSome, takeWhile_append_stop p u w hall hw, if_neg hune,
    List.drop_left]

theorem takeStar_split (p : Char → Bool) (s : Str) :
    s = (takeStar p s).1 ++ (takeStar p s).2 ∧
      (∀ c ∈ (takeStar p s).1, p c = true) ∧
      (∀ c, (takeStar p s).2.head? = some c → p c = false) := by
  simp only [takeStar, drop_takeWhile_length]
  exact ⟨(List.takeWhile_append_dropWhile ..).symm,
    fun c hc => List.mem_takeWhile_imp hc,
    fun c hc => dropWhile_head_not p s c hc⟩

theorem takeStar_append (p : Char → Bool) (u w : Str)
    (hall : ∀ c ∈ u, p c = true) (hw : ∀ c, w.head? = some c → p c = false) :
    takeStar p (u ++ w) = (u, w) := by
  simp only [takeStar, takeWhile_append_stop p u w hall hw, List.drop_left]

theorem expectLit_some (lit s t : Str) (h : expectLit lit s = some t) :
    s = lit ++ t := by
  simp only [expectLit] at h
  split at h
  · rename_i hpre
    obtain ⟨rest, hrest⟩ := isPrefixOf_append _ _ hpre
    cases h
    rw [hrest, List.drop_left]
  · cases h

theorem expectLit_append (lit w : Str) : expectLit lit (lit ++ w) = some w := by
  simp only [expectLit, List.isPrefixOf_iff_prefix.mpr ⟨w, rfl⟩, if_pos,
    List.drop_left]

theorem rdropWhile_dropped (p : Char → Bool) (l : Str) :
    ∃ d, l = l.rdropWhile p ++ d ∧ ∀ c ∈ d, p c = true := by
  refine ⟨(l.reverse.takeWhile p).reverse, ?_, ?_⟩
  · rw [List.rdropWhile]
    calc l = l.reverse.reverse := (List.reverse_reverse l).symm
      _ = (l.reverse.takeWhile p ++ l.reverse.dropWhile p).reverse := by
          rw [List.takeWhile_append_dropWhile]
      _ = (l.reverse.dropWhile p).reverse ++ (l.reverse.takeWhile p).reverse := by
          rw [List.reverse_append]
  · intro c hc
    exact List.mem_takeWhile_imp (List.mem_reverse.mp hc)

theorem ws_prefix_unique (p : Char → Bool) (w : Str) (c : Char) (z : Str) :
    ∀ w2 (c2 : Char) z2, w ++ c :: z = w2 ++ c2 :: z2 →
      (∀ a ∈ w, p a = true) → (∀ a ∈ w2, p a = true) →
      p c = false → p c2 = false → w = w2 ∧ c = c2 ∧ z = z2 := by
  induction w with
  | nil =>
    intro w2 c2 z2 heq hw hw2 hc hc2
    cases w2 with
    | nil =>
      rw [List.nil_append, List.nil_append] at heq
      injection heq with h1 h2
      exact ⟨rfl, h1, h2⟩
    | cons b w3 =>
      rw [List.nil_append, List.cons_append] at heq
      injection heq with h1 _
      rw [h1] at hc
      rw [hw2 b (List.mem_cons_self _ _)] at hc
      cases hc
  | cons a w1 ih =>
    intro w2 c2 z2 heq hw hw2 hc hc2
    cases w2 with
    | nil =>
      rw [List.cons_append, List.nil_append] at heq
      injection heq with h1 _
      rw [← h1] at hc2
      rw [hw a (List.mem_cons_self _ _)] at hc2
      cases hc2
    | cons b w3 =>
      rw [List.cons_append, List.cons_append] at heq
      injection heq with h1 h2
      obtain ⟨hww, hcc, hzz⟩ := ih w3 c2 z2 h2
        (fun d hd => hw d (List.mem_cons_of_mem _ hd))
        (fun d hd => hw2 d (List.mem_cons_of_mem _ hd)) hc hc2
      exact ⟨by rw [h1, hww], hcc, hzz⟩

theorem sep_split (sep : Char) (x : Str) :
    ∀ R X REST, x ++ sep :: R = X ++ sep :: REST →
      (∃ x2, x = X ++ sep :: x2 ∧ REST = x2 ++ sep :: R) ∨
      (X = x ∧ REST = R) ∨
      (∃ X2, X = x ++ sep :: X2 ∧ R = X2 ++ sep :: REST) := by
  induction x with
  | nil =>
    intro R X REST heq
    cases X with
    | nil =>
      rw [List.nil_append, List.nil_append] at heq
      injection heq with _ h2
      exact Or.inr (Or.inl ⟨rfl, h2.symm⟩)
    | cons b X2 =>
      rw [List.nil_append, List.cons_append] at heq
      injection heq with h1 h2
      exact Or.inr (Or.inr ⟨X2, by rw [← h1]; rfl, h2⟩)
  | cons a x1 ih =>
    intro R X REST heq
    cases X with
    | nil =>
      rw [List.cons_append, List.nil_append] at heq
      injection heq with h1 h2
      exact Or.inl ⟨x1, by rw [h1]; rfl, h2.symm⟩
    | cons b X2 =>
      rw [List.cons_append, List.cons_append] at heq
      injection heq with h1 h2
      rcases ih R X2 REST h2 with ⟨x2, hx, hr⟩ | ⟨hx, hr⟩ | ⟨X3, hx, hr⟩
      · exact Or.inl ⟨x2, by rw [h1, hx, List.cons_append], hr⟩
      · exact Or.inr (Or.inl ⟨by rw [h1, hx], hr⟩)
      · exact Or.inr (Or.inr ⟨X3, by rw [h1, hx, List.cons_append], hr⟩)

/-- The central preservation theorem for normalization passes.  Scanning
with pass `Q` (matcher `mtQ`, token `rQ`) yields an output free of
word-delimited occurrences of the shape recognized by a pattern `P`
(matcher `mtP`), provided every position the scan kept was one where `P`
could not fire either (hypothesis `hHK`; trivial when `P = Q`), the
`P`-shape starts and ends in word characters and avoids angle brackets,
and the token starts with `<`, ends with `>` and contains no `P`-shape. -/
theorem scan_noOcc
    (mtQ mtP : Option Char → Str → Option (Str × Str)) (rQ : Str)
    (shape : Str → Prop)
    (HrHead : rQ.head? = some '<') (HrLast : rQ.getLast? = some '>')
    (Hsh1 : ∀ v, shape v → ∃ c t, v = c :: t ∧ isWordChar c = true)
    (Hsh2 : ∀ v c, shape v → v.getLast? = some c → isWordChar c = true)
    (Hsh3 : ∀ v, shape v → '<' ∉ v ∧ '>' ∉ v)
    (HshTok : ∀ v x y, rQ = x ++ v ++ y → ¬ shape v)
    (HQsound : ∀ p s m rem, mtQ p s = some (m, rem) →
      s = m ++ rem ∧ m ≠ [] ∧ boundaryOk p = true ∧ endBoundary rem = true)
    (HPcompl : ∀ p v w, boundaryOk p = true → shape v → endBoundary w = true →
      mtP p (v ++ w) ≠ none) :
    ∀ p u o, Scan mtQ rQ p u o →
      ∀ lctx, (lctx = p ∨ endBoundary u = true) →
      (∀ t₁ t₂, u = t₁ ++ t₂ → t₂ ≠ [] →
        mtQ (t₁.getLast?.or p) t₂ = none → mtP (t₁.getLast?.or p) t₂ = none) →
      ¬ wordOcc shape lctx o := by
  intro p u o hscan
  induction hscan with
  | nil q =>
    rintro lctx - - ⟨x, v, y, hsplit, hsh, -, -⟩
    obtain ⟨c, t, hv, -⟩ := Hsh1 v hsh
    have h1 := List.append_eq_nil.mp hsplit.symm
    have h2 := List.append_eq_nil.mp h1.1
    rw [h2.2] at hv
    simp at hv
  | keep q c u o hm hsub ih =>
    rintro lctx hCI hHK ⟨x, v, y, hsplit, hsh, hleft, hright⟩
    cases x with
    | nil =>
      obtain ⟨c0, t0, hv, hw0⟩ := Hsh1 v hsh
      rcases hCI with heq | hCIb
      · -- transport the position-zero occurrence back to the input
        rw [heq] at hleft
        have hnode : Scan mtQ rQ q (c :: u) (c :: o) := Scan.keep q c u o hm hsub
        have hsplit2 : c :: o = v ++ y := by simpa using hsplit
        obtain ⟨yin, hin, hres⟩ :=
          scan_kept_front mtQ rQ HrHead q (c :: u) (c :: o) hnode v y hsplit2
            (Hsh3 v hsh).1
        have hvne : v ≠ [] := by rw [hv]; simp
        have hveq : v.getLast?.or q = v.getLast? :=
          option_or_absorb_of_ne_none _ _ (getLast?_ne_none_of_ne_nil v hvne)
        have hendyin : endBoundary yin = true := by
          cases hres with
          | nil => rfl
          | keep q2 c2 u2 o2 hm2 hsub2 =>
            simpa [endBoundary] using hright
          | tok q2 u2 m2 rem2 o2 hm2 hune2 hsub2 =>
            exfalso
            obtain ⟨-, -, hb, -⟩ := HQsound _ _ _ _ hm2
            rw [hveq] at hb
            cases hz : v.getLast? with
            | none => exact getLast?_ne_none_of_ne_nil v hvne hz
            | some z =>
              have hzw := Hsh2 v z hsh hz
              rw [hz] at hb
              simp [boundaryOk, hzw] at hb
        have hknone : mtP q (c :: u) = none :=
          hHK [] (c :: u) rfl (by simp) hm
        have hbq : boundaryOk q = true := hleft
        rw [hin] at hknone
        exact HPcompl q v yin hbq hsh hendyin hknone
      · -- the kept character is not a word character, but the shape
        -- starts with one
        have hsplit2 : c :: o = v ++ y := by simpa using hsplit
        rw [hv, List.cons_append] at hsplit2
        injection hsplit2 with hc0 hrest0
        have hnw : isWordChar c = false := by simpa [endBoundary] using hCIb
        rw [← hc0, hnw] at hw0
        cases hw0
    | cons x0 x1 =>
      have hsplit2 : c :: o = x0 :: (x1 ++ v ++ y) := by
        rw [hsplit]
        simp [List.append_assoc]
      injection hsplit2 with hcx ho
      have hctx0 : (x0 :: x1).getLast?.or lctx = x1.getLast?.or (some c) := by
        rw [getLast?_cons_or, option_or_some_absorb, hcx]
      rw [hctx0] at hleft
      refine ih (some c) (Or.inl rfl) ?_ ⟨x1, v, y, ho, hsh, hleft, hright⟩
      intro t₁ t₂ ht htne hq
      have hctx : ((c :: t₁).getLast?).or q = t₁.getLast?.or (some c) := by
        rw [getLast?_cons_or, option_or_some_absorb]
      have h5 := hHK (c :: t₁) t₂ (by rw [ht, List.cons_append]) htne
      rw [hctx] at h5
      exact h5 hq
  | tok q u m rem o hm hune hsub ih =>
    rintro lctx hCI hHK ⟨x, v, y, hsplit, hsh, hleft, hright⟩
    obtain ⟨hsr, hmne, hbOk, hendB⟩ := HQsound q u m rem hm
    have hrQne : rQ ≠ [] := by
      intro hh; rw [hh] at HrHead; cases HrHead
    by_cases h1 : x.length + v.length ≤ rQ.length
    · obtain ⟨zz, hzz⟩ := append_eq_split rQ o x v y hsplit h1
      exact HshTok v x zz hzz hsh
    · by_cases h2 : rQ.length ≤ x.length
      · obtain ⟨xx, hx, ho⟩ := append_eq_split2 rQ o x v y hsplit h2
        have hxl : x.getLast?.or lctx = xx.getLast?.or (some '>') := by
          rw [hx, getLast?_append_or, HrLast, option_or_some_absorb]
        rw [hxl] at hleft
        refine ih (some '>') (Or.inr hendB) ?_ ⟨xx, v, y, ho, hsh, hleft, hright⟩
        intro t₁ t₂ ht htne hq
        have hctx : ((m ++ t₁).getLast?).or q = t₁.getLast?.or m.getLast? := by
          rw [getLast?_append_or, Option.or_assoc,
            option_or_absorb_of_ne_none m.getLast? q
              (getLast?_ne_none_of_ne_nil m hmne)]
        have h5 := hHK (m ++ t₁) t₂ (by rw [hsr, ht, List.append_assoc]) htne
        rw [hctx] at h5
        exact h5 hq
      · -- the occurrence would straddle the token's closing bracket
        exfalso
        have hlast : rQ.dropLast ++ '>' :: o = x ++ v ++ y := by
          have hg : rQ.getLast hrQne = '>' := by
            have h9 := List.getLast?_eq_getLast rQ hrQne
            rw [h9] at HrLast
            exact Option.some.injEq .. |>.mp HrLast
          calc rQ.dropLast ++ '>' :: o
              = rQ.dropLast ++ [rQ.getLast hrQne] ++ o := by
                rw [hg]; simp
            _ = rQ ++ o := by rw [List.dropLast_append_getLast]
            _ = x ++ v ++ y := hsplit
        have hmem : '>' ∈ v := by
          refine middle_mem rQ.dropLast '>' o x v y hlast ?_ ?_
          · rw [List.length_dropLast]; omega
          · rw [List.length_dropLast]; omega
        exact (Hsh3 v hsh).2 hmem

theorem word_idclass (c : Char) (h : isWordChar c = true) : isIdClass c = true := by
  simp [isIdClass, h]

/-! ### Matcher soundness: a match decomposes the input and certifies the
shape and both boundary conditions -/

theorem matchNum_sound (p : Option Char) (s m rem : Str)
    (h : matchNum p s = some (m, rem)) :
    s = m ++ rem ∧ shapeNum m ∧ boundaryOk p = true ∧ endBoundary rem = true := by
  simp only [matchNum] at h
  split at h
  · cases h
  · rename_i hb
    split at h
    · rename_i hcond
      obtain ⟨hm, hrem⟩ := Prod.mk.injEq .. |>.mp (Option.some.injEq .. |>.mp h)
      simp only [Bool.and_eq_true, decide_eq_true_eq] at hcond
      have hbok : boundaryOk p = true := by
        cases hB : boundaryOk p
        · rw [hB] at hb; simp at hb
        · rfl
      refine ⟨?_, ⟨by rw [← hm]; exact hcond.1,
        fun c hc => List.mem_takeWhile_imp (hm ▸ hc)⟩, hbok, by rw [← hrem]; exact hcond.2⟩
      rw [← hm, ← hrem, drop_takeWhile_length, List.takeWhile_append_dropWhile]
    · cases h

theorem matchHex_sound (p : Option Char) (s m rem : Str)
    (h : matchHex p s = some (m, rem)) :
    s = m ++ rem ∧ shapeHex m ∧ boundaryOk p = true ∧ endBoundary rem = true := by
  simp only [matchHex] at h
  split at h
  · cases h
  · rename_i hb
    split at h
    · rename_i hcond
      obtain ⟨hm, hrem⟩ := Prod.mk.injEq .. |>.mp (Option.some.injEq .. |>.mp h)
      simp only [Bool.and_eq_true, decide_eq_true_eq] at hcond
      have hbok : boundaryOk p = true := by
        cases hB : boundaryOk p
        · rw [hB] at hb; simp at hb
        · rfl
      refine ⟨?_, ⟨by rw [← hm]; exact hcond.1,
        fun c hc => List.mem_takeWhile_imp (hm ▸ hc)⟩, hbok, by rw [← hrem]; exact hcond.2⟩
      rw [← hm, ← hrem, drop_takeWhile_length, List.takeWhile_append_dropWhile]
    · cases h

theorem matchUuid_sound (p : Option Char) (s m rem : Str)
    (h : matchUuid p s = some (m, rem)) :
    s = m ++ rem ∧ shapeUuid m ∧ boundaryOk p = true ∧ endBoundary rem = true := by
  unfold matchUuid at h
  by_cases hb : (!boundaryOk p) = true
  · rw [if_pos hb] at h; cases h
  · rw [if_neg hb] at h
    have hbok : boundaryOk p = true := by
      cases hB : boundaryOk p
      · rw [hB] at hb; simp at hb
      · rfl
    obtain ⟨⟨u1, t1⟩, h1, h⟩ := Option.bind_eq_some.mp h
    obtain ⟨t2, h2, h⟩ := Option.bind_eq_some.mp h
    obtain ⟨⟨u2, t3⟩, h3, h⟩ := Option.bind_eq_some.mp h
    obtain ⟨t4, h4, h⟩ := Option.bind_eq_some.mp h
    obtain ⟨⟨u3, t5⟩, h5, h⟩ := Option.bind_eq_some.mp h
    obtain ⟨t6, h6, h⟩ := Option.bind_eq_some.mp h
    obtain ⟨⟨u4, t7⟩, h7, h⟩ := Option.bind_eq_some.mp h
    obtain ⟨t8, h8, h⟩ := Option.bind_eq_some.mp h
    obtain ⟨⟨u5, t9⟩, h9, h⟩ := Option.bind_eq_some.mp h
    have hfull1 := takeExact_full _ _ _ _ _ h1
    have hs1 : s = u1 ++ t1 := hfull1.1
    have hl1 : u1.length = 8 := hfull1.2.1
    have ha1 : ∀ ch ∈ u1, isHexDigit ch = true := hfull1.2.2
    have he2 : t1 = '-' :: t2 := expectChar_some _ _ _ h2
    have hfull3 := takeExact_full _ _ _ _ _ h3
    have hs3 : t2 = u2 ++ t3 := hfull3.1
    have hl3 : u2.length = 4 := hfull3.2.1
    have ha3 : ∀ ch ∈ u2, isHexDigit ch = true := hfull3.2.2
    have he4 : t3 = '-' :: t4 := expectChar_some _ _ _ h4
    have hfull5 := takeExact_full _ _ _ _ _ h5
    have hs5 : t4 = u3 ++ t5 := hfull5.1
    have hl5 : u3.length = 4 := hfull5.2.1
    have ha5 : ∀ ch ∈ u3, isHexDigit ch = true := hfull5.2.2
    have he6 : t5 = '-' :: t6 := expectChar_some _ _ _ h6
    have hfull7 := takeExact_full _ _ _ _ _ h7
    have hs7 : t6 = u4 ++ t7 := hfull7.1
    have hl7 : u4.length = 4 := hfull7.2.1
    have ha7 : ∀ ch ∈ u4, isHexDigit ch = true := hfull7.2.2
    have he8 : t7 = '-' :: t8 := expectChar_some _ _ _ h8
    have hfull9 := takeExact_full _ _ _ _ _ h9
    have hs9 : t8 = u5 ++ t9 := hfull9.1
    have hl9 : u5.length = 12 := hfull9.2.1
    have ha9 : ∀ ch ∈ u5, isHexDigit ch = true := hfull9.2.2
    split at h
    · rename_i hend
      obtain ⟨hm, hrem⟩ := Prod.mk.injEq .. |>.mp (Option.some.injEq .. |>.mp h)
      refine ⟨?_, ⟨u1, u2, u3, u4, u5, hm.symm, hl1, hl3, hl5, hl7, hl9,
        ha1, ha3, ha5, ha7, ha9⟩, hbok, by rw [← hrem]; exact hend⟩
      rw [← hm, ← hrem]
      rw [hs1, he2, hs3, he4, hs5, he6, hs7, he8, hs9]
      simp only [List.append_assoc, List.cons_append]
    · cases h

theorem matchIdent_sound (lit : Str) (p : Option Char) (s m rem : Str)
    (h : matchIdent lit p s = some (m, rem)) :
    s = m ++ rem ∧ shapeIdent lit m ∧ boundaryOk p = true ∧
      endBoundary rem = true := by
  simp only [matchIdent] at h
  split at h
  · cases h
  · rename_i hb
    have hbok : boundaryOk p = true := by
      cases hB : boundaryOk p
      · rw [hB] at hb; simp at hb
      · rfl
    split at h
    · rename_i hpre
      split at h
      · cases h
      · rename_i hbody
        obtain ⟨hm, hrem⟩ := Prod.mk.injEq .. |>.mp (Option.some.injEq .. |>.mp h)
        obtain ⟨r0, hr0⟩ := isPrefixOf_append lit s hpre
        have hrest : s.drop lit.length = r0 := by rw [hr0, List.drop_left]
        rw [hrest] at hm hrem hbody
        obtain ⟨d, hd, hdall⟩ :=
          rdropWhile_dropped (fun c => c = '-') (r0.takeWhile isIdClass)
        have hrunsplit : r0 = (r0.takeWhile isIdClass).rdropWhile (fun c => c = '-') ++
            (d ++ r0.dropWhile isIdClass) := by
          conv_lhs => rw [← List.takeWhile_append_dropWhile (p := isIdClass) (l := r0)]
          rw [← List.append_assoc, ← hd]
        have hmembody : ∀ c ∈ (r0.takeWhile isIdClass).rdropWhile (fun c => c = '-'),
            isIdClass c = true := by
          intro c hc
          have : c ∈ r0.takeWhile isIdClass := by
            rw [hd]
            exact List.mem_append.mpr (Or.inl hc)
          exact List.mem_takeWhile_imp this
        have hlastword : ∃ z,
            ((r0.takeWhile isIdClass).rdropWhile (fun c => c = '-')).getLast? = some z ∧
              isWordChar z = true := by
          have hgl := List.rdropWhile_last_not (fun c => (c = '-' : Bool))
            (r0.takeWhile isIdClass) hbody
          refine ⟨((r0.takeWhile isIdClass).rdropWhile (fun c => c = '-')).getLast hbody,
            List.getLast?_eq_getLast _ hbody, ?_⟩
          have hin : ((r0.takeWhile isIdClass).rdropWhile (fun c => c = '-')).getLast hbody ∈
              (r0.takeWhile isIdClass).rdropWhile (fun c => c = '-') :=
            List.getLast_mem hbody
          rcases idclass_split _ (hmembody _ hin) with hw | hdash
          · exact hw
          · exfalso
            exact hgl (by simp [hdash])
        have hgen : ∀ (r B dd A : Str), r = B ++ (dd ++ A) →
            r.drop B.length = dd ++ A := by
          intro r B dd A hh
          rw [hh, List.drop_left]
        have hremsplit : rem = d ++ r0.dropWhile isIdClass := by
          rw [← hrem]
          exact hgen r0 _ _ _ hrunsplit
        refine ⟨?_, ⟨(r0.takeWhile isIdClass).rdropWhile (fun c => c = '-'),
          hm.symm, hbody, hmembody, hlastword⟩, hbok, ?_⟩
        · rw [← hm, hr0, hremsplit]
          conv_lhs => rw [hrunsplit]
          simp only [List.append_assoc]
        · rw [hremsplit]
          cases hdcase : d with
          | cons d0 d1 =>
            have : d0 = '-' := by
              have := hdall d0 (by rw [hdcase]; exact List.mem_cons_self _ _)
              simpa using this
            rw [List.cons_append]
            simp only [endBoundary, this]
            decide
          | nil =>
            rw [List.nil_append]
            cases hafter : r0.dropWhile isIdClass with
            | nil => rfl
            | cons a0 a1 =>
              have hnotid : isIdClass a0 = false := by
                refine dropWhile_head_not isIdClass r0 a0 ?_
                rw [hafter]; rfl
              have hnw : isWordChar a0 = false := by
                cases hW : isWordChar a0
                · rfl
                · rw [word_idclass a0 hW] at hnotid; cases hnotid
              simp only [endBoundary, hnw]
              decide
    · cases h

theorem matchTask_sound (p : Option Char) (s m rem : Str)
    (h : matchTask p s = some (m, rem)) :
    s = m ++ rem ∧ shapeIdent "cognitive-task-".toList m ∧ boundaryOk p = true ∧
      endBoundary rem = true :=
  matchIdent_sound _ p s m rem h

theorem matchReq_sound (p : Option Char) (s m rem : Str)
    (h : matchReq p s = some (m, rem)) :
    s = m ++ rem ∧ shapeIdent "ep-".toList m ∧ boundaryOk p = true ∧
      endBoundary rem = true :=
  matchIdent_sound _ p s m rem h

theorem matchHttpTiming_sound (p : Option Char) (s m rem : Str)
    (h : matchHttpTiming p s = some (m, rem)) :
    s = m ++ rem ∧ shapeHttp m ∧ boundaryOk p = true ∧ endBoundary rem = true := by
  simp only [matchHttpTiming] at h
  split at h
  · cases h
  · rename_i hb
    have hbok : boundaryOk p = true := by
      cases hB : boundaryOk p
      · rw [hB] at hb; simp at hb
      · rfl
    obtain ⟨⟨d3, t1⟩, h1, h⟩ := Option.bind_eq_some.mp h
    obtain ⟨⟨w1, t2⟩, h2, h⟩ := Option.bind_eq_some.mp h
    obtain ⟨t3, h3, h⟩ := Option.bind_eq_some.mp h
    obtain ⟨⟨w2, t4⟩, h4, h⟩ := Option.bind_eq_some.mp h
    obtain ⟨⟨ds, t5⟩, h5, h⟩ := Option.bind_eq_some.mp h
    obtain ⟨t6, h6, h⟩ := Option.bind_eq_some.mp h
    have hfull1 := takeExact_full _ _ _ _ _ h1
    have hs1 : s = d3 ++ t1 := hfull1.1
    have hl1 : d3.length = 3 := hfull1.2.1
    have ha1 : ∀ c ∈ d3, c.isDigit = true := hfull1.2.2
    have hsome2 := takeSome_some _ _ _ _ h2
    have hs2 : t1 = w1 ++ t2 := hsome2.1
    have hne2 : w1 ≠ [] := hsome2.2.1
    have ha2 : ∀ c ∈ w1, isPySpace c = true := hsome2.2.2.1
    have hs3 : t2 = "in".toList ++ t3 := expectLit_some _ _ _ h3
    have hsome4 := takeSome_some _ _ _ _ h4
    have hs4 : t3 = w2 ++ t4 := hsome4.1
    have hne4 : w2 ≠ [] := hsome4.2.1
    have ha4 : ∀ c ∈ w2, isPySpace c = true := hsome4.2.2.1
    have hsome5 := takeSome_some _ _ _ _ h5
    have hs5 : t4 = ds ++ t5 := hsome5.1
    have hne5 : ds ≠ [] := hsome5.2.1
    have ha5 : ∀ c ∈ ds, c.isDigit = true := hsome5.2.2.1
    have hs6 : t5 = "ms".toList ++ t6 := expectLit_some _ _ _ h6
    split at h
    · rename_i hend
      obtain ⟨hm, hrem⟩ := Prod.mk.injEq .. |>.mp (Option.some.injEq .. |>.mp h)
      refine ⟨?_, ⟨d3, w1, w2, ds, hm.symm, hl1, ha1, hne2, ha2, hne4, ha4,
        hne5, ha5⟩, hbok, by rw [← hrem]; exact hend⟩
      rw [← hm, ← hrem]
      rw [hs1, hs2, hs3, hs4, hs5, hs6]
      simp only [List.append_assoc]
    · cases h

theorem matchDuration_sound (p : Option Char) (s m rem : Str)
    (h : matchDuration p s = some (m, rem)) :
    s = m ++ rem ∧ shapeDur m ∧ boundaryOk p = true ∧ endBoundary rem = true := by
  simp only [matchDuration] at h
  split at h
  · cases h
  · rename_i hb
    have hbok : boundaryOk p = true := by
      cases hB : boundaryOk p
      · rw [hB] at hb; simp at hb
      · rfl
    obtain ⟨⟨ds, t1⟩, h1, h⟩ := Option.bind_eq_some.mp h
    obtain ⟨t2, h2, h⟩ := Option.bind_eq_some.mp h
    have hsome1 := takeSome_some _ _ _ _ h1
    have hs1 : s = ds ++ t1 := hsome1.1
    have hne1 : ds ≠ [] := hsome1.2.1
    have ha1 : ∀ c ∈ ds, c.isDigit = true := hsome1.2.2.1
    obtain ⟨hsw, haw, hhw⟩ := takeStar_split isPySpace t1
    have hs2 : (takeStar isPySpace t1).2 = "ms".toList ++ t2 :=
      expectLit_some _ _ _ h2
    split at h
    · rename_i hend
      obtain ⟨hm, hrem⟩ := Prod.mk.injEq .. |>.mp (Option.some.injEq .. |>.mp h)
      refine ⟨?_, ⟨ds, (takeStar isPySpace t1).1, hm.symm, hne1, ha1, haw⟩,
        hbok, by rw [← hrem]; exact hend⟩
      rw [← hm, ← hrem]
      rw [hs1]
      conv_lhs => rw [hsw]
      rw [hs2]
      simp only [List.append_assoc]
    · cases h

/-! ### Matcher completeness: a shaped region in boundary context forces a
match -/

theorem expectChar_cons (c : Char) (t : Str) : expectChar c (c :: t) = some t := by
  simp [expectChar]

theorem head_fixed_not (p2 : Char → Bool) (a : Char) (X : Str)
    (hpa : p2 a = false) : ∀ c, (a :: X).head? = some c → p2 c = false := by
  intro c hc
  rw [List.head?_cons] at hc
  injection hc with h2
  rw [← h2]
  exact hpa

theorem endBoundary_head_not_digit (w : Str) (hw : endBoundary w = true) :
    ∀ c, w.head? = some c → Char.isDigit c = false := by
  intro c hc
  cases w with
  | nil => cases hc
  | cons a t =>
    rw [List.head?_cons] at hc
    injection hc with hac
    have hnw : isWordChar a = false := by simpa [endBoundary] using hw
    rw [← hac]
    cases hd : Char.isDigit a
    · rfl
    · rw [digit_word a hd] at hnw; cases hnw

theorem endBoundary_head_not_hex (w : Str) (hw : endBoundary w = true) :
    ∀ c, w.head? = some c → isHexDigit c = false := by
  intro c hc
  cases w with
  | nil => cases hc
  | cons a t =>
    rw [List.head?_cons] at hc
    injection hc with hac
    have hnw : isWordChar a = false := by simpa [endBoundary] using hw
    rw [← hac]
    cases hd : isHexDigit a
    · rfl
    · rw [hex_word a hd] at hnw; cases hnw

theorem matchNum_compl (p : Option Char) (v w : Str) (hb : boundaryOk p = true)
    (hsh : shapeNum v) (hw : endBoundary w = true) :
    matchNum p (v ++ w) ≠ none := by
  obtain ⟨h3, hall⟩ := hsh
  have hrun : (v ++ w).takeWhile Char.isDigit = v :=
    takeWhile_append_stop _ _ _ hall (endBoundary_head_not_digit w hw)
  simp only [matchNum, hrun, List.drop_left]
  rw [if_neg (by rw [hb]; simp)]
  rw [if_pos (by simp only [Bool.and_eq_true, decide_eq_true_eq]; exact ⟨h3, hw⟩)]
  simp

theorem matchHex_compl (p : Option Char) (v w : Str) (hb : boundaryOk p = true)
    (hsh : shapeHex v) (hw : endBoundary w = true) :
    matchHex p (v ++ w) ≠ none := by
  obtain ⟨h8, hall⟩ := hsh
  have hrun : (v ++ w).takeWhile isHexDigit = v :=
    takeWhile_append_stop _ _ _ hall (endBoundary_head_not_hex w hw)
  simp only [matchHex, hrun, List.drop_left]
  rw [if_neg (by rw [hb]; simp)]
  rw [if_pos (by simp only [Bool.and_eq_true, decide_eq_true_eq]; exact ⟨h8, hw⟩)]
  simp

theorem matchUuid_compl (p : Option Char) (v w : Str) (hb : boundaryOk p = true)
    (hsh : shapeUuid v) (hw : endBoundary w = true) :
    matchUuid p (v ++ w) ≠ none := by
  obtain ⟨a, b, c, d, e, hveq, hla, hlb, hlc, hld, hle, haa, hab, hac, had, hae⟩ := hsh
  have hveq2 : v ++ w =
      a ++ ('-' :: (b ++ ('-' :: (c ++ ('-' :: (d ++ ('-' :: (e ++ w)))))))) := by
    rw [hveq]
    simp [List.append_assoc]
  rw [hveq2]
  intro hnone
  simp [matchUuid, hb, hw, expectChar_cons,
    takeExact_append isHexDigit 8 a
      ('-' :: (b ++ ('-' :: (c ++ ('-' :: (d ++ ('-' :: (e ++ w)))))))) hla haa,
    takeExact_append isHexDigit 4 b
      ('-' :: (c ++ ('-' :: (d ++ ('-' :: (e ++ w)))))) hlb hab,
    takeExact_append isHexDigit 4 c
      ('-' :: (d ++ ('-' :: (e ++ w)))) hlc hac,
    takeExact_append isHexDigit 4 d
      ('-' :: (e ++ w)) hld had,
    takeExact_append isHexDigit 12 e w hle hae] at hnone

theorem matchIdent_compl (lit : Str) (p : Option Char) (v w : Str)
    (hb : boundaryOk p = true) (hsh : shapeIdent lit v) :
    matchIdent lit p (v ++ w) ≠ none := by
  obtain ⟨body, hveq, hbne, hball, z, hz, hzw⟩ := hsh
  intro hnone
  rw [hveq, List.append_assoc] at hnone
  unfold matchIdent at hnone
  rw [if_neg (by rw [hb]; simp)] at hnone
  rw [if_pos (List.isPrefixOf_iff_prefix.mpr ⟨body ++ w, rfl⟩)] at hnone
  simp only [List.drop_left] at hnone
  have hzmem : z ∈ (body ++ w).takeWhile isIdClass := by
    rw [takeWhile_append_all isIdClass body w hball]
    exact List.mem_append.mpr (Or.inl (mem_of_getLast_opt body z hz))
  have hzne : ¬ ((z = '-') : Bool) = true := by
    simp only [decide_eq_true_eq]
    intro hzd
    rw [hzd] at hzw
    cases hzw
  have hbody2 : ((body ++ w).takeWhile isIdClass).rdropWhile (· = '-') ≠ [] := by
    rw [Ne, List.rdropWhile_eq_nil_iff]
    intro hforall
    exact hzne (hforall z hzmem)
  rw [if_neg hbody2] at hnone
  cases hnone

theorem matchHttpTiming_compl (p : Option Char) (v w : Str)
    (hb : boundaryOk p = true) (hsh : shapeHttp v) (hw : endBoundary w = true) :
    matchHttpTiming p (v ++ w) ≠ none := by
  obtain ⟨d3, w1, w2, ds, hveq, hl3, had3, hne1, haw1, hne2, haw2, hneds, hads⟩ := hsh
  obtain ⟨e0, ds1, hds0⟩ := List.exists_cons_of_ne_nil hneds
  have hveq2 : v ++ w =
      d3 ++ (w1 ++ ("in".toList ++ (w2 ++ (ds ++ ("ms".toList ++ w))))) := by
    rw [hveq]
    simp [List.append_assoc]
  rw [hveq2]
  intro hnone
  have hstep1 : takeSome isPySpace
      (w1 ++ ("in".toList ++ (w2 ++ (ds ++ ("ms".toList ++ w))))) =
      some (w1, "in".toList ++ (w2 ++ (ds ++ ("ms".toList ++ w)))) :=
    takeSome_append _ _ _ hne1 haw1
      (head_fixed_not isPySpace 'i' ('n' :: (w2 ++ (ds ++ ("ms".toList ++ w))))
        (by decide))
  have hstep2 : takeSome isPySpace (w2 ++ (ds ++ ("ms".toList ++ w))) =
      some (w2, ds ++ ("ms".toList ++ w)) := by
    refine takeSome_append _ _ _ hne2 haw2 ?_
    intro c0 hc0
    rw [hds0, List.cons_append, List.head?_cons] at hc0
    injection hc0 with h2
    rw [← h2]
    exact digit_not_pyspace e0 (hads e0 (by rw [hds0]; exact List.mem_cons_self _ _))
  have hstep3 : takeSome Char.isDigit (ds ++ ("ms".toList ++ w)) =
      some (ds, "ms".toList ++ w) :=
    takeSome_append _ _ _ hneds hads
      (head_fixed_not Char.isDigit 'm' ('s' :: w) (by decide))
  simp [matchHttpTiming, hb] at hnone
  have hfin := hnone d3 (w1 ++ ("in".toList ++ (w2 ++ (ds ++ ("ms".toList ++ w)))))
    (takeExact_append Char.isDigit 3 d3
      (w1 ++ ("in".toList ++ (w2 ++ (ds ++ ("ms".toList ++ w))))) hl3 had3)
    w1 ("in".toList ++ (w2 ++ (ds ++ ("ms".toList ++ w)))) hstep1
    (w2 ++ (ds ++ ("ms".toList ++ w)))
    (expectLit_append "in".toList (w2 ++ (ds ++ ("ms".toList ++ w))))
    w2 (ds ++ ("ms".toList ++ w)) hstep2
    ds ("ms".toList ++ w) hstep3
    w (expectLit_append "ms".toList w)
  rw [hw] at hfin
  cases hfin

theorem matchDuration_compl (p : Option Char) (v w : Str)
    (hb : boundaryOk p = true) (hsh : shapeDur v) (hw : endBoundary w = true) :
    matchDuration p (v ++ w) ≠ none := by
  obtain ⟨ds, w0, hveq, hne, hall, haw⟩ := hsh
  have hveq2 : v ++ w = ds ++ (w0 ++ ("ms".toList ++ w)) := by
    rw [hveq]
    simp [List.append_assoc]
  rw [hveq2]
  intro hnone
  have hheadrest : ∀ c, (w0 ++ ("ms".toList ++ w)).head? = some c →
      Char.isDigit c = false := by
    intro c hc
    cases w0 with
    | nil =>
      have h0 : some 'm' = some c := hc
      injection h0 with h1
      rw [← h1]
      decide
    | cons a t =>
      rw [List.cons_append, List.head?_cons] at hc
      injection hc with h1
      rw [← h1]
      have hws := haw a (List.mem_cons_self _ _)
      cases hD : Char.isDigit a
      · rfl
      · rw [digit_not_pyspace a hD] at hws; cases hws
  have hstep1 : takeSome Char.isDigit (ds ++ (w0 ++ ("ms".toList ++ w))) =
      some (ds, w0 ++ ("ms".toList ++ w)) :=
    takeSome_append _ _ _ hne hall hheadrest
  have hstep2 : takeStar isPySpace (w0 ++ ("ms".toList ++ w)) =
      (w0, "ms".toList ++ w) :=
    takeStar_append _ _ _ haw
      (head_fixed_not isPySpace 'm' ('s' :: w) (by decide))
  simp [matchDuration, hb] at hnone
  have hpf2 : expectLit "ms".toList
      (takeStar isPySpace (w0 ++ ("ms".toList ++ w))).2 = some w := by
    rw [hstep2]
    exact expectLit_append "ms".toList w
  have hfin := hnone ds (w0 ++ ("ms".toList ++ w)) hstep1 w hpf2
  rw [hw] at hfin
  cases hfin

/-! ### Structural facts about the shapes -/

theorem not_mem_of_all (p2 : Char → Bool) (v : Str) (a : Char)
    (hall : ∀ c ∈ v, p2 c = true) (hpa : p2 a = false) : a ∉ v := by
  intro hmem
  rw [hall a hmem] at hpa
  cases hpa

theorem getLast?_append_right_ne (A e : Str) (he : e ≠ []) :
    (A ++ e).getLast? = e.getLast? := by
  rw [getLast?_append_or,
    option_or_absorb_of_ne_none _ _ (getLast?_ne_none_of_ne_nil e he)]

theorem all_not_of_decide (wch : Char → Bool) (tok : Str)
    (h : tok.all (fun c => !wch c) = true) : ∀ c ∈ tok, wch c = false := by
  intro c hc
  have h2 := List.all_eq_true.mp h c hc
  simpa using h2

theorem shapeNum_head (v : Str) (h : shapeNum v) :
    ∃ c t, v = c :: t ∧ isWordChar c = true := by
  obtain ⟨h3, hall⟩ := h
  cases v with
  | nil => simp at h3
  | cons c t =>
    exact ⟨c, t, rfl, digit_word c (hall c (List.mem_cons_self _ _))⟩

theorem shapeNum_last (v : Str) (c : Char) (h : shapeNum v)
    (hc : v.getLast? = some c) : isWordChar c = true :=
  digit_word c (h.2 c (mem_of_getLast_opt v c hc))

theorem shapeNum_brackets (v : Str) (h : shapeNum v) : '<' ∉ v ∧ '>' ∉ v :=
  ⟨not_mem_of_all _ v _ h.2 (by decide), not_mem_of_all _ v _ h.2 (by decide)⟩

theorem shapeNum_ne (v : Str) (h : shapeNum v) : v ≠ [] := by
  obtain ⟨c, t, hv, -⟩ := shapeNum_head v h
  rw [hv]; simp

theorem shapeHex_head (v : Str) (h : shapeHex v) :
    ∃ c t, v = c :: t ∧ isWordChar c = true := by
  obtain ⟨h8, hall⟩ := h
  cases v with
  | nil => simp at h8
  | cons c t =>
    exact ⟨c, t, rfl, hex_word c (hall c (List.mem_cons_self _ _))⟩

theorem shapeHex_last (v : Str) (c : Char) (h : shapeHex v)
    (hc : v.getLast? = some c) : isWordChar c = true :=
  hex_word c (h.2 c (mem_of_getLast_opt v c hc))

theorem shapeHex_brackets (v : Str) (h : shapeHex v) : '<' ∉ v ∧ '>' ∉ v :=
  ⟨not_mem_of_all _ v _ h.2 (by decide), not_mem_of_all _ v _ h.2 (by decide)⟩

theorem shapeHex_ne (v : Str) (h : shapeHex v) : v ≠ [] := by
  obtain ⟨c, t, hv, -⟩ := shapeHex_head v h
  rw [hv]; simp

theorem shapeUuid_chars (v : Str) (h : shapeUuid v) :
    ∀ ch ∈ v, isHexDigit ch = true ∨ ch = '-' := by
  obtain ⟨a, b, c, d, e, hveq, -, -, -, -, -, haa, hab, hac, had, hae⟩ := h
  intro ch hch
  rw [hveq] at hch
  simp only [List.mem_append, List.mem_cons] at hch
  rcases hch with (((ha0 | hd1 | hb0) | hd2 | hc0) | hd3 | hdd0) | hd4 | he0
  · exact Or.inl (haa ch ha0)
  · exact Or.inr hd1
  · exact Or.inl (hab ch hb0)
  · exact Or.inr hd2
  · exact Or.inl (hac ch hc0)
  · exact Or.inr hd3
  · exact Or.inl (had ch hdd0)
  · exact Or.inr hd4
  · exact Or.inl (hae ch he0)

theorem shapeUuid_head (v : Str) (h : shapeUuid v) :
    ∃ c t, v = c :: t ∧ isWordChar c = true := by
  obtain ⟨a, b, c, d, e, hveq, hla, -, -, -, -, haa, -, -, -, -⟩ := h
  cases ha : a with
  | nil => rw [ha] at hla; cases hla
  | cons a0 a1 =>
    refine ⟨a0, a1 ++ '-' :: b ++ '-' :: c ++ '-' :: d ++ '-' :: e, ?_, ?_⟩
    · rw [hveq, ha]
      simp [List.append_assoc]
    · exact hex_word a0 (haa a0 (by rw [ha]; exact List.mem_cons_self _ _))

theorem shapeUuid_last (v : Str) (c : Char) (h : shapeUuid v)
    (hc : v.getLast? = some c) : isWordChar c = true := by
  obtain ⟨a, b, c2, d, e, hveq, -, -, -, -, hle, -, -, -, -, hae⟩ := h
  have hene : e ≠ [] := by
    intro hh; rw [hh] at hle; cases hle
  have hv2 : v = (a ++ '-' :: b ++ '-' :: c2 ++ '-' :: d ++ ['-']) ++ e := by
    rw [hveq]
    simp [List.append_assoc]
  rw [hv2, getLast?_append_right_ne _ e hene] at hc
  exact hex_word c (hae c (mem_of_getLast_opt e c hc))

theorem shapeUuid_brackets (v : Str) (h : shapeUuid v) : '<' ∉ v ∧ '>' ∉ v := by
  have hall := shapeUuid_chars v h
  constructor
  · intro hmem
    rcases hall '<' hmem with h0 | h0
    · cases h0
    · cases h0
  · intro hmem
    rcases hall '>' hmem with h0 | h0
    · cases h0
    · cases h0

theorem shapeUuid_ne (v : Str) (h : shapeUuid v) : v ≠ [] := by
  obtain ⟨c, t, hv, -⟩ := shapeUuid_head v h
  rw [hv]; simp

theorem shapeUuid_dash (v : Str) (h : shapeUuid v) : ∃ c ∈ v, (c = '-' : Bool) = true := by
  obtain ⟨a, b, c, d, e, hveq, -, -, -, -, -, -, -, -, -, -⟩ := h
  refine ⟨'-', ?_, by decide⟩
  rw [hveq]
  simp

theorem shapeIdent_head (lit : Str) (l0 : Char) (l1 : Str) (hlit : lit = l0 :: l1)
    (hw : isWordChar l0 = true) (v : Str) (h : shapeIdent lit v) :
    ∃ c t, v = c :: t ∧ isWordChar c = true := by
  obtain ⟨body, hveq, -, -, -⟩ := h
  exact ⟨l0, l1 ++ body, by rw [hveq, hlit, List.cons_append], hw⟩

theorem shapeIdent_last (lit : Str) (v : Str) (c : Char) (h : shapeIdent lit v)
    (hc : v.getLast? = some c) : isWordChar c = true := by
  obtain ⟨body, hveq, hbne, -, z, hz, hzw⟩ := h
  rw [hveq, getLast?_append_right_ne _ body hbne, hz] at hc
  injection hc with h2
  rw [← h2]
  exact hzw

theorem shapeIdent_brackets (lit : Str) (hlt : '<' ∉ lit) (hgt : '>' ∉ lit)
    (v : Str) (h : shapeIdent lit v) : '<' ∉ v ∧ '>' ∉ v := by
  obtain ⟨body, hveq, -, hball, -⟩ := h
  constructor
  · intro hmem
    rw [hveq] at hmem
    rcases List.mem_append.mp hmem with h0 | h0
    · exact hlt h0
    · have := hball '<' h0
      cases this
  · intro hmem
    rw [hveq] at hmem
    rcases List.mem_append.mp hmem with h0 | h0
    · exact hgt h0
    · have := hball '>' h0
      cases this

theorem shapeIdent_ne (lit : Str) (v : Str) (h : shapeIdent lit v) : v ≠ [] := by
  obtain ⟨body, hveq, hbne, -, -⟩ := h
  rw [hveq]
  intro hh
  exact hbne (List.append_eq_nil.mp hh).2

theorem shapeIdent_dash (lit : Str) (hdash : '-' ∈ lit) (v : Str)
    (h : shapeIdent lit v) : ∃ c ∈ v, (c = '-' : Bool) = true := by
  obtain ⟨body, hveq, -, -, -⟩ := h
  exact ⟨'-', by rw [hveq]; exact List.mem_append.mpr (Or.inl hdash), by decide⟩

theorem shapeHttp_head (v : Str) (h : shapeHttp v) :
    ∃ c t, v = c :: t ∧ isWordChar c = true := by
  obtain ⟨d3, w1, w2, ds, hveq, hl3, had3, -, -, -, -, -, -⟩ := h
  cases hd : d3 with
  | nil => rw [hd] at hl3; cases hl3
  | cons a0 a1 =>
    refine ⟨a0, a1 ++ w1 ++ "in".toList ++ w2 ++ ds ++ "ms".toList, ?_, ?_⟩
    · rw [hveq, hd]
      simp [List.append_assoc]
    · exact digit_word a0 (had3 a0 (by rw [hd]; exact List.mem_cons_self _ _))

theorem shapeHttp_last (v : Str) (c : Char) (h : shapeHttp v)
    (hc : v.getLast? = some c) : isWordChar c = true := by
  obtain ⟨d3, w1, w2, ds, hveq, -, -, -, -, -, -, -, -⟩ := h
  rw [hveq, getLast?_append_right_ne _ "ms".toList (by decide)] at hc
  have h2 : some 's' = some c := hc
  injection h2 with h3
  rw [← h3]
  decide

theorem shapeHttp_chars (v : Str) (h : shapeHttp v) :
    ∀ ch ∈ v, ch.isDigit = true ∨ isPySpace ch = true ∨ ch ∈ "inms".toList := by
  obtain ⟨d3, w1, w2, ds, hveq, -, had3, -, haw1, -, haw2, -, hads⟩ := h
  intro ch hch
  rw [hveq] at hch
  simp only [List.mem_append] at hch
  rcases hch with ((((h0 | h0) | h0) | h0) | h0) | h0
  · exact Or.inl (had3 ch h0)
  · exact Or.inr (Or.inl (haw1 ch h0))
  · refine Or.inr (Or.inr ?_)
    have h0b : ch ∈ ['i', 'n'] := h0
    rcases List.mem_cons.mp h0b with h1 | h1
    · rw [h1]; decide
    · rcases List.mem_cons.mp h1 with h2 | h2
      · rw [h2]; decide
      · cases h2
  · exact Or.inr (Or.inl (haw2 ch h0))
  · exact Or.inl (hads ch h0)
  · refine Or.inr (Or.inr ?_)
    have h0b : ch ∈ ['m', 's'] := h0
    rcases List.mem_cons.mp h0b with h1 | h1
    · rw [h1]; decide
    · rcases List.mem_cons.mp h1 with h2 | h2
      · rw [h2]; decide
      · cases h2

theorem shapeHttp_brackets (v : Str) (h : shapeHttp v) : '<' ∉ v ∧ '>' ∉ v := by
  have hall := shapeHttp_chars v h
  constructor
  · intro hmem
    rcases hall '<' hmem with h0 | h0 | h0
    · cases h0
    · cases h0
    · exact absurd h0 (by decide)
  · intro hmem
    rcases hall '>' hmem with h0 | h0 | h0
    · cases h0
    · cases h0
    · exact absurd h0 (by decide)

theorem shapeHttp_ne (v : Str) (h : shapeHttp v) : v ≠ [] := by
  obtain ⟨c, t, hv, -⟩ := shapeHttp_head v h
  rw [hv]; simp

theorem shapeHttp_digit (v : Str) (h : shapeHttp v) :
    ∃ c ∈ v, Char.isDigit c = true := by
  obtain ⟨d3, w1, w2, ds, hveq, hl3, had3, -, -, -, -, -, -⟩ := h
  cases hd : d3 with
  | nil => rw [hd] at hl3; cases hl3
  | cons a0 a1 =>
    refine ⟨a0, ?_, had3 a0 (by rw [hd]; exact List.mem_cons_self _ _)⟩
    rw [hveq, hd]
    simp

theorem shapeDur_head (v : Str) (h : shapeDur v) :
    ∃ c t, v = c :: t ∧ isWordChar c = true := by
  obtain ⟨ds, w0, hveq, hne, hall, -⟩ := h
  obtain ⟨a0, a1, hds⟩ := List.exists_cons_of_ne_nil hne
  refine ⟨a0, a1 ++ w0 ++ "ms".toList, ?_, ?_⟩
  · rw [hveq, hds]
    simp [List.append_assoc]
  · exact digit_word a0 (hall a0 (by rw [hds]; exact List.mem_cons_self _ _))

theorem shapeDur_last (v : Str) (c : Char) (h : shapeDur v)
    (hc : v.getLast? = some c) : isWordChar c = true := by
  obtain ⟨ds, w0, hveq, -, -, -⟩ := h
  rw [hveq, getLast?_append_right_ne _ "ms".toList (by decide)] at hc
  have h2 : some 's' = some c := hc
  injection h2 with h3
  rw [← h3]
  decide

theorem shapeDur_brackets (v : Str) (h : shapeDur v) : '<' ∉ v ∧ '>' ∉ v := by
  obtain ⟨ds, w0, hveq, -, hall, haw⟩ := h
  have hmem3 : ∀ a : Char, a ∈ v → a.isDigit = true ∨ isPySpace a = true ∨
      a ∈ "ms".toList := by
    intro a ha
    rw [hveq] at ha
    simp only [List.mem_append] at ha
    rcases ha with (h0 | h0) | h0
    · exact Or.inl (hall a h0)
    · exact Or.inr (Or.inl (haw a h0))
    · exact Or.inr (Or.inr h0)
  constructor
  · intro hmem
    rcases hmem3 '<' hmem with h0 | h0 | h0
    · cases h0
    · cases h0
    · exact absurd h0 (by decide)
  · intro hmem
    rcases hmem3 '>' hmem with h0 | h0 | h0
    · cases h0
    · cases h0
    · exact absurd h0 (by decide)

theorem shapeDur_ne (v : Str) (h : shapeDur v) : v ≠ [] := by
  obtain ⟨c, t, hv, -⟩ := shapeDur_head v h
  rw [hv]; simp

theorem shapeDur_digit (v : Str) (h : shapeDur v) :
    ∃ c ∈ v, Char.isDigit c = true := by
  obtain ⟨ds, w0, hveq, hne, hall, -⟩ := h
  obtain ⟨a0, a1, hds⟩ := List.exists_cons_of_ne_nil hne
  refine ⟨a0, ?_, hall a0 (by rw [hds]; exact List.mem_cons_self _ _)⟩
  rw [hveq, hds]
  simp

theorem shapeNum_digit (v : Str) (h : shapeNum v) :
    ∃ c ∈ v, Char.isDigit c = true := by
  obtain ⟨c, t, hv, -⟩ := shapeNum_head v h
  refine ⟨c, by rw [hv]; exact List.mem_cons_self _ _, ?_⟩
  exact h.2 c (by rw [hv]; exact List.mem_cons_self _ _)

/-! ### No shape occurs inside a replacement token -/

theorem noTok_of_witness (rQ : Str) (shape : Str → Prop) (wch : Char → Bool)
    (hwit : ∀ v, shape v → ∃ c ∈ v, wch c = true)
    (htok : ∀ c ∈ rQ, wch c = false) :
    ∀ v x y, rQ = x ++ v ++ y → ¬ shape v := by
  intro v x y hr hs
  obtain ⟨c, hcv, hcw⟩ := hwit v hs
  have hcr : c ∈ rQ := by
    rw [hr]
    exact List.mem_append.mpr (Or.inl (List.mem_append.mpr (Or.inr hcv)))
  rw [htok c hcr] at hcw
  cases hcw

theorem noTok_of_short (rQ : Str) (hlen : rQ.length < 8) :
    ∀ v x y, rQ = x ++ v ++ y → ¬ shapeHex v := by
  rintro v x y hr ⟨h8, -⟩
  rw [hr] at hlen
  simp only [List.length_append] at hlen
  omega

theorem adj_mem (a b : Char) : ∀ (x t y r : Str),
    r = x ++ (a :: b :: t) ++ y → (a, b) ∈ r.zip r.tail := by
  intro x
  induction x with
  | nil =>
    intro t y r hr
    have h2 : r = a :: b :: (t ++ y) := by rw [hr]; simp
    rw [h2]
    simp only [List.tail_cons, List.zip_cons_cons]
    exact List.mem_cons_self _ _
  | cons x0 x1 ih =>
    intro t y r hr
    have h2 : r = x0 :: (x1 ++ (a :: b :: t) ++ y) := by rw [hr]; simp
    have hR := ih t y (x1 ++ (a :: b :: t) ++ y) rfl
    cases hRc : x1 ++ (a :: b :: t) ++ y with
    | nil =>
      exfalso
      have hamem : a ∈ x1 ++ (a :: b :: t) ++ y :=
        List.mem_append.mpr (Or.inl (List.mem_append.mpr (Or.inr
          (List.mem_cons_self _ _))))
      rw [hRc] at hamem
      cases hamem
    | cons r0 R1 =>
      rw [h2, hRc]
      simp only [List.tail_cons, List.zip_cons_cons]
      refine List.mem_cons_of_mem _ ?_
      rw [hRc] at hR
      simpa using hR

theorem noTok_hexpair (rQ : Str)
    (h : (rQ.zip rQ.tail).all
      (fun pr => !(isHexDigit pr.1 && isHexDigit pr.2)) = true) :
    ∀ v x y, rQ = x ++ v ++ y → ¬ shapeHex v := by
  rintro v x y hr ⟨h8, hall⟩
  cases v with
  | nil => simp at h8
  | cons c1 v1 =>
    cases v1 with
    | nil => simp at h8
    | cons c2 v2 =>
      have hmem : (c1, c2) ∈ rQ.zip rQ.tail := adj_mem c1 c2 x v2 y rQ hr
      have h3 := List.all_eq_true.mp h (c1, c2) hmem
      rw [hall c1 (List.mem_cons_self _ _),
        hall c2 (List.mem_cons_of_mem _ (List.mem_cons_self _ _))] at h3
      simp at h3

/-! ### From absence of occurrences to scanner identity -/

theorem noMatchAt_of_noOcc (mtP : Option Char → Str → Option (Str × Str))
    (shape : Str → Prop)
    (soundP : ∀ p s m rem, mtP p s = some (m, rem) →
      s = m ++ rem ∧ shape m ∧ boundaryOk p = true ∧ endBoundary rem = true)
    (lctx : Option Char) (t : Str) (h : ¬ wordOcc shape lctx t) :
    noMatchAt mtP lctx t := by
  intro t₁ t₂ ht htne
  cases hm : mtP (t₁.getLast?.or lctx) t₂ with
  | none => rfl
  | some r =>
    obtain ⟨m, rem⟩ := r
    obtain ⟨hsplit, hsh, hbok, hend⟩ := soundP _ _ _ _ hm
    exact absurd ⟨t₁, m, rem, by rw [ht, hsplit, List.append_assoc], hsh, hbok, hend⟩ h

theorem subst_eq_self_of_noOcc (mtP : Option Char → Str → Option (Str × Str))
    (repl : Str) (shape : Str → Prop)
    (soundP : ∀ p s m rem, mtP p s = some (m, rem) →
      s = m ++ rem ∧ shape m ∧ boundaryOk p = true ∧ endBoundary rem = true)
    (t : Str) (h : ¬ wordOcc shape none t) : subst mtP repl t = t :=
  substF_eq_self_ctx mtP repl t.length none t
    (noMatchAt_of_noOcc mtP shape soundP none t h)

/-! ### Generic pass instances -/

theorem subst_noOcc_self (mt : Option Char → Str → Option (Str × Str))
    (repl : Str) (shape : Str → Prop)
    (soundS : ∀ p s m rem, mt p s = some (m, rem) →
      s = m ++ rem ∧ shape m ∧ boundaryOk p = true ∧ endBoundary rem = true)
    (Hne : ∀ v, shape v → v ≠ [])
    (HrHead : repl.head? = some '<') (HrLast : repl.getLast? = some '>')
    (Hsh1 : ∀ v, shape v → ∃ c t, v = c :: t ∧ isWordChar c = true)
    (Hsh2 : ∀ v c, shape v → v.getLast? = some c → isWordChar c = true)
    (Hsh3 : ∀ v, shape v → '<' ∉ v ∧ '>' ∉ v)
    (HshTok : ∀ v x y, repl = x ++ v ++ y → ¬ shape v)
    (HPcompl : ∀ p v w, boundaryOk p = true → shape v → endBoundary w = true →
      mt p (v ++ w) ≠ none)
    (u : Str) : ¬ wordOcc shape none (subst mt repl u) := by
  have soundQ : ∀ p s m rem, mt p s = some (m, rem) →
      s = m ++ rem ∧ m ≠ [] ∧ boundaryOk p = true ∧ endBoundary rem = true :=
    fun p s m rem hm => ⟨(soundS p s m rem hm).1, Hne _ (soundS p s m rem hm).2.1,
      (soundS p s m rem hm).2.2.1, (soundS p s m rem hm).2.2.2⟩
  have hscan : Scan mt repl none u (subst mt repl u) :=
    scan_substF mt repl
      (fun p s m rem hm => ⟨(soundQ p s m rem hm).1, (soundQ p s m rem hm).2.1⟩)
      u.length none u (le_refl _)
  exact scan_noOcc mt mt repl shape HrHead HrLast Hsh1 Hsh2 Hsh3 HshTok soundQ
    HPcompl none u _ hscan none (Or.inl rfl) (fun _ _ _ _ hq => hq)

theorem subst_noOcc_preserve (mtQ : Option Char → Str → Option (Str × Str))
    (replQ : Str)
    (soundQ : ∀ p s m rem, mtQ p s = some (m, rem) →
      s = m ++ rem ∧ m ≠ [] ∧ boundaryOk p = true ∧ endBoundary rem = true)
    (HrHead : replQ.head? = some '<') (HrLast : replQ.getLast? = some '>')
    (mtP : Option Char → Str → Option (Str × Str)) (shape : Str → Prop)
    (soundP : ∀ p s m rem, mtP p s = some (m, rem) →
      s = m ++ rem ∧ shape m ∧ boundaryOk p = true ∧ endBoundary rem = true)
    (Hsh1 : ∀ v, shape v → ∃ c t, v = c :: t ∧ isWordChar c = true)
    (Hsh2 : ∀ v c, shape v → v.getLast? = some c → isWordChar c = true)
    (Hsh3 : ∀ v, shape v → '<' ∉ v ∧ '>' ∉ v)
    (HshTok : ∀ v x y, replQ = x ++ v ++ y → ¬ shape v)
    (HPcompl : ∀ p v w, boundaryOk p = true → shape v → endBoundary w = true →
      mtP p (v ++ w) ≠ none)
    (u : Str) (h : ¬ wordOcc shape none u) :
    ¬ wordOcc shape none (subst mtQ replQ u) := by
  have hscan : Scan mtQ replQ none u (subst mtQ replQ u) :=
    scan_substF mtQ replQ
      (fun p s m rem hm => ⟨(soundQ p s m rem hm).1, (soundQ p s m rem hm).2.1⟩)
      u.length none u (le_refl _)
  have hnm := noMatchAt_of_noOcc mtP shape soundP none u h
  exact scan_noOcc mtQ mtP replQ shape HrHead HrLast Hsh1 Hsh2 Hsh3 HshTok soundQ
    HPcompl none u _ hscan none (Or.inl rfl)
    (fun t₁ t₂ ht htne _ => hnm t₁ t₂ ht htne)

/-! ### The decomposition form of each matcher's soundness -/

theorem uuid_sound4 : ∀ p s m rem, matchUuid p s = some (m, rem) →
    s = m ++ rem ∧ m ≠ [] ∧ boundaryOk p = true ∧ endBoundary rem = true :=
  fun p s m rem h => ⟨(matchUuid_sound p s m rem h).1,
    shapeUuid_ne _ (matchUuid_sound p s m rem h).2.1,
    (matchUuid_sound p s m rem h).2.2.1, (matchUuid_sound p s m rem h).2.2.2⟩

theorem task_sound4 : ∀ p s m rem, matchTask p s = some (m, rem) →
    s = m ++ rem ∧ m ≠ [] ∧ boundaryOk p = true ∧ endBoundary rem = true :=
  fun p s m rem h => ⟨(matchTask_sound p s m rem h).1,
    shapeIdent_ne _ _ (matchTask_sound p s m rem h).2.1,
    (matchTask_sound p s m rem h).2.2.1, (matchTask_sound p s m rem h).2.2.2⟩

theorem req_sound4 : ∀ p s m rem, matchReq p s = some (m, rem) →
    s = m ++ rem ∧ m ≠ [] ∧ boundaryOk p = true ∧ endBoundary rem = true :=
  fun p s m rem h => ⟨(matchReq_sound p s m rem h).1,
    shapeIdent_ne _ _ (matchReq_sound p s m rem h).2.1,
    (matchReq_sound p s m rem h).2.2.1, (matchReq_sound p s m rem h).2.2.2⟩

theorem hex_sound4 : ∀ p s m rem, matchHex p s = some (m, rem) →
    s = m ++ rem ∧ m ≠ [] ∧ boundaryOk p = true ∧ endBoundary rem = true :=
  fun p s m rem h => ⟨(matchHex_sound p s m rem h).1,
    shapeHex_ne _ (matchHex_sound p s m rem h).2.1,
    (matchHex_sound p s m rem h).2.2.1, (matchHex_sound p s m rem h).2.2.2⟩

theorem http_sound4 : ∀ p s m rem, matchHttpTiming p s = some (m, rem) →
    s = m ++ rem ∧ m ≠ [] ∧ boundaryOk p = true ∧ endBoundary rem = true :=
  fun p s m rem h => ⟨(matchHttpTiming_sound p s m rem h).1,
    shapeHttp_ne _ (matchHttpTiming_sound p s m rem h).2.1,
    (matchHttpTiming_sound p s m rem h).2.2.1,
    (matchHttpTiming_sound p s m rem h).2.2.2⟩

theorem dur_sound4 : ∀ p s m rem, matchDuration p s = some (m, rem) →
    s = m ++ rem ∧ m ≠ [] ∧ boundaryOk p = true ∧ endBoundary rem = true :=
  fun p s m rem h => ⟨(matchDuration_sound p s m rem h).1,
    shapeDur_ne _ (matchDuration_sound p s m rem h).2.1,
    (matchDuration_sound p s m rem h).2.2.1,
    (matchDuration_sound p s m rem h).2.2.2⟩

theorem num_sound4 : ∀ p s m rem, matchNum p s = some (m, rem) →
    s = m ++ rem ∧ m ≠ [] ∧ boundaryOk p = true ∧ endBoundary rem = true :=
  fun p s m rem h => ⟨(matchNum_sound p s m rem h).1,
    shapeNum_ne _ (matchNum_sound p s m rem h).2.1,
    (matchNum_sound p s m rem h).2.2.1, (matchNum_sound p s m rem h).2.2.2⟩

theorem noOcc_uuid_wordPasses (u : Str) :
    ¬ wordOcc shapeUuid none (wordPasses u) := by
  have hTok : ∀ (tok : Str), (tok.all (fun c => !(c = '-' : Bool))) = true →
      ∀ v x y, tok = x ++ v ++ y → ¬ shapeUuid v :=
    fun tok htok => noTok_of_witness tok shapeUuid _ shapeUuid_dash
      (all_not_of_decide _ tok htok)
  have h1 : ¬ wordOcc shapeUuid none (uuidSub u) :=
    subst_noOcc_self matchUuid "<UUID>".toList shapeUuid matchUuid_sound
      shapeUuid_ne (by decide) (by decide) shapeUuid_head shapeUuid_last
      shapeUuid_brackets (hTok _ (by decide)) matchUuid_compl u
  have h2 : ¬ wordOcc shapeUuid none (taskSub (uuidSub u)) :=
    subst_noOcc_preserve matchTask "<TASK>".toList task_sound4 (by decide)
      (by decide) matchUuid shapeUuid matchUuid_sound shapeUuid_head
      shapeUuid_last shapeUuid_brackets (hTok _ (by decide)) matchUuid_compl _ h1
  have h3 : ¬ wordOcc shapeUuid none (reqSub (taskSub (uuidSub u))) :=
    subst_noOcc_preserve matchReq "<REQ>".toList req_sound4 (by decide)
      (by decide) matchUuid shapeUuid matchUuid_sound shapeUuid_head
      shapeUuid_last shapeUuid_brackets (hTok _ (by decide)) matchUuid_compl _ h2
  have h4 : ¬ wordOcc shapeUuid none (hexSub (reqSub (taskSub (uuidSub u)))) :=
    subst_noOcc_preserve matchHex "<HEX>".toList hex_sound4 (by decide)
      (by decide) matchUuid shapeUuid matchUuid_sound shapeUuid_head
      shapeUuid_last shapeUuid_brackets (hTok _ (by decide)) matchUuid_compl _ h3
  have h5 : ¬ wordOcc shapeUuid none
      (httpTimingSub (hexSub (reqSub (taskSub (uuidSub u))))) :=
    subst_noOcc_preserve matchHttpTiming "<STATUS> in <DUR>".toList http_sound4
      (by decide) (by decide) matchUuid shapeUuid matchUuid_sound shapeUuid_head
      shapeUuid_last shapeUuid_brackets (hTok _ (by decide)) matchUuid_compl _ h4
  have h6 : ¬ wordOcc shapeUuid none
      (durationSub (httpTimingSub (hexSub (reqSub (taskSub (uuidSub u)))))) :=
    subst_noOcc_preserve matchDuration "<DUR>".toList dur_sound4 (by decide)
      (by decide) matchUuid shapeUuid matchUuid_sound shapeUuid_head
      shapeUuid_last shapeUuid_brackets (hTok _ (by decide)) matchUuid_compl _ h5
  exact subst_noOcc_preserve matchNum "<NUM>".toList num_sound4 (by decide)
    (by decide) matchUuid shapeUuid matchUuid_sound shapeUuid_head
    shapeUuid_last shapeUuid_brackets (hTok _ (by decide)) matchUuid_compl _ h6

theorem noOcc_task_wordPasses (u : Str) :
    ¬ wordOcc (shapeIdent "cognitive-task-".toList) none (wordPasses u) := by
  have hTok : ∀ (tok : Str), (tok.all (fun c => !(c = '-' : Bool))) = true →
      ∀ v x y, tok = x ++ v ++ y → ¬ shapeIdent "cognitive-task-".toList v :=
    fun tok htok => noTok_of_witness tok _ _
      (shapeIdent_dash "cognitive-task-".toList (by decide))
      (all_not_of_decide _ tok htok)
  have hHead := shapeIdent_head "cognitive-task-".toList 'c'
    "ognitive-task-".toList rfl (by decide)
  have hLast := shapeIdent_last "cognitive-task-".toList
  have hBr := shapeIdent_brackets "cognitive-task-".toList (by decide) (by decide)
  have hCompl : ∀ p v w, boundaryOk p = true →
      shapeIdent "cognitive-task-".toList v → endBoundary w = true →
      matchTask p (v ++ w) ≠ none :=
    fun p v w hb hsh _ => matchIdent_compl "cognitive-task-".toList p v w hb hsh
  have h2 : ¬ wordOcc (shapeIdent "cognitive-task-".toList) none
      (taskSub (uuidSub u)) :=
    subst_noOcc_self matchTask "<TASK>".toList _ matchTask_sound
      (shapeIdent_ne _) (by decide) (by decide) hHead hLast hBr
      (hTok _ (by decide)) hCompl (uuidSub u)
  have h3 : ¬ wordOcc (shapeIdent "cognitive-task-".toList) none
      (reqSub (taskSub (uuidSub u))) :=
    subst_noOcc_preserve matchReq "<REQ>".toList req_sound4 (by decide)
      (by decide) matchTask _ matchTask_sound hHead hLast hBr
      (hTok _ (by decide)) hCompl _ h2
  have h4 : ¬ wordOcc (shapeIdent "cognitive-task-".toList) none
      (hexSub (reqSub (taskSub (uuidSub u)))) :=
    subst_noOcc_preserve matchHex "<HEX>".toList hex_sound4 (by decide)
      (by decide) matchTask _ matchTask_sound hHead hLast hBr
      (hTok _ (by decide)) hCompl _ h3
  have h5 : ¬ wordOcc (shapeIdent "cognitive-task-".toList) none
      (httpTimingSub (hexSub (reqSub (taskSub (uuidSub u))))) :=
    subst_noOcc_preserve matchHttpTiming "<STATUS> in <DUR>".toList http_sound4
      (by decide) (by decide) matchTask _ matchTask_sound hHead hLast hBr
      (hTok _ (by decide)) hCompl _ h4
  have h6 : ¬ wordOcc (shapeIdent "cognitive-task-".toList) none
      (durationSub (httpTimingSub (hexSub (reqSub (taskSub (uuidSub u)))))) :=
    subst_noOcc_preserve matchDuration "<DUR>".toList dur_sound4 (by decide)
      (by decide) matchTask _ matchTask_sound hHead hLast hBr
      (hTok _ (by decide)) hCompl _ h5
  exact subst_noOcc_preserve matchNum "<NUM>".toList num_sound4 (by decide)
    (by decide) matchTask _ matchTask_sound hHead hLast hBr
    (hTok _ (by decide)) hCompl _ h6

theorem noOcc_req_wordPasses (u : Str) :
    ¬ wordOcc (shapeIdent "ep-".toList) none (wordPasses u) := by
  have hTok : ∀ (tok : Str), (tok.all (fun c => !(c = '-' : Bool))) = true →
      ∀ v x y, tok = x ++ v ++ y → ¬ shapeIdent "ep-".toList v :=
    fun tok htok => noTok_of_witness tok _ _
      (shapeIdent_dash "ep-".toList (by decide))
      (all_not_of_decide _ tok htok)
  have hHead := shapeIdent_head "ep-".toList 'e' "p-".toList rfl (by decide)
  have hLast := shapeIdent_last "ep-".toList
  have hBr := shapeIdent_brackets "ep-".toList (by decide) (by decide)
  have hCompl : ∀ p v w, boundaryOk p = true → shapeIdent "ep-".toList v →
      endBoundary w = true → matchReq p (v ++ w) ≠ none :=
    fun p v w hb hsh _ => matchIdent_compl "ep-".toList p v w hb hsh
  have h3 : ¬ wordOcc (shapeIdent "ep-".toList) none
      (reqSub (taskSub (uuidSub u))) :=
    subst_noOcc_self matchReq "<REQ>".toList _ matchReq_sound
      (shapeIdent_ne _) (by decide) (by decide) hHead hLast hBr
      (hTok _ (by decide)) hCompl (taskSub (uuidSub u))
  have h4 : ¬ wordOcc (shapeIdent "ep-".toList) none
      (hexSub (reqSub (taskSub (uuidSub u)))) :=
    subst_noOcc_preserve matchHex "<HEX>".toList hex_sound4 (by decide)
      (by decide) matchReq _ matchReq_sound hHead hLast hBr
      (hTok _ (by decide)) hCompl _ h3
  have h5 : ¬ wordOcc (shapeIdent "ep-".toList) none
      (httpTimingSub (hexSub (reqSub (taskSub (uuidSub u))))) :=
    subst_noOcc_preserve matchHttpTiming "<STATUS> in <DUR>".toList http_sound4
      (by decide) (by decide) matchReq _ matchReq_sound hHead hLast hBr
      (hTok _ (by decide)) hCompl _ h4
  have h6 : ¬ wordOcc (shapeIdent "ep-".toList) none
      (durationSub (httpTimingSub (hexSub (reqSub (taskSub (uuidSub u)))))) :=
    subst_noOcc_preserve matchDuration "<DUR>".toList dur_sound4 (by decide)
      (by decide) matchReq _ matchReq_sound hHead hLast hBr
      (hTok _ (by decide)) hCompl _ h5
  exact subst_noOcc_preserve matchNum "<NUM>".toList num_sound4 (by decide)
    (by decide) matchReq _ matchReq_sound hHead hLast hBr
    (hTok _ (by decide)) hCompl _ h6

theorem noOcc_hex_wordPasses (u : Str) :
    ¬ wordOcc shapeHex none (wordPasses u) := by
  have h4 : ¬ wordOcc shapeHex none (hexSub (reqSub (taskSub (uuidSub u)))) :=
    subst_noOcc_self matchHex "<HEX>".toList shapeHex matchHex_sound
      shapeHex_ne (by decide) (by decide) shapeHex_head shapeHex_last
      shapeHex_brackets (noTok_of_short _ (by decide)) matchHex_compl _
  have h5 : ¬ wordOcc shapeHex none
      (httpTimingSub (hexSub (reqSub (taskSub (uuidSub u))))) :=
    subst_noOcc_preserve matchHttpTiming "<STATUS> in <DUR>".toList http_sound4
      (by decide) (by decide) matchHex shapeHex matchHex_sound shapeHex_head
      shapeHex_last shapeHex_brackets (noTok_hexpair _ (by decide))
      matchHex_compl _ h4
  have h6 : ¬ wordOcc shapeHex none
      (durationSub (httpTimingSub (hexSub (reqSub (taskSub (uuidSub u)))))) :=
    subst_noOcc_preserve matchDuration "<DUR>".toList dur_sound4 (by decide)
      (by decide) matchHex shapeHex matchHex_sound shapeHex_head shapeHex_last
      shapeHex_brackets (noTok_of_short _ (by decide)) matchHex_compl _ h5
  exact subst_noOcc_preserve matchNum "<NUM>".toList num_sound4 (by decide)
    (by decide) matchHex shapeHex matchHex_sound shapeHex_head shapeHex_last
    shapeHex_brackets (noTok_of_short _ (by decide)) matchHex_compl _ h6

theorem noOcc_http_wordPasses (u : Str) :
    ¬ wordOcc shapeHttp none (wordPasses u) := by
  have hTok : ∀ (tok : Str), (tok.all (fun c => !Char.isDigit c)) = true →
      ∀ v x y, tok = x ++ v ++ y → ¬ shapeHttp v :=
    fun tok htok => noTok_of_witness tok shapeHttp _ shapeHttp_digit
      (all_not_of_decide _ tok htok)
  have h5 : ¬ wordOcc shapeHttp none
      (httpTimingSub (hexSub (reqSub (taskSub (uuidSub u))))) :=
    subst_noOcc_self matchHttpTiming "<STATUS> in <DUR>".toList shapeHttp
      matchHttpTiming_sound shapeHttp_ne (by decide) (by decide) shapeHttp_head
      shapeHttp_last shapeHttp_brackets (hTok _ (by decide))
      matchHttpTiming_compl _
  have h6 : ¬ wordOcc shapeHttp none
      (durationSub (httpTimingSub (hexSub (reqSub (taskSub (uuidSub u)))))) :=
    subst_noOcc_preserve matchDuration "<DUR>".toList dur_sound4 (by decide)
      (by decide) matchHttpTiming shapeHttp matchHttpTiming_sound shapeHttp_head
      shapeHttp_last shapeHttp_brackets (hTok _ (by decide))
      matchHttpTiming_compl _ h5
  exact subst_noOcc_preserve matchNum "<NUM>".toList num_sound4 (by decide)
    (by decide) matchHttpTiming shapeHttp matchHttpTiming_sound shapeHttp_head
    shapeHttp_last shapeHttp_brackets (hTok _ (by decide))
    matchHttpTiming_compl _ h6

theorem noOcc_dur_wordPasses (u : Str) :
    ¬ wordOcc shapeDur none (wordPasses u) := by
  have hTok : ∀ (tok : Str), (tok.all (fun c => !Char.isDigit c)) = true →
      ∀ v x y, tok = x ++ v ++ y → ¬ shapeDur v :=
    fun tok htok => noTok_of_witness tok shapeDur _ shapeDur_digit
      (all_not_of_decide _ tok htok)
  have h6 : ¬ wordOcc shapeDur none
      (durationSub (httpTimingSub (hexSub (reqSub (taskSub (uuidSub u)))))) :=
    subst_noOcc_self matchDuration "<DUR>".toList shapeDur matchDuration_sound
      shapeDur_ne (by decide) (by decide) shapeDur_head shapeDur_last
      shapeDur_brackets (hTok _ (by decide)) matchDuration_compl _
  exact subst_noOcc_preserve matchNum "<NUM>".toList num_sound4 (by decide)
    (by decide) matchDuration shapeDur matchDuration_sound shapeDur_head
    shapeDur_last shapeDur_brackets (hTok _ (by decide))
    matchDuration_compl _ h6

theorem noOcc_num_wordPasses (u : Str) :
    ¬ wordOcc shapeNum none (wordPasses u) := by
  have hTok : ∀ (tok : Str), (tok.all (fun c => !Char.isDigit c)) = true →
      ∀ v x y, tok = x ++ v ++ y → ¬ shapeNum v :=
    fun tok htok => noTok_of_witness tok shapeNum _ shapeNum_digit
      (all_not_of_decide _ tok htok)
  exact subst_noOcc_self matchNum "<NUM>".toList shapeNum matchNum_sound
    shapeNum_ne (by decide) (by decide) shapeNum_head shapeNum_last
    shapeNum_brackets (hTok _ (by decide)) matchNum_compl _

/-- Unfolding `jsonTailSub` at a non-colon character. -/
theorem jsonTailSub_nocolon (oc c : Char) (rest : Str) (hc : ¬ c = ':') :
    jsonTailSub oc (c :: rest) = c :: jsonTailSub oc rest := by
  simp only [jsonTailSub]
  rw [if_neg hc]

/-- Unfolding `jsonTailSub` at a colon whose tail is all whitespace. -/
theorem jsonTailSub_colon_nil (oc : Char) (rest : Str)
    (hdrop : rest.drop (rest.takeWhile isPySpace).length = []) :
    jsonTailSub oc (':' :: rest) = ':' :: jsonTailSub oc rest := by
  simp only [jsonTailSub]
  rw [if_pos trivial, hdrop]

/-- Unfolding `jsonTailSub` at a colon with a character after the
whitespace run. -/
theorem jsonTailSub_colon_cons (oc : Char) (rest : Str) (o : Char) (tail2 : Str)
    (hdrop : rest.drop (rest.takeWhile isPySpace).length = o :: tail2) :
    jsonTailSub oc (':' :: rest) =
      if o = oc then
        if tail2.count '\n' = 0 then
          ':' :: (rest.takeWhile isPySpace ++ "<JSON>".toList)
        else if (tail2.count '\n' = 1 && tail2.getLast? = some '\n') then
          ':' :: (rest.takeWhile isPySpace ++ "<JSON>".toList ++ ['\n'])
        else ':' :: jsonTailSub oc rest
      else ':' :: jsonTailSub oc rest := by
  simp only [jsonTailSub]
  rw [if_pos trivial, hdrop]

/-- Complete case analysis of one JSON tail pass: either nothing matched
(and there is no occurrence), or the output replaces the first triggered
colon's tail, every earlier colon being trigger-free. -/
theorem jsonTailSub_structured (oc : Char) (hoc : isPySpace oc = false) (s : Str) :
    (jsonTailSub oc s = s ∧ ¬ jtOcc oc s) ∨
    ∃ x w z nl, s = x ++ ':' :: (w ++ oc :: z) ∧ (∀ c ∈ w, isPySpace c = true) ∧
      jsonTailSub oc s = x ++ ':' :: (w ++ "<JSON>".toList ++ nl) ∧
      ((nl = [] ∧ z.count '\n' = 0) ∨
        (nl = ['\n'] ∧ z.count '\n' = 1 ∧ z.getLast? = some '\n')) ∧
      (∀ x1 x2, x = x1 ++ ':' :: x2 → ¬ jtTrig oc (x2 ++ ':' :: (w ++ oc :: z))) := by
  induction s with
  | nil =>
    refine Or.inl ⟨rfl, ?_⟩
    rintro ⟨x, rest, hsplit, -⟩
    cases x <;> cases hsplit
  | cons c rest ih =>
    by_cases hc : c = ':'
    · subst hc
      have hrestsplit : rest = rest.takeWhile isPySpace ++
          rest.drop (rest.takeWhile isPySpace).length := by
        rw [drop_takeWhile_length, List.takeWhile_append_dropWhile]
      cases hdrop : rest.drop (rest.takeWhile isPySpace).length with
      | nil =>
        -- the whole tail is whitespace: no colon and no opening char ahead
        have hallws : ∀ d ∈ rest, isPySpace d = true := by
          have h0 : rest.dropWhile isPySpace = [] := by
            rw [← drop_takeWhile_length, hdrop]
          intro d hd
          exact List.dropWhile_eq_nil_iff.mp h0 d hd
        have hout : jsonTailSub oc (':' :: rest) = ':' :: jsonTailSub oc rest :=
          jsonTailSub_colon_nil oc rest hdrop
        have hid : jsonTailSub oc rest = rest := by
          rcases ih with ⟨hid, -⟩ | ⟨x, w, z, nl, hsplit, -, -, -, -⟩
          · exact hid
          · exfalso
            have hmem : ':' ∈ rest := by
              rw [hsplit]
              exact List.mem_append.mpr (Or.inr (List.mem_cons_self _ _))
            have h9 := hallws ':' hmem
            cases h9
        refine Or.inl ⟨by rw [hout, hid], ?_⟩
        rintro ⟨x, R, hsplit, w2, z2, htr, -, -⟩
        cases x with
        | nil =>
          rw [List.nil_append] at hsplit
          injection hsplit with hdead h2
          have hmem : oc ∈ rest := by
            rw [h2, htr]
            exact List.mem_append.mpr (Or.inr (List.mem_cons_self _ _))
          have h3 := hallws oc hmem
          rw [hoc] at h3
          cases h3
        | cons x0 x1 =>
          rw [List.cons_append] at hsplit
          injection hsplit with hdead h2
          have hmem : ':' ∈ rest := by
            rw [h2]
            exact List.mem_append.mpr (Or.inr (List.mem_cons_self _ _))
          have h3 := hallws ':' hmem
          cases h3
      | cons o tail2 =>
        have hwsall : ∀ d ∈ rest.takeWhile isPySpace, isPySpace d = true :=
          fun d hd => List.mem_takeWhile_imp hd
        have hrest2 : rest = rest.takeWhile isPySpace ++ o :: tail2 := by
          conv_lhs => rw [hrestsplit]
          rw [hdrop]
        have hstep := jsonTailSub_colon_cons oc rest o tail2 hdrop
        by_cases ho : o = oc
        · rw [ho] at hrest2
          rw [if_pos ho] at hstep
          by_cases h0 : tail2.count '\n' = 0
          · rw [if_pos h0] at hstep
            refine Or.inr ⟨[], rest.takeWhile isPySpace, tail2, [], ?_, hwsall,
              ?_, ?_, ?_⟩
            · rw [List.nil_append, ← hrest2]
            · rw [hstep]
              simp
            · exact Or.inl ⟨rfl, h0⟩
            · intro x1 x2 hx
              cases x1 <;> cases hx
          · rw [if_neg h0] at hstep
            by_cases h1 : (tail2.count '\n' = 1 ∧ tail2.getLast? = some '\n')
            · rw [if_pos (by simp [h1.1, h1.2])] at hstep
              refine Or.inr ⟨[], rest.takeWhile isPySpace, tail2, ['\n'], ?_,
                hwsall, ?_, ?_, ?_⟩
              · rw [List.nil_append, ← hrest2]
              · rw [hstep]
                simp
              · exact Or.inr ⟨rfl, h1.1, h1.2⟩
              · intro x1 x2 hx
                cases x1 <;> cases hx
            · -- this colon is rejected: the tail is not dollar-anchored
              rw [if_neg (by
                intro hcond
                simp only [Bool.and_eq_true, decide_eq_true_eq] at hcond
                exact h1 hcond)] at hstep
              have hnotrig : ¬ jtTrig oc rest := by
                rintro ⟨w2, z2, htr, hw2, hgood⟩
                have huniq := ws_prefix_unique isPySpace
                  (rest.takeWhile isPySpace) oc tail2 w2 oc z2
                  (by rw [← hrest2, htr]) hwsall hw2 hoc hoc
                rcases hgood with hg | hg
                · exact h0 (by rw [huniq.2.2]; exact hg)
                · exact h1 ⟨by rw [huniq.2.2]; exact hg.1,
                    by rw [huniq.2.2]; exact hg.2⟩
              rcases ih with ⟨hid, hno⟩ | ⟨x, w, z, nl, hsplit, hw, hsub, hnl, hfail⟩
              · refine Or.inl ⟨by rw [hstep, hid], ?_⟩
                rintro ⟨x, R, hsplit, htrig⟩
                cases x with
                | nil =>
                  rw [List.nil_append] at hsplit
                  injection hsplit with hdead h2
                  exact hnotrig (h2 ▸ htrig)
                | cons x0 x1 =>
                  rw [List.cons_append] at hsplit
                  injection hsplit with hdead h2
                  exact hno ⟨x1, R, h2, htrig⟩
              · refine Or.inr ⟨':' :: x, w, z, nl, ?_, hw, ?_, hnl, ?_⟩
                · rw [List.cons_append, hsplit]
                · rw [hstep, hsub, List.cons_append]
                · intro x1 x2 hx
                  cases x1 with
                  | nil =>
                    rw [List.nil_append] at hx
                    injection hx with hdead h2
                    rw [← h2, ← hsplit]
                    exact hnotrig
                  | cons y0 y1 =>
                    rw [List.cons_append] at hx
                    injection hx with hdead h2
                    exact hfail y1 x2 h2
        · -- the character after the whitespace is not the opening char
          rw [if_neg ho] at hstep
          have hnotrig : ¬ jtTrig oc rest := by
            rintro ⟨w2, z2, htr, hw2, -⟩
            have hnoc : isPySpace o = false := by
              refine dropWhile_head_not isPySpace rest o ?_
              rw [← drop_takeWhile_length, hdrop]
              rfl
            have huniq := ws_prefix_unique isPySpace
              (rest.takeWhile isPySpace) o tail2 w2 oc z2
              (by rw [← hrest2, htr]) hwsall hw2 hnoc hoc
            exact ho huniq.2.1
          rcases ih with ⟨hid, hno⟩ | ⟨x, w, z, nl, hsplit, hw, hsub, hnl, hfail⟩
          · refine Or.inl ⟨by rw [hstep, hid], ?_⟩
            rintro ⟨x, R, hsplit, htrig⟩
            cases x with
            | nil =>
              rw [List.nil_append] at hsplit
              injection hsplit with hdead h2
              exact hnotrig (h2 ▸ htrig)
            | cons x0 x1 =>
              rw [List.cons_append] at hsplit
              injection hsplit with hdead h2
              exact hno ⟨x1, R, h2, htrig⟩
          · refine Or.inr ⟨':' :: x, w, z, nl, ?_, hw, ?_, hnl, ?_⟩
            · rw [List.cons_append, hsplit]
            · rw [hstep, hsub, List.cons_append]
            · intro x1 x2 hx
              cases x1 with
              | nil =>
                rw [List.nil_append] at hx
                injection hx with hdead h2
                rw [← h2, ← hsplit]
                exact hnotrig
              | cons y0 y1 =>
                rw [List.cons_append] at hx
                injection hx with hdead h2
                exact hfail y1 x2 h2
    · -- not a colon: the scanner keeps the character
      have hout : jsonTailSub oc (c :: rest) = c :: jsonTailSub oc rest :=
        jsonTailSub_nocolon oc c rest hc
      rcases ih with ⟨hid, hno⟩ | ⟨x, w, z, nl, hsplit, hw, hsub, hnl, hfail⟩
      · refine Or.inl ⟨by rw [hout, hid], ?_⟩
        rintro ⟨x, R, hsplit, htrig⟩
        cases x with
        | nil =>
          rw [List.nil_append] at hsplit
          injection hsplit with h1 hdead
          exact hc h1
        | cons x0 x1 =>
          rw [List.cons_append] at hsplit
          injection hsplit with hdead h2
          exact hno ⟨x1, R, h2, htrig⟩
      · refine Or.inr ⟨c :: x, w, z, nl, ?_, hw, ?_, hnl, ?_⟩
        · rw [List.cons_append, hsplit]
        · rw [hout, hsub, List.cons_append]
        · intro x1 x2 hx
          cases x1 with
          | nil =>
            rw [List.nil_append] at hx
            injection hx with h1 hdead
            exact absurd h1 hc
          | cons y0 y1 =>
            rw [List.cons_append] at hx
            injection hx with hdead h2
            exact hfail y1 x2 h2

theorem ws_run_locate (p : Char → Bool) (sep cc : Char)
    (hsep : p sep = false) (hcc : p cc = false) :
    ∀ (u R w2 z2 : Str),
      u ++ sep :: R = w2 ++ cc :: z2 → (∀ c ∈ w2, p c = true) →
      (∃ x3, u = w2 ++ cc :: x3 ∧ z2 = x3 ++ sep :: R) ∨
      (w2 = u ∧ cc = sep ∧ z2 = R) := by
  intro u
  induction u with
  | nil =>
    intro R w2 z2 heq hw2
    cases w2 with
    | nil =>
      rw [List.nil_append, List.nil_append] at heq
      injection heq with h1 h2
      exact Or.inr ⟨rfl, h1.symm, h2.symm⟩
    | cons b w3 =>
      rw [List.nil_append, List.cons_append] at heq
      injection heq with h1 hdead
      rw [← h1] at hw2
      have h3 := hw2 sep (List.mem_cons_self _ _)
      rw [hsep] at h3
      cases h3
  | cons a u1 ih =>
    intro R w2 z2 heq hw2
    cases w2 with
    | nil =>
      rw [List.cons_append, List.nil_append] at heq
      injection heq with h1 h2
      refine Or.inl ⟨u1, ?_, h2.symm⟩
      rw [List.nil_append, h1]
    | cons b w3 =>
      rw [List.cons_append, List.cons_append] at heq
      injection heq with h1 h2
      rcases ih R w3 z2 h2 (fun c hc => hw2 c (List.mem_cons_of_mem _ hc)) with
        ⟨x3, hu, hz⟩ | ⟨hww, hcs, hz⟩
      · refine Or.inl ⟨x3, ?_, hz⟩
        rw [hu, h1, List.cons_append]
      · exact Or.inr ⟨by rw [hww, h1], hcs, hz⟩

theorem count_nl_cons (b : Char) (hb : ¬ b = '\n') (B : Str) :
    List.count '\n' (b :: B) = List.count '\n' B := by
  simp [List.count_cons, hb]

/-- A trigger on an earlier colon of the output corresponds to a trigger
on the same colon of the input: the replacement preserves the newline count
and finality of the tail. -/
theorem jtTrig_transport (ocP ocA : Char) (hPws : isPySpace ocP = false)
    (hPlt : ocP ≠ '<') (hPcolon : ocP ≠ ':') (hAnl : ¬ ocA = '\n')
    (x2 w z nl : Str) (hw : ∀ c ∈ w, isPySpace c = true)
    (hnl : (nl = [] ∧ z.count '\n' = 0) ∨
      (nl = ['\n'] ∧ z.count '\n' = 1 ∧ z.getLast? = some '\n'))
    (ht : jtTrig ocP (x2 ++ ':' :: (w ++ "<JSON>".toList ++ nl))) :
    jtTrig ocP (x2 ++ ':' :: (w ++ ocA :: z)) := by
  obtain ⟨w2, z2, hsplit, hw2, hgood⟩ := ht
  rcases ws_run_locate isPySpace ':' ocP (by decide) hPws x2 _ w2 z2 hsplit hw2 with
    ⟨x3, hx2, hz2⟩ | ⟨-, hcs, -⟩
  · have hcntJ : List.count '\n' ("<JSON>".toList) = 0 := by decide
    have hcnt2 : List.count '\n' z2 =
        List.count '\n' x3 + List.count '\n' w + List.count '\n' nl := by
      rw [hz2, List.count_append, count_nl_cons ':' (by decide),
        List.count_append, List.count_append, hcntJ]
      omega
    have hcntin : List.count '\n' (x3 ++ ':' :: (w ++ ocA :: z)) =
        List.count '\n' x3 + List.count '\n' w + List.count '\n' z := by
      rw [List.count_append, count_nl_cons ':' (by decide),
        List.count_append, count_nl_cons ocA hAnl]
      omega
    refine ⟨w2, x3 ++ ':' :: (w ++ ocA :: z), ?_, hw2, ?_⟩
    · rw [hx2]
      simp [List.append_assoc]
    · rcases hnl with ⟨hnla, hza⟩ | ⟨hnlb, hzb1, hzb2⟩
      · -- no newline in the replaced region and none kept
        rcases hgood with hg | hg
        · refine Or.inl ?_
          rw [hnla] at hcnt2
          simp only [List.count_nil] at hcnt2
          rw [hcntin, hza]
          omega
        · -- the output tail would end in the token's closing bracket
          exfalso
          have hz2last : z2.getLast? = some '>' := by
            have hform : z2 = (x3 ++ ':' :: w) ++ "<JSON>".toList := by
              rw [hz2, hnla]
              simp [List.append_assoc]
            rw [hform, getLast?_append_right_ne _ _ (by decide)]
            decide
          rw [hz2last] at hg
          have h9 := hg.2
          injection h9 with h9
          cases h9
      · -- one final newline, kept by the replacement
        have hzne : z ≠ [] := by
          intro hz0
          rw [hz0] at hzb2
          cases hzb2
        rcases hgood with hg | hg
        · -- impossible: the kept newline is counted
          exfalso
          rw [hnlb] at hcnt2
          simp at hcnt2
          omega
        · refine Or.inr ⟨?_, ?_⟩
          · rw [hcntin, hzb1]
            rw [hnlb] at hcnt2
            simp at hcnt2
            omega
          · have hform : x3 ++ ':' :: (w ++ ocA :: z) =
                (x3 ++ ':' :: (w ++ [ocA])) ++ z := by
              simp [List.append_assoc]
            rw [hform, getLast?_append_right_ne _ _ hzne]
            exact hzb2
  · exact absurd hcs hPcolon

/-- A JSON tail pass leaves a string without occurrences unchanged. -/
theorem jsonTailSub_eq_self (oc : Char) (hoc : isPySpace oc = false) (s : Str)
    (h : ¬ jtOcc oc s) : jsonTailSub oc s = s := by
  rcases jsonTailSub_structured oc hoc s with ⟨hid, -⟩ |
    ⟨x, w, z, nl, hsplit, hw, -, hnl, -⟩
  · exact hid
  · exfalso
    refine h ⟨x, w ++ oc :: z, hsplit, w, z, rfl, hw, ?_⟩
    rcases hnl with ⟨-, h0⟩ | ⟨-, h1, h2⟩
    · exact Or.inl h0
    · exact Or.inr ⟨h1, h2⟩

/-- The output of a JSON tail pass has no occurrence of its own pattern. -/
theorem jt_noOcc_out (oc : Char) (hoc : isPySpace oc = false) (hlt : oc ≠ '<')
    (hcolon : oc ≠ ':') (hnlc : ¬ oc = '\n') (s : Str) :
    ¬ jtOcc oc (jsonTailSub oc s) := by
  rcases jsonTailSub_structured oc hoc s with ⟨hid, hno⟩ |
    ⟨x, w, z, nl, hsplit, hw, hout, hnl, hfail⟩
  · rw [hid]; exact hno
  · rw [hout]
    rintro ⟨X, REST, hXsplit, htrig⟩
    rcases sep_split ':' x (w ++ "<JSON>".toList ++ nl) X REST hXsplit with
      ⟨x2, hxX, hREST⟩ | ⟨hXx, hRESTR⟩ | ⟨X2, hXx, hR⟩
    · have htrig2 : jtTrig oc (x2 ++ ':' :: (w ++ "<JSON>".toList ++ nl)) :=
        hREST ▸ htrig
      exact hfail X x2 hxX
        (jtTrig_transport oc oc hoc hlt hcolon hnlc x2 w z nl hw hnl htrig2)
    · obtain ⟨w2, z2, htr, hw2, -⟩ := hRESTR ▸ htrig
      have hform : w ++ "<JSON>".toList ++ nl =
          w ++ '<' :: ("JSON>".toList ++ nl) := by
        rw [List.append_assoc]
        rfl
      rw [hform] at htr
      have huniq := ws_prefix_unique isPySpace w '<' ("JSON>".toList ++ nl)
        w2 oc z2 htr hw hw2 (by decide) hoc
      exact hlt huniq.2.1.symm
    · have hmem : ':' ∈ w ++ "<JSON>".toList ++ nl := by
        rw [hR]
        exact List.mem_append.mpr (Or.inr (List.mem_cons_self _ _))
      rcases List.mem_append.mp hmem with h0 | h0
      · rcases List.mem_append.mp h0 with h1 | h1
        · exact absurd (hw ':' h1) (by decide)
        · exact absurd h1 (by decide)
      · rcases hnl with ⟨hnla, -⟩ | ⟨hnlb, -, -⟩
        · rw [hnla] at h0; cases h0
        · rw [hnlb] at h0
          rcases List.mem_cons.mp h0 with h1 | h1
          · exact absurd h1 (by decide)
          · cases h1

/-- A JSON tail pass cannot create an occurrence of the other JSON
pattern. -/
theorem jtOcc_preserved (ocP ocA : Char) (hPws : isPySpace ocP = false)
    (hPlt : ocP ≠ '<') (hPcolon : ocP ≠ ':')
    (hAws : isPySpace ocA = false) (hAnl : ¬ ocA = '\n')
    (u : Str) (h : ¬ jtOcc ocP u) : ¬ jtOcc ocP (jsonTailSub ocA u) := by
  rcases jsonTailSub_structured ocA hAws u with ⟨hid, -⟩ |
    ⟨x, w, z, nl, hsplit, hw, hout, hnl, -⟩
  · rw [hid]; exact h
  · rw [hout]
    rintro ⟨X, REST, hXsplit, htrig⟩
    rcases sep_split ':' x (w ++ "<JSON>".toList ++ nl) X REST hXsplit with
      ⟨x2, hxX, hREST⟩ | ⟨hXx, hRESTR⟩ | ⟨X2, hXx, hR⟩
    · have htrig2 : jtTrig ocP (x2 ++ ':' :: (w ++ "<JSON>".toList ++ nl)) :=
        hREST ▸ htrig
      have htin := jtTrig_transport ocP ocA hPws hPlt hPcolon hAnl
        x2 w z nl hw hnl htrig2
      refine h ⟨X, x2 ++ ':' :: (w ++ ocA :: z), ?_, htin⟩
      rw [hsplit, hxX]
      simp [List.append_assoc]
    · obtain ⟨w2, z2, htr, hw2, -⟩ := hRESTR ▸ htrig
      have hform : w ++ "<JSON>".toList ++ nl =
          w ++ '<' :: ("JSON>".toList ++ nl) := by
        rw [List.append_assoc]
        rfl
      rw [hform] at htr
      have huniq := ws_prefix_unique isPySpace w '<' ("JSON>".toList ++ nl)
        w2 ocP z2 htr hw hw2 (by decide) hPws
      exact hPlt huniq.2.1.symm
    · have hmem : ':' ∈ w ++ "<JSON>".toList ++ nl := by
        rw [hR]
        exact List.mem_append.mpr (Or.inr (List.mem_cons_self _ _))
      rcases List.mem_append.mp hmem with h0 | h0
      · rcases List.mem_append.mp h0 with h1 | h1
        · exact absurd (hw ':' h1) (by decide)
        · exact absurd h1 (by decide)
      · rcases hnl with ⟨hnla, -⟩ | ⟨hnlb, -, -⟩
        · rw [hnla] at h0; cases h0
        · rw [hnlb] at h0
          rcases List.mem_cons.mp h0 with h1 | h1
          · exact absurd h1 (by decide)
          · cases h1

/-- A JSON tail pass cannot create a word-delimited occurrence of any of
the word-pattern shapes. -/
theorem json_preserve_word (ocA : Char) (hAws : isPySpace ocA = false)
    (hAword : isWordChar ocA = false) (shape : Str → Prop)
    (Hsh1 : ∀ v, shape v → ∃ c t, v = c :: t ∧ isWordChar c = true)
    (Hsh3 : ∀ v, shape v → '<' ∉ v ∧ '>' ∉ v)
    (HshTokJ : ∀ v x y, "<JSON>".toList = x ++ v ++ y → ¬ shape v)
    (u : Str) (h : ¬ wordOcc shape none u) :
    ¬ wordOcc shape none (jsonTailSub ocA u) := by
  rcases jsonTailSub_structured ocA hAws u with ⟨hid, -⟩ |
    ⟨x, w, z, nl, hsplit, hw, hout, hnl, -⟩
  · rw [hid]; exact h
  · rintro ⟨X, v, Y, hXsplit, hsh, hleft, hright⟩
    have heqK : (x ++ ':' :: w) ++ ("<JSON>".toList ++ nl) = X ++ v ++ Y := by
      rw [← hXsplit, hout]
      simp [List.append_assoc]
    have huK : u = (x ++ ':' :: w) ++ (ocA :: z) := by
      rw [hsplit]
      simp [List.append_assoc]
    by_cases h1 : X.length + v.length ≤ (x ++ ':' :: w).length
    · obtain ⟨zz, hzz⟩ :=
        append_eq_split (x ++ ':' :: w) ("<JSON>".toList ++ nl) X v Y heqK h1
      refine h ⟨X, v, zz ++ ocA :: z, ?_, hsh, hleft, ?_⟩
      · rw [huK, hzz]
        simp [List.append_assoc]
      · cases zz with
        | nil =>
          simp [endBoundary, hAword]
        | cons z0 zt =>
          have hYeq : (z0 :: zt) ++ ("<JSON>".toList ++ nl) = Y := by
            refine List.append_cancel_left (?_ : (X ++ v) ++ _ = (X ++ v) ++ Y)
            rw [← heqK, hzz]
            simp [List.append_assoc]
          have hz0 : isWordChar z0 = false := by
            rw [← hYeq] at hright
            simpa [endBoundary] using hright
          simp [endBoundary, hz0]
    · by_cases h2 : (x ++ ':' :: w).length ≤ X.length
      · obtain ⟨XX, hXK, hJnl⟩ :=
          append_eq_split2 (x ++ ':' :: w) ("<JSON>".toList ++ nl) X v Y heqK h2
        by_cases h3 : XX.length + v.length ≤ ("<JSON>".toList).length
        · obtain ⟨zz, hzz⟩ := append_eq_split "<JSON>".toList nl XX v Y hJnl h3
          exact HshTokJ v XX zz hzz hsh
        · by_cases h4 : ("<JSON>".toList).length ≤ XX.length
          · obtain ⟨XX2, hXX2, hnlsplit⟩ :=
              append_eq_split2 "<JSON>".toList nl XX v Y hJnl h4
            obtain ⟨c0, t0, hv, hw0⟩ := Hsh1 v hsh
            rcases hnl with ⟨hnla, -⟩ | ⟨hnlb, -, -⟩
            · rw [hnla] at hnlsplit
              have h5 := List.append_eq_nil.mp hnlsplit.symm
              have h6 := List.append_eq_nil.mp h5.1
              rw [h6.2] at hv
              simp at hv
            · rw [hnlb, hv] at hnlsplit
              have hl := congrArg List.length hnlsplit
              simp only [List.length_append, List.length_cons,
                List.length_nil] at hl
              have hXX2nil : XX2 = [] := List.length_eq_zero.mp (by omega)
              have hYnil : Y = [] := List.length_eq_zero.mp (by omega)
              rw [hXX2nil, hYnil] at hnlsplit
              simp only [List.nil_append, List.append_nil] at hnlsplit
              injection hnlsplit with hc0 hdead
              rw [← hc0] at hw0
              exact absurd hw0 (by decide)
          · have hJd : ("<JSON>".toList : Str) =
                ("<JSON>".toList : Str).dropLast ++ ['>'] := by decide
            have hJsplit : ("<JSON>".toList : Str).dropLast ++ '>' :: nl =
                XX ++ v ++ Y := by
              rw [← hJnl]
              conv_rhs => rw [hJd]
              simp
            have hJlen : ("<JSON>".toList : Str).length = 6 := by decide
            have hJdlen : ("<JSON>".toList : Str).dropLast.length = 5 := by decide
            have hmem : '>' ∈ v := by
              refine middle_mem ("<JSON>".toList : Str).dropLast '>' nl XX v Y
                hJsplit ?_ ?_
              · rw [hJlen] at h4
                rw [hJdlen]
                omega
              · rw [hJlen] at h3
                rw [hJdlen]
                omega
            exact (Hsh3 v hsh).2 hmem
      · have hcross : (x ++ ':' :: w) ++ '<' :: ("JSON>".toList ++ nl) =
            X ++ v ++ Y := by
          rw [← heqK]
          rfl
        have hmem : '<' ∈ v :=
          middle_mem (x ++ ':' :: w) '<' ("JSON>".toList ++ nl) X v Y hcross
            (le_of_not_le h2) (Nat.lt_of_not_le h1)
        exact (Hsh3 v hsh).1 hmem

theorem decomp_of_sound4 (mt : Option Char → Str → Option (Str × Str))
    (h4 : ∀ p s m rem, mt p s = some (m, rem) →
      s = m ++ rem ∧ m ≠ [] ∧ boundaryOk p = true ∧ endBoundary rem = true) :
    ∀ p s m rem, mt p s = some (m, rem) → s = m ++ rem ∧ m ≠ [] :=
  fun p s m rem hm => ⟨(h4 p s m rem hm).1, (h4 p s m rem hm).2.1⟩

theorem pystrip_subset (s : Str) : ∀ c ∈ pystrip s, c ∈ s := by
  intro c hc
  unfold pystrip at hc
  have h1 : (s.dropWhile isPySpace).rdropWhile isPySpace <+:
      s.dropWhile isPySpace := List.rdropWhile_prefix _ _
  have h2 : s.dropWhile isPySpace <:+ s := List.dropWhile_suffix _
  exact h2.sublist.subset (h1.sublist.subset hc)

theorem subst_no_esc (mt : Option Char → Str → Option (Str × Str)) (repl : Str)
    (Hs : ∀ p s m rem, mt p s = some (m, rem) → s = m ++ rem ∧ m ≠ [])
    (hrepl : ('\x1b' : Char) ∉ repl) (u : Str) (h : ('\x1b' : Char) ∉ u) :
    ('\x1b' : Char) ∉ subst mt repl u := by
  intro hmem
  have hscan := scan_substF mt repl Hs u.length none u (le_refl _)
  rcases scan_chars mt repl Hs none u _ hscan '\x1b' hmem with h0 | h0
  · exact h h0
  · exact hrepl h0

theorem jsonTailSub_no_esc (oc : Char) (hoc : isPySpace oc = false) (u : Str)
    (h : ('\x1b' : Char) ∉ u) : ('\x1b' : Char) ∉ jsonTailSub oc u := by
  rcases jsonTailSub_structured oc hoc u with ⟨hid, -⟩ |
    ⟨x, w, z, nl, hsplit, hw, hout, hnl, -⟩
  · rw [hid]; exact h
  · rw [hout]
    intro hmem
    simp only [List.mem_append, List.mem_cons] at hmem
    rcases hmem with h0 | h0 | (h0 | h0) | h0
    · exact h (by rw [hsplit]; exact List.mem_append.mpr (Or.inl h0))
    · exact absurd h0 (by decide)
    · refine h ?_
      rw [hsplit]
      refine List.mem_append.mpr (Or.inr (List.mem_cons_of_mem _ ?_))
      exact List.mem_append.mpr (Or.inl h0)
    · exact absurd h0 (by decide)
    · rcases hnl with ⟨hnla, -⟩ | ⟨hnlb, -, -⟩
      · rw [hnla] at h0; cases h0
      · rw [hnlb] at h0
        rcases List.mem_cons.mp h0 with h1 | h1
        · exact absurd h1 (by decide)
        · cases h1

theorem closed_head_not_ws (tok : Str) (a : Char) (ha : tok.head? = some a)
    (hws : isPySpace a = false) :
    ∀ c, tok.head? = some c → isPySpace c = false := by
  intro c hc
  rw [ha] at hc
  injection hc with h2
  rw [← h2]
  exact hws

theorem closed_last_not_ws (tok : Str) (a : Char) (ha : tok.getLast? = some a)
    (hws : isPySpace a = false) :
    ∀ c, tok.getLast? = some c → isPySpace c = false := by
  intro c hc
  rw [ha] at hc
  injection hc with h2
  rw [← h2]
  exact hws

theorem pystrip_strippedStr (s : Str) : strippedStr (pystrip s) := by
  constructor
  · intro c hc
    unfold pystrip at hc
    obtain ⟨t, ht⟩ := List.rdropWhile_prefix isPySpace (s.dropWhile isPySpace)
    have hc2 : (s.dropWhile isPySpace).head? = some c := by
      rw [← ht]
      cases hr : (s.dropWhile isPySpace).rdropWhile isPySpace with
      | nil => rw [hr] at hc; cases hc
      | cons a b =>
        rw [hr] at hc
        rw [List.cons_append, List.head?_cons]
        rw [List.head?_cons] at hc
        exact hc
    exact dropWhile_head_not isPySpace s c hc2
  · intro c hc
    unfold pystrip at hc
    have hne : (s.dropWhile isPySpace).rdropWhile isPySpace ≠ [] := by
      intro h0
      rw [h0] at hc
      cases hc
    have hlast := List.rdropWhile_last_not isPySpace (s.dropWhile isPySpace) hne
    have h9 := List.getLast?_eq_getLast _ hne
    rw [h9] at hc
    injection hc with hc2
    rw [← hc2]
    cases hP : isPySpace (((s.dropWhile isPySpace).rdropWhile isPySpace).getLast hne)
    · rfl
    · exact absurd hP hlast

theorem subst_stripped (mt : Option Char → Str → Option (Str × Str)) (repl : Str)
    (Hs : ∀ p s m rem, mt p s = some (m, rem) → s = m ++ rem ∧ m ≠ [])
    (hrne : repl ≠ [])
    (hrh : ∀ c, repl.head? = some c → isPySpace c = false)
    (hrl : ∀ c, repl.getLast? = some c → isPySpace c = false)
    (u : Str) (h : strippedStr u) : strippedStr (subst mt repl u) := by
  have hscan := scan_substF mt repl Hs u.length none u (le_refl _)
  constructor
  · intro c hc
    rcases scan_head mt repl hrne none u _ hscan c hc with h0 | h0
    · exact h.1 c h0
    · exact hrh c h0
  · intro c hc
    rcases scan_last mt repl Hs hrne none u _ hscan c hc with h0 | h0
    · exact h.2 c h0
    · exact hrl c h0

theorem jsonTailSub_stripped (oc : Char) (hoc : isPySpace oc = false) (u : Str)
    (h : strippedStr u) : strippedStr (jsonTailSub oc u) := by
  rcases jsonTailSub_structured oc hoc u with ⟨hid, -⟩ |
    ⟨x, w, z, nl, hsplit, hw, hout, hnl, -⟩
  · rw [hid]; exact h
  · have hnla : nl = [] := by
      rcases hnl with ⟨h0, -⟩ | ⟨h0, -, h2⟩
      · exact h0
      · exfalso
        have hzne : z ≠ [] := by
          intro h3
          rw [h3] at h2
          cases h2
        have hulast : u.getLast? = some '\n' := by
          rw [hsplit]
          have hform : x ++ ':' :: (w ++ oc :: z) =
              (x ++ ':' :: (w ++ [oc])) ++ z := by
            simp [List.append_assoc]
          rw [hform, getLast?_append_right_ne _ _ hzne]
          exact h2
        exact absurd (h.2 '\n' hulast) (by decide)
    rw [hnla] at hout
    constructor
    · intro c hc
      rw [hout] at hc
      cases x with
      | nil =>
        rw [List.nil_append, List.head?_cons] at hc
        injection hc with h2
        rw [← h2]
        decide
      | cons x0 x1 =>
        rw [List.cons_append, List.head?_cons] at hc
        injection hc with h2
        have hu : u.head? = some x0 := by
          rw [hsplit, List.cons_append, List.head?_cons]
        rw [← h2]
        exact h.1 x0 hu
    · intro c hc
      rw [hout] at hc
      have hform : x ++ ':' :: (w ++ "<JSON>".toList ++ []) =
          (x ++ ':' :: w) ++ "<JSON>".toList := by
        simp [List.append_assoc]
      rw [hform, getLast?_append_right_ne _ _ (by decide)] at hc
      have h2 : some '>' = some c := hc
      injection h2 with h3
      rw [← h3]
      decide

theorem dropWhile_eq_self_of_head (p : Char → Bool) (l : Str)
    (h : ∀ c, l.head? = some c → p c = false) : l.dropWhile p = l := by
  cases l with
  | nil => rfl
  | cons a t =>
    rw [List.dropWhile_cons]
    simp [h a rfl]

theorem rdropWhile_eq_self_of_last (p : Char → Bool) (l : Str)
    (h : ∀ c, l.getLast? = some c → p c = false) : l.rdropWhile p = l := by
  cases hl : l.getLast? with
  | none =>
    have h0 : l = [] := List.getLast?_eq_none_iff.mp hl
    rw [h0]
    rfl
  | some c =>
    have hdl : l.dropLast ++ [c] = l := List.dropLast_append_getLast? c hl
    rw [← hdl]
    exact List.rdropWhile_concat_neg p l.dropLast c (by simp [h c hl])

theorem pystrip_eq_self (s : Str) (h : strippedStr s) : pystrip s = s := by
  unfold pystrip
  rw [dropWhile_eq_self_of_head isPySpace s h.1]
  exact rdropWhile_eq_self_of_last isPySpace s h.2

theorem wordPasses_no_esc (u : Str) (h : ('\x1b' : Char) ∉ u) :
    ('\x1b' : Char) ∉ wordPasses u := by
  unfold wordPasses
  exact subst_no_esc matchNum _ (decomp_of_sound4 _ num_sound4) (by decide) _
    (subst_no_esc matchDuration _ (decomp_of_sound4 _ dur_sound4) (by decide) _
      (subst_no_esc matchHttpTiming _ (decomp_of_sound4 _ http_sound4) (by decide) _
        (subst_no_esc matchHex _ (decomp_of_sound4 _ hex_sound4) (by decide) _
          (subst_no_esc matchReq _ (decomp_of_sound4 _ req_sound4) (by decide) _
            (subst_no_esc matchTask _ (decomp_of_sound4 _ task_sound4) (by decide) _
              (subst_no_esc matchUuid _ (decomp_of_sound4 _ uuid_sound4)
                (by decide) _ h))))))

theorem wordPasses_stripped (u : Str) (h : strippedStr u) :
    strippedStr (wordPasses u) := by
  unfold wordPasses
  exact subst_stripped matchNum _ (decomp_of_sound4 _ num_sound4) (by decide)
    (closed_head_not_ws _ '<' (by decide) (by decide))
    (closed_last_not_ws _ '>' (by decide) (by decide)) _
    (subst_stripped matchDuration _ (decomp_of_sound4 _ dur_sound4) (by decide)
      (closed_head_not_ws _ '<' (by decide) (by decide))
      (closed_last_not_ws _ '>' (by decide) (by decide)) _
      (subst_stripped matchHttpTiming _ (decomp_of_sound4 _ http_sound4) (by decide)
        (closed_head_not_ws _ '<' (by decide) (by decide))
        (closed_last_not_ws _ '>' (by decide) (by decide)) _
        (subst_stripped matchHex _ (decomp_of_sound4 _ hex_sound4) (by decide)
          (closed_head_not_ws _ '<' (by decide) (by decide))
          (closed_last_not_ws _ '>' (by decide) (by decide)) _
          (subst_stripped matchReq _ (decomp_of_sound4 _ req_sound4) (by decide)
            (closed_head_not_ws _ '<' (by decide) (by decide))
            (closed_last_not_ws _ '>' (by decide) (by decide)) _
            (subst_stripped matchTask _ (decomp_of_sound4 _ task_sound4) (by decide)
              (closed_head_not_ws _ '<' (by decide) (by decide))
              (closed_last_not_ws _ '>' (by decide) (by decide)) _
              (subst_stripped matchUuid _ (decomp_of_sound4 _ uuid_sound4) (by decide)
                (closed_head_not_ws _ '<' (by decide) (by decide))
                (closed_last_not_ws _ '>' (by decide) (by decide)) _ h))))))

/-- C10 (amended): `normalize_line` is idempotent on every input line that
contains no ESC character (`\x1b`).  Escape-sequence stripping can expose a
new escape sequence and is the only source of non-idempotence; on
ESC-free input every replacement pass leaves its own output and the
output of all later passes fixed, so applying `normalize_line` to an
already-normalized line returns it unchanged. -/
theorem C10_amended (s : Str) (hesc : ('\x1b' : Char) ∉ s) :
    normalize_line (normalize_line s) = normalize_line s := by
  have hnl : normalize_line s =
      jsonTailSub '[' (jsonTailSub '{' (wordPasses (pystrip (strip_ansi s)))) := rfl
  have hsa : strip_ansi s = s := ansiSub_no_esc s hesc
  have hu1esc : ('\x1b' : Char) ∉ pystrip (strip_ansi s) := by
    rw [hsa]
    intro hm
    exact hesc (pystrip_subset s _ hm)
  have htesc : ('\x1b' : Char) ∉ normalize_line s := by
    rw [hnl]
    exact jsonTailSub_no_esc '[' (by decide) _
      (jsonTailSub_no_esc '{' (by decide) _ (wordPasses_no_esc _ hu1esc))
  have htstr : strippedStr (normalize_line s) := by
    rw [hnl]
    exact jsonTailSub_stripped '[' (by decide) _
      (jsonTailSub_stripped '{' (by decide) _
        (wordPasses_stripped _ (pystrip_strippedStr (strip_ansi s))))
  have hocc_uuid : ¬ wordOcc shapeUuid none (normalize_line s) := by
    rw [hnl]
    refine json_preserve_word '[' (by decide) (by decide) shapeUuid shapeUuid_head
      shapeUuid_brackets
      (noTok_of_witness _ _ _ shapeUuid_dash (all_not_of_decide _ _ (by decide))) _ ?_
    refine json_preserve_word '{' (by decide) (by decide) shapeUuid shapeUuid_head
      shapeUuid_brackets
      (noTok_of_witness _ _ _ shapeUuid_dash (all_not_of_decide _ _ (by decide))) _ ?_
    exact noOcc_uuid_wordPasses _
  have hocc_task : ¬ wordOcc (shapeIdent "cognitive-task-".toList) none
      (normalize_line s) := by
    rw [hnl]
    refine json_preserve_word '[' (by decide) (by decide) _
      (shapeIdent_head "cognitive-task-".toList 'c' "ognitive-task-".toList rfl
        (by decide))
      (shapeIdent_brackets "cognitive-task-".toList (by decide) (by decide))
      (noTok_of_witness _ _ _ (shapeIdent_dash "cognitive-task-".toList (by decide))
        (all_not_of_decide _ _ (by decide))) _ ?_
    refine json_preserve_word '{' (by decide) (by decide) _
      (shapeIdent_head "cognitive-task-".toList 'c' "ognitive-task-".toList rfl
        (by decide))
      (shapeIdent_brackets "cognitive-task-".toList (by decide) (by decide))
      (noTok_of_witness _ _ _ (shapeIdent_dash "cognitive-task-".toList (by decide))
        (all_not_of_decide _ _ (by decide))) _ ?_
    exact noOcc_task_wordPasses _
  have hocc_req : ¬ wordOcc (shapeIdent "ep-".toList) none (normalize_line s) := by
    rw [hnl]
    refine json_preserve_word '[' (by decide) (by decide) _
      (shapeIdent_head "ep-".toList 'e' "p-".toList rfl (by decide))
      (shapeIdent_brackets "ep-".toList (by decide) (by decide))
      (noTok_of_witness _ _ _ (shapeIdent_dash "ep-".toList (by decide))
        (all_not_of_decide _ _ (by decide))) _ ?_
    refine json_preserve_word '{' (by decide) (by decide) _
      (shapeIdent_head "ep-".toList 'e' "p-".toList rfl (by decide))
      (shapeIdent_brackets "ep-".toList (by decide) (by decide))
      (noTok_of_witness _ _ _ (shapeIdent_dash "ep-".toList (by decide))
        (all_not_of_decide _ _ (by decide))) _ ?_
    exact noOcc_req_wordPasses _
  have hocc_hex : ¬ wordOcc shapeHex none (normalize_line s) := by
    rw [hnl]
    refine json_preserve_word '[' (by decide) (by decide) shapeHex shapeHex_head
      shapeHex_brackets (noTok_of_short _ (by decide)) _ ?_
    refine json_preserve_word '{' (by decide) (by decide) shapeHex shapeHex_head
      shapeHex_brackets (noTok_of_short _ (by decide)) _ ?_
    exact noOcc_hex_wordPasses _
  have hocc_http : ¬ wordOcc shapeHttp none (normalize_line s) := by
    rw [hnl]
    refine json_preserve_word '[' (by decide) (by decide) shapeHttp shapeHttp_head
      shapeHttp_brackets
      (noTok_of_witness _ _ _ shapeHttp_digit (all_not_of_decide _ _ (by decide))) _ ?_
    refine json_preserve_word '{' (by decide) (by decide) shapeHttp shapeHttp_head
      shapeHttp_brackets
      (noTok_of_witness _ _ _ shapeHttp_digit (all_not_of_decide _ _ (by decide))) _ ?_
    exact noOcc_http_wordPasses _
  have hocc_dur : ¬ wordOcc shapeDur none (normalize_line s) := by
    rw [hnl]
    refine json_preserve_word '[' (by decide) (by decide) shapeDur shapeDur_head
      shapeDur_brackets
      (noTok_of_witness _ _ _ shapeDur_digit (all_not_of_decide _ _ (by decide))) _ ?_
    refine json_preserve_word '{' (by decide) (by decide) shapeDur shapeDur_head
      shapeDur_brackets
      (noTok_of_witness _ _ _ shapeDur_digit (all_not_of_decide _ _ (by decide))) _ ?_
    exact noOcc_dur_wordPasses _
  have hocc_num : ¬ wordOcc shapeNum none (normalize_line s) := by
    rw [hnl]
    refine json_preserve_word '[' (by decide) (by decide) shapeNum shapeNum_head
      shapeNum_brackets
      (noTok_of_witness _ _ _ shapeNum_digit (all_not_of_decide _ _ (by decide))) _ ?_
    refine json_preserve_word '{' (by decide) (by decide) shapeNum shapeNum_head
      shapeNum_brackets
      (noTok_of_witness _ _ _ shapeNum_digit (all_not_of_decide _ _ (by decide))) _ ?_
    exact noOcc_num_wordPasses _
  have hid_uuid : uuidSub (normalize_line s) = normalize_line s :=
    subst_eq_self_of_noOcc matchUuid _ shapeUuid matchUuid_sound _ hocc_uuid
  have hid_task : taskSub (normalize_line s) = normalize_line s :=
    subst_eq_self_of_noOcc matchTask _ _ matchTask_sound _ hocc_task
  have hid_req : reqSub (normalize_line s) = normalize_line s :=
    subst_eq_self_of_noOcc matchReq _ _ matchReq_sound _ hocc_req
  have hid_hex : hexSub (normalize_line s) = normalize_line s :=
    subst_eq_self_of_noOcc matchHex _ shapeHex matchHex_sound _ hocc_hex
  have hid_http : httpTimingSub (normalize_line s) = normalize_line s :=
    subst_eq_self_of_noOcc matchHttpTiming _ shapeHttp matchHttpTiming_sound _
      hocc_http
  have hid_dur : durationSub (normalize_line s) = normalize_line s :=
    subst_eq_self_of_noOcc matchDuration _ shapeDur matchDuration_sound _ hocc_dur
  have hid_num : numSub (normalize_line s) = normalize_line s :=
    subst_eq_self_of_noOcc matchNum _ shapeNum matchNum_sound _ hocc_num
  have hja_occ : ¬ jtOcc '[' (normalize_line s) := by
    rw [hnl]
    exact jt_noOcc_out '[' (by decide) (by decide) (by decide) (by decide) _
  have hjt_occ : ¬ jtOcc '{' (normalize_line s) := by
    rw [hnl]
    exact jtOcc_preserved '{' '[' (by decide) (by decide) (by decide) (by decide)
      (by decide) _
      (jt_noOcc_out '{' (by decide) (by decide) (by decide) (by decide) _)
  have hid_ja : jsonTailSub '[' (normalize_line s) = normalize_line s :=
    jsonTailSub_eq_self '[' (by decide) _ hja_occ
  have hid_jt : jsonTailSub '{' (normalize_line s) = normalize_line s :=
    jsonTailSub_eq_self '{' (by decide) _ hjt_occ
  have hid_sa : strip_ansi (normalize_line s) = normalize_line s :=
    ansiSub_no_esc _ htesc
  have hid_strip : pystrip (normalize_line s) = normalize_line s :=
    pystrip_eq_self _ htstr
  show jsonTailSub '[' (jsonTailSub '{' (numSub (durationSub (httpTimingSub
      (hexSub (reqSub (taskSub (uuidSub (pystrip (strip_ansi
        (normalize_line s))))))))))) = normalize_line s
  rw [hid_sa, hid_strip, hid_uuid, hid_task, hid_req, hid_hex, hid_http,
    hid_dur, hid_num, hid_jt, hid_ja]

/-- Witness for the amended C10 at a concrete ESC-free input line. -/
theorem C10_witness :
    normalize_line (normalize_line
      "[Bot] ERROR task ep-12 failed in 300ms".toList) =
    normalize_line "[Bot] ERROR task ep-12 failed in 300ms".toList :=
  C10_amended "[Bot] ERROR task ep-12 failed in 300ms".toList
    (by decide)

end RunlogAudit
